import Mathlib

/-!
A verification development for `blendshape_groups.py`, a library that manages
the group hierarchy of a Maya blendShape node.

The host storage is modelled shallowly:

* `targetDirectory[i]` (one compound per group) becomes an association list
  `Store.grps : List (Nat × GrpRec)`, where a `GrpRec` holds the
  `parentIndex`, `childIndices` and `directoryName` fields of the compound.
* `parentDirectory[t]` (one int per blendshape target) becomes an association
  list `Store.tgts : List (Nat × Nat)` mapping a target index to the index of
  the group that owns it.

Maya conventions captured by the model:

* `getAttr` on a multi element that has never been created returns the
  default value of the attribute (0 for ints, unset/None for strings, an
  empty list for `childIndices` -- the Python code normalises `None` to `[]`
  itself with `or []`) and does not create the element.
* `setAttr` on a multi element creates it, with all other fields at their
  defaults, if it did not exist yet.
* `removeMultiInstance ... -b true` removes the element wholesale.
* the root group lives at index 0 and its `parentIndex` field holds the
  no-parent value 0, which is exactly the value at which the upward walk
  `_grp_parent_iterator` (condition `parent_index > 0`) stops.
* the enumeration order of `listAttr -multi` is abstracted as the order of
  the association list; no claim below depends on it beyond cardinality.

String attributes (`directoryName`) are modelled as `Option String` because
Maya returns `None` for a string attribute that was never set, and the Python
code compares such values against candidate names with `in`, where a Python
`str` never equals `None`.
-/

/-- One `targetDirectory[i]` compound: `parentIndex`, `childIndices`
(groups as negated indices, targets as non-negative indices) and
`directoryName`. -/
structure GrpRec where
  parent : Nat
  children : List Int
  name : Option String
deriving Repr, DecidableEq

/-- The default values a freshly created `targetDirectory` element holds. -/
def defaultGrpRec : GrpRec := ⟨0, [], none⟩

/-- The blendShape node state visible to the library: the sparse
`targetDirectory` array and the sparse `parentDirectory` array. -/
structure Store where
  grps : List (Nat × GrpRec)
  tgts : List (Nat × Nat)
deriving Repr, DecidableEq

/-- Record of group `i`, if the multi element exists. -/
def lookupGrp (s : Store) (i : Nat) : Option GrpRec :=
  List.lookup i s.grps

/-- `_grp_exists`: whether `targetDirectory[i]` exists. -/
def grpExists (s : Store) (i : Nat) : Bool :=
  (lookupGrp s i).isSome

/-- `_get_grp_parent`: `getAttr targetDirectory[i].parentIndex`
(default 0 when the element does not exist). -/
def getGrpParent (s : Store) (i : Nat) : Nat :=
  match lookupGrp s i with
  | some r => r.parent
  | none => 0

/-- `_get_grp_children`: `getAttr targetDirectory[i].childIndices or []`. -/
def getGrpChildren (s : Store) (i : Nat) : List Int :=
  match lookupGrp s i with
  | some r => r.children
  | none => []

/-- `getAttr targetDirectory[i].directoryName` (None when never set). -/
def getGrpNameField (s : Store) (i : Nat) : Option String :=
  match lookupGrp s i with
  | some r => r.name
  | none => none

/-- `setAttr` semantics on `targetDirectory[i]`: overwrite the field if the
element exists, otherwise create the element with default fields and then
write. -/
def updGrp (s : Store) (i : Nat) (f : GrpRec → GrpRec) : Store :=
  if grpExists s i then
    { s with grps := s.grps.map (fun p => if p.1 = i then (i, f p.2) else p) }
  else
    { s with grps := s.grps ++ [(i, f defaultGrpRec)] }

/-- `_set_grp_parent`. -/
def setGrpParent (s : Store) (i : Nat) (p : Nat) : Store :=
  updGrp s i (fun r => { r with parent := p })

/-- `_set_grp_children`. -/
def setGrpChildren (s : Store) (i : Nat) (c : List Int) : Store :=
  updGrp s i (fun r => { r with children := c })

/-- `setAttr targetDirectory[i].directoryName`. -/
def setGrpName (s : Store) (i : Nat) (n : String) : Store :=
  updGrp s i (fun r => { r with name := some n })

/-- `removeMultiInstance targetDirectory[i] -b true`. -/
def removeGrpRecord (s : Store) (i : Nat) : Store :=
  { s with grps := s.grps.filter (fun p => p.1 ≠ i) }

/-- `getAttr parentDirectory[t]` (default 0 when the element does not
exist). -/
def getTgtParent (s : Store) (t : Nat) : Nat :=
  match List.lookup t s.tgts with
  | some p => p
  | none => 0

/-- Whether `parentDirectory[t]` exists: the leaf is known to the
hierarchy. -/
def tgtExists (s : Store) (t : Nat) : Bool :=
  (List.lookup t s.tgts).isSome

/-- `setAttr parentDirectory[t]`. -/
def setTgtParent (s : Store) (t : Nat) (p : Nat) : Store :=
  if tgtExists s t then
    { s with tgts := s.tgts.map (fun q => if q.1 = t then (t, p) else q) }
  else
    { s with tgts := s.tgts ++ [(t, p)] }

/-- `get_all_grp_indices`: every existing group index (enumeration order
abstracted as association-list order). -/
def get_all_grp_indices (s : Store) : List Nat :=
  s.grps.map (fun p => p.1)

/-- `get_grp_count`: number of existing groups, root included. -/
def get_grp_count (s : Store) : Nat :=
  (get_all_grp_indices s).length

/-- The `ValueError` message raised by `_check_grp_validation`
(apostrophes of the Python text written out as full words). -/
def invalidMsg (i : Nat) : String :=
  "Group index " ++ toString i ++ " is not valid because it does not exist"

/-- `cmds.warning` text for moving a group onto itself. -/
def warnSelf (i : Nat) : String :=
  "Unable to move group index " ++ toString i ++ " to itself"

/-- `cmds.warning` text for moving a group under its own subtree. -/
def warnChild (i : Nat) : String :=
  "Unable to move to group index " ++ toString i ++ " to one of its own children"

/-- One step of `_grp_parent_iterator`: the parent of `g` when the iterator
would keep walking (`parent_index > 0`), `none` where it stops. -/
def pstep (s : Store) (g : Nat) : Option Nat :=
  let p := getGrpParent s g
  if 0 < p then some p else none

/-- Fuel-indexed walk along an `Option`-valued step function; the generic
shape of `_grp_parent_iterator`. The Python generator has no fuel: it simply
recurses, so it terminates exactly when the walk reaches a `none` step, which
the lemmas below establish under acyclicity. -/
def optChain (st : Nat → Option Nat) : Nat → Nat → List Nat
  | 0, _ => []
  | fuel + 1, g =>
    match st g with
    | some p => p :: optChain st fuel p
    | none => []

/-- `list(_grp_parent_iterator(g))` computed with the given fuel. -/
def grpParentChain (s : Store) (fuel : Nat) (g : Nat) : List Nat :=
  optChain (pstep s) fuel g

/-- Fuel that always suffices for parent walks on acyclic stores. -/
def chainFuel (s : Store) : Nat :=
  s.grps.length + 2

/-- The first pass of `move_grps`: `for index in reversed(indices)` popping
(with `indices.pop(indices.index(index))`) every element that equals the
destination or occurs in the destination's ancestor chain, and emitting a
warning for each pop.  The argument `n` is the live CPython reversed-list
iterator index plus one: position `n - 1` is examined next, and the iterator
stops when the position falls outside the (shrinking) list. -/
def skipPass (dest : Nat) (conflicts : List Nat) :
    Nat → List Nat → List String → List Nat × List String
  | 0, l, ws => (l, ws)
  | n + 1, l, ws =>
    if h : n < l.length then
      let x := l.get ⟨n, h⟩
      if x = dest then
        skipPass dest conflicts n (l.eraseIdx (l.indexOf x)) (ws ++ [warnSelf x])
      else if x ∈ conflicts then
        skipPass dest conflicts n (l.eraseIdx (l.indexOf x)) (ws ++ [warnChild x])
      else
        skipPass dest conflicts n l ws
    else (l, ws)

/-- Second pass of `move_grps`: detach each surviving index from its current
parent's child list (the write-back happens even when nothing was popped,
mirroring the unconditional `_set_grp_children` call). -/
def detachLoop : List Nat → Store → Store
  | [], s => s
  | i :: rest, s =>
    let op := getGrpParent s i
    let pcs := getGrpChildren s op
    let pcs' :=
      if (-(i : Int)) ∈ pcs then pcs.eraseIdx (pcs.indexOf (-(i : Int))) else pcs
    detachLoop rest (setGrpChildren s op pcs')

/-- Third pass of `move_grps`: accumulate the destination's new child list
(append `-index` when absent) while setting each moved group's parent. -/
def attachLoop (dest : Nat) : List Nat → List Int → Store → List Int × Store
  | [], acc, s => (acc, s)
  | i :: rest, acc, s =>
    let acc' := if (-(i : Int)) ∈ acc then acc else acc ++ [-(i : Int)]
    attachLoop dest rest acc' (setGrpParent s i dest)

/-- `move_grps(indices, grp_index)`.  Python mutates the caller's `indices`
list in place and returns `None`; the model returns the final contents of
that list, together with the new store and the warnings that were issued.
`ValueError` from `_check_grp_validation` becomes `Except.error`. -/
def move_grps (s : Store) (indices : List Nat) (grp_index : Nat) :
    Except String (Store × List Nat × List String) :=
  if grpExists s grp_index then
    let conflicts := grpParentChain s (chainFuel s) grp_index
    let (idx, ws) := skipPass grp_index conflicts indices.length indices []
    let s1 := detachLoop idx s
    let (acc, s2) := attachLoop grp_index idx (getGrpChildren s1 grp_index) s1
    .ok (setGrpChildren s2 grp_index acc, idx, ws)
  else .error (invalidMsg grp_index)

/-- Loop body sequence of `move_targets`: for each target, append it to the
accumulated destination child list when absent, pop it from its current
parent's child list (writing back only when it was found), then point its
`parentDirectory` entry at the destination. -/
def mtLoop (dest : Nat) : List Nat → List Int → Store → List Int × Store
  | [], acc, s => (acc, s)
  | t :: rest, acc, s =>
    let acc' := if ((t : Int)) ∈ acc then acc else acc ++ [(t : Int)]
    let op := getTgtParent s t
    let pcs := getGrpChildren s op
    let s' :=
      if ((t : Int)) ∈ pcs then
        setGrpChildren s op (pcs.eraseIdx (pcs.indexOf ((t : Int))))
      else s
    mtLoop dest rest acc' (setTgtParent s' t dest)

/-- `move_targets(indices, grp_index)`. -/
def move_targets (s : Store) (indices : List Nat) (grp_index : Nat) :
    Except String Store :=
  if grpExists s grp_index then
    let (acc, s') := mtLoop grp_index indices (getGrpChildren s grp_index) s
    .ok (setGrpChildren s' grp_index acc)
  else .error (invalidMsg grp_index)

/-- Base-10 digits of `n`, least significant first, computed by repeated
division (structurally on a fuel bound so that concrete instances reduce in
the kernel). -/
def decDigitsAux : Nat → Nat → List Nat
  | 0, _ => []
  | _ + 1, 0 => []
  | fuel + 1, n + 1 => (n + 1) % 10 :: decDigitsAux fuel ((n + 1) / 10)

/-- Decimal rendering of a positive number, as `"{}".format(num)` produces:
most significant digit first.  (Used only at `num ≥ 1`, where it agrees with
Python's `str`.) -/
def decRepr (n : Nat) : String :=
  String.mk (((decDigitsAux n n).reverse).map Nat.digitChar)

/-- The candidate sequence `name, name1, name2, ...` tried by
`_build_unique_name`. -/
def candidateName (name : String) : Nat → String
  | 0 => name
  | k + 1 => name ++ decRepr (k + 1)

/-- The `while new_name in existing_names` loop of `_build_unique_name`.
`cur` is the candidate under test and `num` the next suffix to try.  The
fuel only bounds the model's recursion; the sufficiency lemmas show it is
never exhausted on the arguments the library uses. -/
def uniqueNameGo (name : String) (existing : List (Option String)) :
    Nat → Nat → String → String
  | 0, _, cur => cur
  | fuel + 1, num, cur =>
    if some cur ∈ existing then
      uniqueNameGo name existing fuel (num + 1) (name ++ decRepr num)
    else cur

/-- `_build_unique_name(grp_index, name)`: collect the names of every group
child of `grp_index` (negative entries of its child list, own entry
included) and bump a numeric suffix until the candidate avoids them all. -/
def build_unique_name (s : Store) (grp_index : Nat) (name : String) : String :=
  let parentChildren := getGrpChildren s grp_index
  let existing :=
    (parentChildren.filter (fun e => e < 0)).map
      (fun e => getGrpNameField s (-e).toNat)
  uniqueNameGo name existing (existing.length + 1) 1 name

/-- `rename_grp(grp_index, name)`: resolve a unique name among the children
of the group's current parent, write it, and return it. -/
def rename_grp (s : Store) (grp_index : Nat) (name : String) :
    Except String (Store × String) :=
  if grpExists s grp_index then
    let p := getGrpParent s grp_index
    let newName := build_unique_name s p name
    .ok (setGrpName s grp_index newName, newName)
  else .error (invalidMsg grp_index)

/-- `get_grp_name(grp_index)` (a never-set `directoryName` reads as
`none`). -/
def get_grp_name (s : Store) (grp_index : Nat) : Except String (Option String) :=
  if grpExists s grp_index then .ok (getGrpNameField s grp_index)
  else .error (invalidMsg grp_index)

/-- `get_grp_indices(grp_index)`: groups directly under the given group. -/
def get_grp_indices (s : Store) (grp_index : Nat) : Except String (List Nat) :=
  if grpExists s grp_index then
    .ok (((getGrpChildren s grp_index).filter (fun e => e < 0)).map
      (fun e => (-e).toNat))
  else .error (invalidMsg grp_index)

/-- `get_grp_target_indices(grp_index)`: targets directly under the given
group. -/
def get_grp_target_indices (s : Store) (grp_index : Nat) :
    Except String (List Nat) :=
  if grpExists s grp_index then
    .ok (((getGrpChildren s grp_index).filter (fun e => 0 ≤ e)).map
      (fun e => e.toNat))
  else .error (invalidMsg grp_index)

/-- Modelled from the spec: `_next_grp_index` delegates to the Maya command
`blendShapeUnusedTargetDirectoryIndex`, an external allocator whose contract
(section 6 of the spec) is only to return a fresh, currently unused key.
The model picks one definite fresh key: one past the largest existing key. -/
def next_grp_index (s : Store) : Nat :=
  (s.grps.map (fun p => p.1)).foldr Nat.max 0 + 1

/-- Modelled from the spec: `delete_target` delegates to the Maya command
`blendShapeDeleteTargetGroup`, the external leaf-deletion collaborator.  Per
sections 4.8 and 9 of the spec it removes the leaf's own storage record and
does not edit the former parent's child list. -/
def delete_target (s : Store) (t : Nat) : Store :=
  { s with tgts := s.tgts.filter (fun q => q.1 ≠ t) }

/-- `create_grp(parent_grp_index, targets, name)`. -/
def create_grp (s : Store) (parent_grp_index : Nat) (targets : List Nat)
    (name : String) : Except String (Store × Nat) :=
  let new := next_grp_index s
  match move_grps s [new] parent_grp_index with
  | .error e => .error e
  | .ok (s1, _, _) =>
    let s2 := setGrpParent s1 new parent_grp_index
    match rename_grp s2 new name with
    | .error e => .error e
    | .ok (s3, _) =>
      match move_targets s3 targets new with
      | .error e => .error e
      | .ok s4 => .ok (s4, new)

mutual
/-- `delete_grp(grp_index)`: detach from the parent's child list (pop and
write back only when the entry is present), then depth-first delete every
child (groups recurse, targets go to the external collaborator), finally
remove the group's own record.  The fuel only bounds the model's recursion
depth; the Python original recurses without bound and the lemmas below show
the fuel is never exhausted on well-formed stores. -/
def deleteGrpF : Nat → Nat → Store → Except String Store
  | 0, _, _ => .error "recursion depth exhausted"
  | fuel + 1, grp_index, s =>
    if grpExists s grp_index then
      let p := getGrpParent s grp_index
      let pcs := getGrpChildren s p
      let s1 :=
        if (-(grp_index : Int)) ∈ pcs then
          setGrpChildren s p (pcs.eraseIdx (pcs.indexOf (-(grp_index : Int))))
        else s
      deleteKids fuel (getGrpChildren s1 grp_index) s1 >>= fun s2 =>
        .ok (removeGrpRecord s2 grp_index)
    else .error (invalidMsg grp_index)
termination_by fuel _ _ => (fuel, 0)

/-- The `for index in children_indices` loop of `delete_grp`. -/
def deleteKids : Nat → List Int → Store → Except String Store
  | _, [], s => .ok s
  | fuel, e :: rest, s =>
    if e < 0 then
      deleteGrpF fuel (-e).toNat s >>= fun s' => deleteKids fuel rest s'
    else
      deleteKids fuel rest (delete_target s e.toNat)
termination_by fuel l _ => (fuel, l.length + 1)
end

/-- `delete_grp` with the fuel that suffices on every well-formed store. -/
def delete_grp (s : Store) (grp_index : Nat) : Except String Store :=
  deleteGrpF (s.grps.length + 1) grp_index s

/-! ### Association-list lookup lemmas -/

theorem lookup_cons_eq {β : Type} (k : Nat) (r : β) (t : List (Nat × β)) (j : Nat) :
    List.lookup j ((k, r) :: t) = if j = k then some r else List.lookup j t := by
  rw [List.lookup_cons]
  cases hb : j == k
  · simp only [if_neg (by simpa using hb)]
  · simp only [if_pos (by simpa using hb)]

theorem lookup_append_nat {β : Type} (l₁ l₂ : List (Nat × β)) (j : Nat) :
    List.lookup j (l₁ ++ l₂) =
      match List.lookup j l₁ with
      | some r => some r
      | none => List.lookup j l₂ := by
  induction l₁ with
  | nil => simp
  | cons p t ih =>
    obtain ⟨k, r⟩ := p
    rw [List.cons_append, lookup_cons_eq, lookup_cons_eq]
    by_cases h : j = k <;> simp [h, ih]

theorem lookup_map_keyed {β : Type} (l : List (Nat × β)) (i j : Nat) (f : β → β) :
    List.lookup j (l.map (fun p => if p.1 = i then (i, f p.2) else p)) =
      if j = i then (List.lookup j l).map f else List.lookup j l := by
  induction l with
  | nil => simp
  | cons p t ih =>
    obtain ⟨k, r⟩ := p
    by_cases hk : k = i
    · subst hk
      rw [List.map_cons]
      simp only [if_pos rfl]
      rw [lookup_cons_eq, lookup_cons_eq]
      by_cases h : j = k <;> simp [h, ih]
    · rw [List.map_cons]
      simp only [if_neg hk]
      rw [lookup_cons_eq, lookup_cons_eq]
      by_cases h : j = k
      · subst h; simp [hk]
      · simp [h, ih]

theorem lookup_filter_ne {β : Type} (l : List (Nat × β)) (i j : Nat) :
    List.lookup j (l.filter (fun p => p.1 ≠ i)) =
      if j = i then none else List.lookup j l := by
  induction l with
  | nil => simp
  | cons p t ih =>
    obtain ⟨k, r⟩ := p
    by_cases hk : k = i
    · subst hk
      rw [List.filter_cons_of_neg (by simp)]
      rw [ih]
      by_cases h : j = k
      · simp [h]
      · simp [h, lookup_cons_eq]
    · rw [List.filter_cons_of_pos (by simpa using hk)]
      rw [lookup_cons_eq, lookup_cons_eq, ih]
      by_cases h : j = k
      · subst h; simp [hk]
      · simp [h]

/-! ### Reading through the store mutators -/

theorem lookupGrp_updGrp (s : Store) (i : Nat) (f : GrpRec → GrpRec) (j : Nat) :
    lookupGrp (updGrp s i f) j =
      if j = i then some (f ((lookupGrp s i).getD defaultGrpRec))
      else lookupGrp s j := by
  unfold updGrp grpExists
  by_cases he : (lookupGrp s i).isSome
  · rw [if_pos he]
    unfold lookupGrp at *
    rw [lookup_map_keyed]
    by_cases h : j = i
    · subst h
      obtain ⟨r, hr⟩ := Option.isSome_iff_exists.mp he
      simp [hr]
    · simp [h]
  · rw [if_neg he]
    unfold lookupGrp at *
    rw [lookup_append_nat]
    rw [Option.not_isSome_iff_eq_none] at he
    by_cases h : j = i
    · subst h
      simp [he, lookup_cons_eq]
    · rcases hl : List.lookup j s.grps with _ | r
      · simp [hl, lookup_cons_eq, h]
      · simp [hl, h]

theorem lookupGrp_setGrpChildren (s : Store) (i : Nat) (c : List Int) (j : Nat) :
    lookupGrp (setGrpChildren s i c) j =
      if j = i then some { (lookupGrp s i).getD defaultGrpRec with children := c }
      else lookupGrp s j :=
  lookupGrp_updGrp s i _ j

theorem lookupGrp_setGrpParent (s : Store) (i : Nat) (p : Nat) (j : Nat) :
    lookupGrp (setGrpParent s i p) j =
      if j = i then some { (lookupGrp s i).getD defaultGrpRec with parent := p }
      else lookupGrp s j :=
  lookupGrp_updGrp s i _ j

theorem lookupGrp_setGrpName (s : Store) (i : Nat) (n : String) (j : Nat) :
    lookupGrp (setGrpName s i n) j =
      if j = i then some { (lookupGrp s i).getD defaultGrpRec with name := some n }
      else lookupGrp s j :=
  lookupGrp_updGrp s i _ j

theorem lookupGrp_removeGrpRecord (s : Store) (i : Nat) (j : Nat) :
    lookupGrp (removeGrpRecord s i) j = if j = i then none else lookupGrp s j := by
  unfold lookupGrp removeGrpRecord
  exact lookup_filter_ne s.grps i j

theorem lookupGrp_setTgtParent (s : Store) (t : Nat) (p : Nat) (j : Nat) :
    lookupGrp (setTgtParent s t p) j = lookupGrp s j := by
  unfold setTgtParent lookupGrp
  by_cases h : tgtExists s t <;> simp [h]

theorem lookupGrp_delete_target (s : Store) (t : Nat) (j : Nat) :
    lookupGrp (delete_target s t) j = lookupGrp s j := rfl

theorem lookupTgt_setTgtParent (s : Store) (t : Nat) (p : Nat) (j : Nat) :
    List.lookup j (setTgtParent s t p).tgts =
      if j = t then some p else List.lookup j s.tgts := by
  unfold setTgtParent tgtExists
  by_cases he : (List.lookup t s.tgts).isSome
  · rw [if_pos he]
    have hm := lookup_map_keyed s.tgts t j (fun _ => p)
    by_cases h : j = t
    · subst h
      obtain ⟨r, hr⟩ := Option.isSome_iff_exists.mp he
      simpa [hr] using hm
    · simpa [h] using hm
  · rw [if_neg he]
    show List.lookup j (s.tgts ++ [(t, p)]) = _
    rw [lookup_append_nat]
    rw [Option.not_isSome_iff_eq_none] at he
    by_cases h : j = t
    · subst h; simp [he, lookup_cons_eq]
    · rcases hl : List.lookup j s.tgts with _ | r
      · simp [hl, lookup_cons_eq, h]
      · simp [hl, h]

theorem lookupTgt_updGrp (s : Store) (i : Nat) (f : GrpRec → GrpRec) (j : Nat) :
    List.lookup j (updGrp s i f).tgts = List.lookup j s.tgts := by
  unfold updGrp
  by_cases h : grpExists s i <;> simp [h]

theorem lookupTgt_removeGrpRecord (s : Store) (i : Nat) (j : Nat) :
    List.lookup j (removeGrpRecord s i).tgts = List.lookup j s.tgts := rfl

theorem lookupTgt_delete_target (s : Store) (t : Nat) (j : Nat) :
    List.lookup j (delete_target s t).tgts =
      if j = t then none else List.lookup j s.tgts :=
  lookup_filter_ne s.tgts t j

/-! ### Field-level read/write lemmas -/

theorem grpExists_updGrp (s : Store) (i : Nat) (f : GrpRec → GrpRec) (j : Nat) :
    grpExists (updGrp s i f) j = (if j = i then true else grpExists s j) := by
  unfold grpExists
  rw [lookupGrp_updGrp]
  by_cases h : j = i <;> simp [h]

theorem getGrpParent_updGrp (s : Store) (i : Nat) (f : GrpRec → GrpRec) (j : Nat) :
    getGrpParent (updGrp s i f) j =
      if j = i then (f ((lookupGrp s i).getD defaultGrpRec)).parent
      else getGrpParent s j := by
  unfold getGrpParent
  rw [lookupGrp_updGrp]
  by_cases h : j = i <;> simp [h]

theorem getGrpChildren_updGrp (s : Store) (i : Nat) (f : GrpRec → GrpRec) (j : Nat) :
    getGrpChildren (updGrp s i f) j =
      if j = i then (f ((lookupGrp s i).getD defaultGrpRec)).children
      else getGrpChildren s j := by
  unfold getGrpChildren
  rw [lookupGrp_updGrp]
  by_cases h : j = i <;> simp [h]

theorem getGrpNameField_updGrp (s : Store) (i : Nat) (f : GrpRec → GrpRec) (j : Nat) :
    getGrpNameField (updGrp s i f) j =
      if j = i then (f ((lookupGrp s i).getD defaultGrpRec)).name
      else getGrpNameField s j := by
  unfold getGrpNameField
  rw [lookupGrp_updGrp]
  by_cases h : j = i <;> simp [h]

theorem getGrpParent_setGrpChildren (s : Store) (i : Nat) (c : List Int) (j : Nat) :
    getGrpParent (setGrpChildren s i c) j = getGrpParent s j := by
  unfold setGrpChildren
  rw [getGrpParent_updGrp]
  by_cases h : j = i
  · subst h
    unfold getGrpParent
    rcases hl : lookupGrp s j with _ | r <;> simp [hl, defaultGrpRec]
  · simp [h]

theorem getGrpParent_setGrpName (s : Store) (i : Nat) (n : String) (j : Nat) :
    getGrpParent (setGrpName s i n) j = getGrpParent s j := by
  unfold setGrpName
  rw [getGrpParent_updGrp]
  by_cases h : j = i
  · subst h
    unfold getGrpParent
    rcases hl : lookupGrp s j with _ | r <;> simp [hl, defaultGrpRec]
  · simp [h]

theorem getGrpParent_setGrpParent (s : Store) (i : Nat) (p : Nat) (j : Nat) :
    getGrpParent (setGrpParent s i p) j =
      if j = i then p else getGrpParent s j := by
  unfold setGrpParent
  rw [getGrpParent_updGrp]

theorem getGrpChildren_setGrpChildren (s : Store) (i : Nat) (c : List Int) (j : Nat) :
    getGrpChildren (setGrpChildren s i c) j =
      if j = i then c else getGrpChildren s j := by
  unfold setGrpChildren
  rw [getGrpChildren_updGrp]

theorem getGrpChildren_setGrpParent (s : Store) (i : Nat) (p : Nat) (j : Nat) :
    getGrpChildren (setGrpParent s i p) j = getGrpChildren s j := by
  unfold setGrpParent
  rw [getGrpChildren_updGrp]
  by_cases h : j = i
  · subst h
    unfold getGrpChildren
    rcases hl : lookupGrp s j with _ | r <;> simp [hl, defaultGrpRec]
  · simp [h]

theorem getGrpChildren_setGrpName (s : Store) (i : Nat) (n : String) (j : Nat) :
    getGrpChildren (setGrpName s i n) j = getGrpChildren s j := by
  unfold setGrpName
  rw [getGrpChildren_updGrp]
  by_cases h : j = i
  · subst h
    unfold getGrpChildren
    rcases hl : lookupGrp s j with _ | r <;> simp [hl, defaultGrpRec]
  · simp [h]

theorem getGrpNameField_setGrpChildren (s : Store) (i : Nat) (c : List Int) (j : Nat) :
    getGrpNameField (setGrpChildren s i c) j = getGrpNameField s j := by
  unfold setGrpChildren
  rw [getGrpNameField_updGrp]
  by_cases h : j = i
  · subst h
    unfold getGrpNameField
    rcases hl : lookupGrp s j with _ | r <;> simp [hl, defaultGrpRec]
  · simp [h]

theorem getGrpNameField_setGrpParent (s : Store) (i : Nat) (p : Nat) (j : Nat) :
    getGrpNameField (setGrpParent s i p) j = getGrpNameField s j := by
  unfold setGrpParent
  rw [getGrpNameField_updGrp]
  by_cases h : j = i
  · subst h
    unfold getGrpNameField
    rcases hl : lookupGrp s j with _ | r <;> simp [hl, defaultGrpRec]
  · simp [h]

theorem getGrpNameField_setGrpName (s : Store) (i : Nat) (n : String) (j : Nat) :
    getGrpNameField (setGrpName s i n) j =
      if j = i then some n else getGrpNameField s j := by
  unfold setGrpName
  rw [getGrpNameField_updGrp]

theorem grpExists_setGrpChildren (s : Store) (i : Nat) (c : List Int) (j : Nat) :
    grpExists (setGrpChildren s i c) j = (if j = i then true else grpExists s j) :=
  grpExists_updGrp s i _ j

theorem grpExists_setGrpParent (s : Store) (i : Nat) (p : Nat) (j : Nat) :
    grpExists (setGrpParent s i p) j = (if j = i then true else grpExists s j) :=
  grpExists_updGrp s i _ j

theorem grpExists_setGrpName (s : Store) (i : Nat) (n : String) (j : Nat) :
    grpExists (setGrpName s i n) j = (if j = i then true else grpExists s j) :=
  grpExists_updGrp s i _ j

theorem grpExists_removeGrpRecord (s : Store) (i : Nat) (j : Nat) :
    grpExists (removeGrpRecord s i) j = (if j = i then false else grpExists s j) := by
  unfold grpExists
  rw [lookupGrp_removeGrpRecord]
  by_cases h : j = i <;> simp [h]

theorem getGrpParent_removeGrpRecord (s : Store) (i : Nat) (j : Nat) :
    getGrpParent (removeGrpRecord s i) j =
      if j = i then 0 else getGrpParent s j := by
  unfold getGrpParent
  rw [lookupGrp_removeGrpRecord]
  by_cases h : j = i <;> simp [h]

theorem getGrpChildren_removeGrpRecord (s : Store) (i : Nat) (j : Nat) :
    getGrpChildren (removeGrpRecord s i) j =
      if j = i then [] else getGrpChildren s j := by
  unfold getGrpChildren
  rw [lookupGrp_removeGrpRecord]
  by_cases h : j = i <;> simp [h]

theorem grpExists_setTgtParent (s : Store) (t : Nat) (p : Nat) (j : Nat) :
    grpExists (setTgtParent s t p) j = grpExists s j := by
  unfold grpExists
  rw [lookupGrp_setTgtParent]

theorem getGrpParent_setTgtParent (s : Store) (t : Nat) (p : Nat) (j : Nat) :
    getGrpParent (setTgtParent s t p) j = getGrpParent s j := by
  unfold getGrpParent
  rw [lookupGrp_setTgtParent]

theorem getGrpChildren_setTgtParent (s : Store) (t : Nat) (p : Nat) (j : Nat) :
    getGrpChildren (setTgtParent s t p) j = getGrpChildren s j := by
  unfold getGrpChildren
  rw [lookupGrp_setTgtParent]

theorem getGrpNameField_setTgtParent (s : Store) (t : Nat) (p : Nat) (j : Nat) :
    getGrpNameField (setTgtParent s t p) j = getGrpNameField s j := by
  unfold getGrpNameField
  rw [lookupGrp_setTgtParent]

theorem grpExists_delete_target (s : Store) (t : Nat) (j : Nat) :
    grpExists (delete_target s t) j = grpExists s j := rfl

theorem getGrpParent_delete_target (s : Store) (t : Nat) (j : Nat) :
    getGrpParent (delete_target s t) j = getGrpParent s j := rfl

theorem getGrpChildren_delete_target (s : Store) (t : Nat) (j : Nat) :
    getGrpChildren (delete_target s t) j = getGrpChildren s j := rfl

theorem getTgtParent_setTgtParent (s : Store) (t : Nat) (p : Nat) (j : Nat) :
    getTgtParent (setTgtParent s t p) j =
      if j = t then p else getTgtParent s j := by
  unfold getTgtParent
  rw [lookupTgt_setTgtParent]
  by_cases h : j = t <;> simp [h]

theorem tgtExists_setTgtParent (s : Store) (t : Nat) (p : Nat) (j : Nat) :
    tgtExists (setTgtParent s t p) j = (if j = t then true else tgtExists s j) := by
  unfold tgtExists
  rw [lookupTgt_setTgtParent]
  by_cases h : j = t <;> simp [h]

theorem getTgtParent_updGrp (s : Store) (i : Nat) (f : GrpRec → GrpRec) (j : Nat) :
    getTgtParent (updGrp s i f) j = getTgtParent s j := by
  unfold getTgtParent
  rw [lookupTgt_updGrp]

theorem tgtExists_updGrp (s : Store) (i : Nat) (f : GrpRec → GrpRec) (j : Nat) :
    tgtExists (updGrp s i f) j = tgtExists s j := by
  unfold tgtExists
  rw [lookupTgt_updGrp]

theorem getTgtParent_removeGrpRecord (s : Store) (i : Nat) (j : Nat) :
    getTgtParent (removeGrpRecord s i) j = getTgtParent s j := rfl

theorem tgtExists_removeGrpRecord (s : Store) (i : Nat) (j : Nat) :
    tgtExists (removeGrpRecord s i) j = tgtExists s j := rfl

theorem tgtExists_delete_target (s : Store) (t : Nat) (j : Nat) :
    tgtExists (delete_target s t) j = (if j = t then false else tgtExists s j) := by
  unfold tgtExists
  rw [lookupTgt_delete_target]
  by_cases h : j = t <;> simp [h]

theorem getTgtParent_delete_target (s : Store) (t : Nat) (j : Nat) :
    getTgtParent (delete_target s t) j =
      if j = t then 0 else getTgtParent s j := by
  unfold getTgtParent
  rw [lookupTgt_delete_target]
  by_cases h : j = t <;> simp [h]

/-! ### Identity writes, overwrites and key-list behaviour -/

theorem map_keyed_of_not_mem {β : Type} (l : List (Nat × β)) (i : Nat)
    (f : β → β) (h : i ∉ l.map Prod.fst) :
    l.map (fun p => if p.1 = i then (i, f p.2) else p) = l := by
  induction l with
  | nil => rfl
  | cons p t ih =>
    obtain ⟨k, r⟩ := p
    simp only [List.map_cons, List.mem_cons] at h ⊢
    push_neg at h
    rw [if_neg (by simpa using h.1.symm), ih h.2]

theorem lookup_eq_none_of_not_mem_keys {β : Type} (l : List (Nat × β)) (i : Nat)
    (h : i ∉ l.map Prod.fst) : List.lookup i l = none := by
  induction l with
  | nil => rfl
  | cons p t ih =>
    obtain ⟨k, r⟩ := p
    simp only [List.map_cons, List.mem_cons] at h
    push_neg at h
    rw [lookup_cons_eq, if_neg h.1, ih h.2]

theorem not_mem_keys_of_lookup_none {β : Type} (l : List (Nat × β)) (i : Nat)
    (h : List.lookup i l = none) : i ∉ l.map Prod.fst := by
  induction l with
  | nil => simp
  | cons p t ih =>
    obtain ⟨k, r⟩ := p
    rw [lookup_cons_eq] at h
    by_cases hk : i = k
    · rw [if_pos hk] at h; exact absurd h (by simp)
    · rw [if_neg hk] at h
      simp only [List.map_cons, List.mem_cons]
      push_neg
      exact ⟨hk, ih h⟩

theorem map_keyed_id {β : Type} (l : List (Nat × β)) (i : Nat) (f : β → β)
    (hnd : (l.map Prod.fst).Nodup)
    (h : ∀ r, List.lookup i l = some r → f r = r) :
    l.map (fun p => if p.1 = i then (i, f p.2) else p) = l := by
  induction l with
  | nil => rfl
  | cons p t ih =>
    obtain ⟨k, r⟩ := p
    simp only [List.map_cons, List.nodup_cons] at hnd
    by_cases hk : k = i
    · subst hk
      have hfr : f r = r := h r (by rw [lookup_cons_eq, if_pos rfl])
      simp only [List.map_cons, if_pos rfl, hfr]
      rw [map_keyed_of_not_mem t k f hnd.1]
      simp
    · simp only [List.map_cons, if_neg hk]
      rw [ih hnd.2]
      intro r' hr'
      apply h
      rw [lookup_cons_eq, if_neg (fun he => hk he.symm)]
      exact hr'

theorem Store.eq_of_parts (a b : Store) (h1 : a.grps = b.grps)
    (h2 : a.tgts = b.tgts) : a = b := by
  cases a; cases b; simp_all

theorem updGrp_tgts (s : Store) (i : Nat) (f : GrpRec → GrpRec) :
    (updGrp s i f).tgts = s.tgts := by
  unfold updGrp
  by_cases h : grpExists s i <;> simp [h]

theorem updGrp_grps (s : Store) (i : Nat) (f : GrpRec → GrpRec) :
    (updGrp s i f).grps =
      if grpExists s i then
        s.grps.map (fun p => if p.1 = i then (i, f p.2) else p)
      else s.grps ++ [(i, f defaultGrpRec)] := by
  unfold updGrp
  by_cases h : grpExists s i <;> simp [h]

/-- Writing back the child list a group already holds does not change the
store (the `_set_grp_children` calls `move_grps` makes even when nothing was
popped). -/
theorem setGrpChildren_id (s : Store) (i : Nat)
    (hnd : (s.grps.map Prod.fst).Nodup) (he : grpExists s i = true) :
    setGrpChildren s i (getGrpChildren s i) = s := by
  apply Store.eq_of_parts
  · rw [setGrpChildren, updGrp_grps, if_pos he]
    exact map_keyed_id s.grps i (fun r => { r with children := getGrpChildren s i })
      hnd (fun r hr => by
        have hc : getGrpChildren s i = r.children := by
          unfold getGrpChildren lookupGrp
          rw [hr]
        rw [hc])
  · exact updGrp_tgts s i _

/-- Re-pointing a target at the parent it already has does not change the
store. -/
theorem setTgtParent_id (s : Store) (t : Nat)
    (hnd : (s.tgts.map Prod.fst).Nodup) (he : tgtExists s t = true) :
    setTgtParent s t (getTgtParent s t) = s := by
  apply Store.eq_of_parts
  · unfold setTgtParent
    rw [if_pos he]
  · unfold setTgtParent
    rw [if_pos he]
    show s.tgts.map (fun q => if q.1 = t then (t, getTgtParent s t) else q) = s.tgts
    have hm := map_keyed_id s.tgts t (fun _ => getTgtParent s t) hnd
      (fun r hr => by unfold getTgtParent; rw [hr])
    exact hm

/-- Two successive writes to the same group's child list keep only the
second one. -/
theorem setGrpChildren_setGrpChildren (s : Store) (i : Nat) (c c' : List Int) :
    setGrpChildren (setGrpChildren s i c) i c' = setGrpChildren s i c' := by
  have hex : grpExists (setGrpChildren s i c) i = true := by
    rw [grpExists_setGrpChildren, if_pos rfl]
  apply Store.eq_of_parts
  · rw [setGrpChildren, updGrp_grps, if_pos hex]
    rw [setGrpChildren, updGrp_grps, setGrpChildren, updGrp_grps]
    by_cases he : grpExists s i
    · rw [if_pos he, if_pos he, List.map_map]
      apply List.map_congr_left
      intro p _
      by_cases h : p.1 = i <;> simp [h, Function.comp]
    · rw [if_neg he, if_neg he, List.map_append]
      have h1 : (s.grps.map fun p =>
          if p.1 = i then (i, { p.2 with children := c' }) else p) = s.grps :=
        map_keyed_of_not_mem s.grps i (fun r => { r with children := c' })
          (not_mem_keys_of_lookup_none s.grps i
            (Option.not_isSome_iff_eq_none.mp he))
      rw [h1]
      simp
  · show (updGrp (updGrp s i _) i _).tgts = (updGrp s i _).tgts
    rw [updGrp_tgts, updGrp_tgts, updGrp_tgts]

/-! ### Generic machinery for `Option`-valued step functions

`_grp_parent_iterator` is an upward walk along a partial function on group
indices.  Everything below is stated for an arbitrary step function
`st : Nat → Option Nat` and instantiated later both with the walk the code
performs (`pstep`) and with the semantic parent relation (`semParent`). -/

/-- `a` is reachable from `g` by one or more `st`-steps. -/
def AncRel (st : Nat → Option Nat) (g a : Nat) : Prop :=
  Relation.TransGen (fun x y => st x = some y) g a

theorem optChain_zero (st : Nat → Option Nat) (g : Nat) : optChain st 0 g = [] := rfl

theorem optChain_succ (st : Nat → Option Nat) (f g : Nat) :
    optChain st (f + 1) g =
      match st g with
      | some p => p :: optChain st f p
      | none => [] := rfl

theorem optChain_succ_of_some {st : Nat → Option Nat} {g p : Nat}
    (h : st g = some p) (f : Nat) :
    optChain st (f + 1) g = p :: optChain st f p := by
  rw [optChain_succ, h]

theorem optChain_succ_of_none {st : Nat → Option Nat} {g : Nat}
    (h : st g = none) (f : Nat) : optChain st (f + 1) g = [] := by
  rw [optChain_succ, h]

theorem mem_optChain_anc (st : Nat → Option Nat) :
    ∀ (f : Nat) (g a : Nat), a ∈ optChain st f g → AncRel st g a := by
  intro f
  induction f with
  | zero => intro g a h; simp [optChain_zero] at h
  | succ f ih =>
    intro g a h
    rcases hst : st g with _ | p
    · rw [optChain_succ_of_none hst] at h
      simp at h
    · rw [optChain_succ_of_some hst] at h
      rcases List.mem_cons.mp h with h | h
      · subst h
        exact Relation.TransGen.single hst
      · exact Relation.TransGen.head hst (ih p a h)

theorem optChain_length_le (st : Nat → Option Nat) :
    ∀ (f g : Nat), (optChain st f g).length ≤ f := by
  intro f
  induction f with
  | zero => intro g; simp [optChain_zero]
  | succ f ih =>
    intro g
    rcases hst : st g with _ | p
    · rw [optChain_succ_of_none hst]; simp
    · rw [optChain_succ_of_some hst]
      simpa using Nat.succ_le_succ (ih p)

theorem optChain_stable (st : Nat → Option Nat) :
    ∀ (f g : Nat), (optChain st f g).length < f →
      optChain st (f + 1) g = optChain st f g := by
  intro f
  induction f with
  | zero => intro g h; simp at h
  | succ f ih =>
    intro g h
    rcases hst : st g with _ | p
    · rw [optChain_succ_of_none hst, optChain_succ_of_none hst]
    · rw [optChain_succ_of_some hst] at h ⊢
      rw [optChain_succ_of_some hst]
      simp only [List.length_cons] at h
      rw [ih p (by omega)]

theorem optChain_stable_ge (st : Nat → Option Nat) (f g : Nat)
    (h : (optChain st f g).length < f) :
    ∀ f', f ≤ f' → optChain st f' g = optChain st f g := by
  intro f' hf
  induction f' with
  | zero =>
    have : f = 0 := Nat.le_zero.mp hf
    rw [this]
  | succ f' ih =>
    rcases Nat.lt_or_ge f (f' + 1) with hlt | hge
    · have hff : f ≤ f' := by omega
      have heq := ih hff
      rw [← heq] at h
      have := optChain_stable st f' g (by
        calc (optChain st f' g).length < f := h
        _ ≤ f' := hff)
      rw [this, heq]
    · have : f = f' + 1 := by omega
      rw [this]

/-- Under irreflexivity of the reachability relation the walk never repeats
a node. -/
theorem optChain_nodup (st : Nat → Option Nat)
    (hirr : ∀ x, ¬ AncRel st x x) :
    ∀ (f g : Nat), (optChain st f g).Nodup := by
  intro f
  induction f with
  | zero => intro g; simp [optChain_zero]
  | succ f ih =>
    intro g
    rcases hst : st g with _ | p
    · rw [optChain_succ_of_none hst]; simp
    · rw [optChain_succ_of_some hst]
      refine List.nodup_cons.mpr ⟨?_, ih p⟩
      intro hmem
      exact hirr p (mem_optChain_anc st f p p hmem)


/-- Consecutive walk entries are joined by the step function. -/
theorem optChain_adj (st : Nat → Option Nat) :
    ∀ (f g i a b : Nat), (optChain st f g)[i]? = some a →
      (optChain st f g)[i + 1]? = some b → st a = some b := by
  intro f
  induction f with
  | zero => intro g i a b ha _; simp [optChain_zero] at ha
  | succ f ih =>
    intro g i a b ha hb
    rcases hst : st g with _ | p
    · rw [optChain_succ_of_none hst] at ha
      simp at ha
    · rw [optChain_succ_of_some hst] at ha hb
      rcases i with _ | i
      · simp only [List.getElem?_cons_zero, Option.some.injEq] at ha
        rw [← ha]
        simp only [List.getElem?_cons_succ] at hb
        rcases f with _ | f
        · simp [optChain_zero] at hb
        · rcases hst' : st p with _ | q
          · rw [optChain_succ_of_none hst'] at hb
            simp at hb
          · rw [optChain_succ_of_some hst'] at hb
            simp only [List.getElem?_cons_zero, Option.some.injEq] at hb
            rw [hb]
      · simp only [List.getElem?_cons_succ] at ha hb
        exact ih p i a b ha hb

/-- Every walk element that is not the final one has a key in the store (its
step is defined), so an irreflexive walk over a finite store is short. -/
theorem optChain_length_bound (st : Nat → Option Nat) (keys : List Nat)
    (hirr : ∀ x, ¬ AncRel st x x)
    (hstep : ∀ x p, st x = some p → x ∈ keys) (f g : Nat) :
    (optChain st f g).length ≤ keys.length + 1 := by
  set l := optChain st f g with hl
  rcases Nat.eq_zero_or_pos l.length with h0 | hpos
  · omega
  have hndl : l.Nodup := optChain_nodup st hirr f g
  have hsub : l.dropLast ⊆ keys := by
    intro a ha
    rcases List.getElem_of_mem ha with ⟨i, hi, heq⟩
    have hlen : l.dropLast.length = l.length - 1 := List.length_dropLast l
    have hi0 : i < l.length := by omega
    have hi' : i + 1 < l.length := by omega
    have hgl : l.dropLast[i] = l[i] := List.getElem_dropLast l i hi
    have ha' : l[i]? = some a := by
      rw [List.getElem?_eq_getElem hi0, ← hgl, heq]
    have hb' : l[i + 1]? = some (l[i + 1]) := List.getElem?_eq_getElem hi'
    exact hstep a _ (optChain_adj st f g i a _ ha' hb')
  have hnd' : l.dropLast.Nodup := List.Nodup.sublist (List.dropLast_sublist l) hndl
  have := List.Subperm.length_le (List.subperm_of_subset hnd' hsub)
  have hlen : l.dropLast.length = l.length - 1 := List.length_dropLast l
  omega

/-- With completeness (`optChain` already stabilised at fuel `f`), every
reachable node shows up in the walk. -/
theorem optChain_complete_closed (st : Nat → Option Nat) :
    ∀ (f : Nat) (g : Nat), optChain st (f + 1) g = optChain st f g →
      (∀ p, st g = some p → p ∈ optChain st f g) ∧
      (∀ b c, b ∈ optChain st f g → st b = some c → c ∈ optChain st f g) := by
  intro f
  induction f with
  | zero =>
    intro g hc
    constructor
    · intro p hp
      rw [optChain_succ_of_some hp, optChain_zero, optChain_zero] at hc
      simp at hc
    · intro b c hb
      simp [optChain_zero] at hb
  | succ f ih =>
    intro g hc
    rcases hst : st g with _ | p
    · constructor
      · intro p hp
        cases hp
      · intro b c hb
        rw [optChain_succ_of_none hst] at hb
        simp at hb
    · have hc' : optChain st (f + 1) p = optChain st f p := by
        rw [optChain_succ_of_some hst (f + 1), optChain_succ_of_some hst f] at hc
        exact (List.cons.inj hc).2
      constructor
      · intro q hq
        cases hq
        rw [optChain_succ_of_some hst]
        simp
      · intro b c hb hbc
        rw [optChain_succ_of_some hst] at hb ⊢
        rcases List.mem_cons.mp hb with hb | hb
        · subst hb
          exact List.mem_cons.mpr (Or.inr ((ih b hc').1 c hbc))
        · exact List.mem_cons.mpr (Or.inr ((ih p hc').2 b c hb hbc))

theorem anc_mem_optChain (st : Nat → Option Nat) (f g a : Nat)
    (hc : optChain st (f + 1) g = optChain st f g)
    (h : AncRel st g a) : a ∈ optChain st f g := by
  induction h with
  | single hstep => exact (optChain_complete_closed st f g hc).1 _ hstep
  | tail hgb hstep ih =>
    exact (optChain_complete_closed st f g hc).2 _ _ ih hstep

theorem optChain_take (st : Nat → Option Nat) :
    ∀ (f' f g : Nat), f' ≤ f →
      optChain st f' g = (optChain st f g).take f' := by
  intro f'
  induction f' with
  | zero => intro f g _; simp [optChain_zero]
  | succ f' ih =>
    intro f g hle
    rcases f with _ | f₀
    · omega
    rcases hst : st g with _ | p
    · rw [optChain_succ_of_none hst, optChain_succ_of_none hst]
      simp
    · rw [optChain_succ_of_some hst, optChain_succ_of_some hst]
      rw [List.take_succ_cons]
      rw [ih f₀ p (by omega)]

theorem optChain_eq_of_length_lt (st : Nat → Option Nat) (f f' g : Nat)
    (hlen : (optChain st f g).length < f') (hle : f' ≤ f) :
    optChain st f' g = optChain st f g := by
  rw [optChain_take st f' f g hle]
  exact List.take_of_length_le (by omega)

/-- Any two fuels beyond the walk's length produce the same walk. -/
theorem optChain_eq_of_length_lt_both (st : Nat → Option Nat) (f f' g : Nat)
    (hlen : (optChain st f g).length < f') (hlen2 : (optChain st f g).length < f) :
    optChain st f' g = optChain st f g := by
  rcases le_or_lt f' f with h | h
  · exact optChain_eq_of_length_lt st f f' g hlen h
  · exact optChain_stable_ge st f g hlen2 f' (by omega)

/-- The walk only looks at the step function on its own elements, so two step
functions that agree there produce the same walk. -/
theorem optChain_congr (st st' : Nat → Option Nat) :
    ∀ (f g : Nat),
      (∀ x, (x = g ∨ x ∈ optChain st f g) → st' x = st x) →
      optChain st' f g = optChain st f g := by
  intro f
  induction f with
  | zero => intro g _; rfl
  | succ f ih =>
    intro g hagree
    have hg : st' g = st g := hagree g (Or.inl rfl)
    rcases hst : st g with _ | p
    · rw [optChain_succ_of_none hst,
        optChain_succ_of_none (hg.trans hst)]
    · rw [optChain_succ_of_some hst,
        optChain_succ_of_some (hg.trans hst)]
      rw [ih p]
      intro x hx
      apply hagree
      right
      rw [optChain_succ_of_some hst]
      rcases hx with hx | hx
      · subst hx; simp
      · exact List.mem_cons.mpr (Or.inr hx)

/-! ### The semantic parent relation and the I4 invariant -/

/-- The semantic parent of an existing group: the root's `parentIndex` value
0 is the no-parent sentinel, while every other group's `parentIndex` is a
real parent reference (0 meaning the root). -/
def semParent (s : Store) (g : Nat) : Option Nat :=
  match lookupGrp s g with
  | none => none
  | some r =>
    if g = 0 then (if 0 < r.parent then some r.parent else none)
    else some r.parent

/-- Invariant I4: no group is its own ancestor. -/
def Acyclic (s : Store) : Prop :=
  ∀ g, ¬ AncRel (semParent s) g g

theorem mem_keys_of_lookup_some {β : Type} (l : List (Nat × β)) (i : Nat)
    (r : β) (h : List.lookup i l = some r) : i ∈ l.map Prod.fst := by
  by_contra hmem
  rw [lookup_eq_none_of_not_mem_keys l i hmem] at h
  cases h

/-- The iterator step implies the semantic parent step. -/
theorem semParent_of_pstep (s : Store) (g p : Nat) (h : pstep s g = some p) :
    semParent s g = some p := by
  rcases hl : lookupGrp s g with _ | r
  · simp [pstep, getGrpParent, hl] at h
  · simp only [pstep, getGrpParent, hl] at h
    unfold semParent
    rw [hl]
    by_cases hpos : 0 < r.parent
    · rw [if_pos hpos, Option.some.injEq] at h
      subst h
      by_cases hg : g = 0 <;> simp [hg, hpos]
    · rw [if_neg hpos] at h
      cases h

theorem ancRel_pstep_le_semParent (s : Store) (g a : Nat)
    (h : AncRel (pstep s) g a) : AncRel (semParent s) g a := by
  induction h with
  | single hstep => exact Relation.TransGen.single (semParent_of_pstep s _ _ hstep)
  | tail hgb hstep ih =>
    exact Relation.TransGen.tail ih (semParent_of_pstep s _ _ hstep)

theorem pstep_irrefl_of_acyclic (s : Store) (hacyc : Acyclic s) :
    ∀ x, ¬ AncRel (pstep s) x x :=
  fun x h => hacyc x (ancRel_pstep_le_semParent s x x h)

theorem pstep_mem_keys (s : Store) (x p : Nat) (h : pstep s x = some p) :
    x ∈ s.grps.map Prod.fst := by
  rcases hl : lookupGrp s x with _ | r
  · simp [pstep, getGrpParent, hl] at h
  · exact mem_keys_of_lookup_some s.grps x r hl

theorem semParent_mem_keys (s : Store) (x p : Nat) (h : semParent s x = some p) :
    x ∈ s.grps.map Prod.fst := by
  unfold semParent at h
  rcases hl : lookupGrp s x with _ | r
  · rw [hl] at h; cases h
  · exact mem_keys_of_lookup_some s.grps x r hl

/-- On an acyclic store the code's parent walk is complete at `chainFuel`:
more fuel never extends it. -/
theorem grpParentChain_stable (s : Store) (hacyc : Acyclic s) (g : Nat) :
    ∀ f, chainFuel s ≤ f →
      grpParentChain s f g = grpParentChain s (chainFuel s) g := by
  intro f hf
  unfold grpParentChain chainFuel at *
  have hbound := optChain_length_bound (pstep s) (s.grps.map Prod.fst)
    (pstep_irrefl_of_acyclic s hacyc) (pstep_mem_keys s)
    (s.grps.length + 2) g
  rw [List.length_map] at hbound
  exact optChain_stable_ge (pstep s) (s.grps.length + 2) g (by omega) f hf

theorem grpParentChain_complete (s : Store) (hacyc : Acyclic s) (g a : Nat)
    (h : AncRel (pstep s) g a) : a ∈ grpParentChain s (chainFuel s) g := by
  have hstab := grpParentChain_stable s hacyc g (chainFuel s + 1) (by omega)
  exact anc_mem_optChain (pstep s) (chainFuel s) g a hstab h

theorem grpParentChain_sound (s : Store) (f g a : Nat)
    (h : a ∈ grpParentChain s f g) : AncRel (pstep s) g a :=
  mem_optChain_anc (pstep s) f g a h

/-! ### The consistency invariants (spec section 3)

`StoreInv` packages I1-I4 and I6 together with the bidirectional parent/child
consistency the spec demands throughout ("every node knows both its parent
and its ordered list of children", "it forms a tree, not a general graph"):
each child-list entry points back to the list's owner.  I5 (sibling name
uniqueness) is never needed as a hypothesis below, so it is omitted. -/

structure StoreInv (s : Store) : Prop where
  grpKeysNodup : (s.grps.map Prod.fst).Nodup
  tgtKeysNodup : (s.tgts.map Prod.fst).Nodup
  rootLives : grpExists s 0 = true
  rootParent : getGrpParent s 0 = 0
  parentLives : ∀ g, grpExists s g = true → g ≠ 0 →
    grpExists s (getGrpParent s g) = true
  childGrp : ∀ g e, grpExists s g = true → e ∈ getGrpChildren s g → e < 0 →
    grpExists s (-e).toNat = true ∧ getGrpParent s (-e).toNat = g
  childTgt : ∀ g e, grpExists s g = true → e ∈ getGrpChildren s g → 0 ≤ e →
    tgtExists s e.toNat = true ∧ getTgtParent s e.toNat = g
  childNodup : ∀ g, grpExists s g = true → (getGrpChildren s g).Nodup
  grpInParent : ∀ g, grpExists s g = true → g ≠ 0 →
    -(g : Int) ∈ getGrpChildren s (getGrpParent s g)
  tgtParentIn : ∀ t, tgtExists s t = true →
    grpExists s (getTgtParent s t) = true ∧
    (t : Int) ∈ getGrpChildren s (getTgtParent s t)
  acyclic : Acyclic s

/-- Executable check of the per-group clauses of `StoreInv`. -/
def grpClauseCheck (s : Store) (g : Nat) : Bool :=
  (g == 0 || grpExists s (getGrpParent s g)) &&
  (getGrpChildren s g).all (fun e =>
    if e < 0 then grpExists s (-e).toNat && (getGrpParent s (-e).toNat == g)
    else tgtExists s e.toNat && (getTgtParent s e.toNat == g)) &&
  decide ((getGrpChildren s g).Nodup) &&
  (g == 0 || decide ((-(g : Int)) ∈ getGrpChildren s (getGrpParent s g))) &&
  (optChain (semParent s) (chainFuel s + 1) g ==
     optChain (semParent s) (chainFuel s) g) &&
  !(decide (g ∈ optChain (semParent s) (chainFuel s) g))

/-- Executable check of the per-target clauses of `StoreInv`. -/
def tgtClauseCheck (s : Store) (t : Nat) : Bool :=
  grpExists s (getTgtParent s t) &&
  decide ((t : Int) ∈ getGrpChildren s (getTgtParent s t))

/-- A decidable sufficient condition for `StoreInv`, used to discharge invariant
hypotheses on concrete stores by computation. -/
def invCheck (s : Store) : Bool :=
  decide ((s.grps.map Prod.fst).Nodup) &&
  decide ((s.tgts.map Prod.fst).Nodup) &&
  grpExists s 0 &&
  (getGrpParent s 0 == 0) &&
  (s.grps.map Prod.fst).all (grpClauseCheck s) &&
  (s.tgts.map Prod.fst).all (tgtClauseCheck s)

theorem exists_mem_keys_grp (s : Store) (g : Nat) (h : grpExists s g = true) :
    g ∈ s.grps.map Prod.fst := by
  unfold grpExists lookupGrp at h
  rcases Option.isSome_iff_exists.mp h with ⟨r, hr⟩
  exact mem_keys_of_lookup_some s.grps g r hr

theorem exists_mem_keys_tgt (s : Store) (t : Nat) (h : tgtExists s t = true) :
    t ∈ s.tgts.map Prod.fst := by
  unfold tgtExists at h
  rcases Option.isSome_iff_exists.mp h with ⟨r, hr⟩
  exact mem_keys_of_lookup_some s.tgts t r hr

theorem ancRel_head_key (st : Nat → Option Nat) (g a : Nat)
    (h : AncRel st g a) : ∃ p, st g = some p := by
  rcases Relation.TransGen.head'_iff.mp h with ⟨b, hb, _⟩
  exact ⟨b, hb⟩

theorem invCheck_sound (s : Store) (h : invCheck s = true) : StoreInv s := by
  unfold invCheck at h
  simp only [Bool.and_eq_true] at h
  obtain ⟨⟨⟨⟨⟨h1, h2⟩, h3⟩, h4⟩, h5⟩, h6⟩ := h
  have hgrp : ∀ g, grpExists s g = true → grpClauseCheck s g = true := by
    intro g hg
    exact List.all_eq_true.mp h5 g (exists_mem_keys_grp s g hg)
  have htgt : ∀ t, tgtExists s t = true → tgtClauseCheck s t = true := by
    intro t ht
    exact List.all_eq_true.mp h6 t (exists_mem_keys_tgt s t ht)
  have hgrp' : ∀ g, grpExists s g = true →
      (g = 0 ∨ grpExists s (getGrpParent s g) = true) ∧
      (∀ e ∈ getGrpChildren s g,
        (e < 0 → grpExists s (-e).toNat = true ∧ getGrpParent s (-e).toNat = g) ∧
        (0 ≤ e → tgtExists s e.toNat = true ∧ getTgtParent s e.toNat = g)) ∧
      (getGrpChildren s g).Nodup ∧
      (g = 0 ∨ (-(g : Int)) ∈ getGrpChildren s (getGrpParent s g)) ∧
      optChain (semParent s) (chainFuel s + 1) g =
        optChain (semParent s) (chainFuel s) g ∧
      g ∉ optChain (semParent s) (chainFuel s) g := by
    intro g hg
    have hc := hgrp g hg
    unfold grpClauseCheck at hc
    simp only [Bool.and_eq_true, Bool.or_eq_true, beq_iff_eq, decide_eq_true_eq,
      Bool.not_eq_true', decide_eq_false_iff_not, List.all_eq_true] at hc
    obtain ⟨⟨⟨⟨⟨hca, hcb⟩, hcc⟩, hcd⟩, hce⟩, hcf⟩ := hc
    refine ⟨hca, ?_, hcc, hcd, hce, hcf⟩
    intro e he
    have := hcb e he
    constructor
    · intro hneg
      rw [if_pos hneg] at this
      simp only [Bool.and_eq_true, beq_iff_eq] at this
      exact this
    · intro hpos
      rw [if_neg (by omega)] at this
      simp only [Bool.and_eq_true, beq_iff_eq] at this
      exact this
  have hacyc : Acyclic s := by
    intro g hanc
    rcases ancRel_head_key (semParent s) g g hanc with ⟨p, hp⟩
    have hg : grpExists s g = true := by
      unfold grpExists
      unfold semParent at hp
      rcases hl : lookupGrp s g with _ | r
      · simp [hl] at hp
      · simp [hl]
    obtain ⟨_, _, _, _, hcomp, hnot⟩ := hgrp' g hg
    exact hnot (anc_mem_optChain (semParent s) (chainFuel s) g g hcomp hanc)
  refine ⟨of_decide_eq_true h1, of_decide_eq_true h2, h3, by simpa using h4,
    ?_, ?_, ?_, ?_, ?_, ?_, hacyc⟩
  · intro g hg hne
    rcases (hgrp' g hg).1 with h | h
    · exact absurd h hne
    · exact h
  · intro g e hg he hneg
    exact ((hgrp' g hg).2.1 e he).1 hneg
  · intro g e hg he hpos
    exact ((hgrp' g hg).2.1 e he).2 hpos
  · intro g hg
    exact (hgrp' g hg).2.2.1
  · intro g hg hne
    rcases (hgrp' g hg).2.2.2.1 with h | h
    · exact absurd h hne
    · exact h
  · intro t ht
    have := htgt t ht
    unfold tgtClauseCheck at this
    simp only [Bool.and_eq_true, decide_eq_true_eq] at this
    exact this

/-! ### Claim C9: classification of child-list entries by sign -/

/-- C9: a child-list entry equal to 0 is always classified as leaf 0 and
never as a group: `get_grp_target_indices` includes 0 whenever 0 appears in
the child list, `get_grp_indices` never yields 0, and the two queries
partition the child list by sign, no entry counted in both. -/
theorem child_queries_partition (s : Store) (g : Nat)
    (h : grpExists s g = true) :
    ∃ grpIdx tgtIdx,
      get_grp_indices s g = .ok grpIdx ∧
      get_grp_target_indices s g = .ok tgtIdx ∧
      ((0 : Int) ∈ getGrpChildren s g → 0 ∈ tgtIdx) ∧
      0 ∉ grpIdx ∧
      grpIdx.length + tgtIdx.length = (getGrpChildren s g).length ∧
      (∀ e ∈ getGrpChildren s g,
        (e < 0 ∧ (-e).toNat ∈ grpIdx ∧ ¬ 0 ≤ e) ∨
        (0 ≤ e ∧ e.toNat ∈ tgtIdx ∧ ¬ e < 0)) := by
  refine ⟨_, _, by rw [get_grp_indices, if_pos h], by rw [get_grp_target_indices, if_pos h],
    ?_, ?_, ?_, ?_⟩
  · intro h0
    apply List.mem_map.mpr
    exact ⟨0, List.mem_filter.mpr ⟨h0, by decide⟩, rfl⟩
  · intro h0
    rcases List.mem_map.mp h0 with ⟨e, he, heq⟩
    have hneg : e < 0 := by
      have := (List.mem_filter.mp he).2
      simpa using this
    omega
  · rw [List.length_map, List.length_map]
    have := @List.length_eq_length_filter_add Int (getGrpChildren s g)
      (fun e : Int => decide (e < 0))
    rw [this]
    congr 1
    have : (List.filter (fun e : Int => decide (0 ≤ e)) (getGrpChildren s g)) =
        (List.filter (fun e : Int => !decide (e < 0)) (getGrpChildren s g)) := by
      apply List.filter_congr
      intro e _
      by_cases hc : e < 0
      · simp [hc]
      · simp [hc]
        omega
    rw [this]
  · intro e he
    by_cases hc : e < 0
    · left
      refine ⟨hc, ?_, by omega⟩
      exact List.mem_map.mpr ⟨e, List.mem_filter.mpr ⟨he, by simpa using hc⟩, rfl⟩
    · right
      refine ⟨by omega, ?_, hc⟩
      exact List.mem_map.mpr ⟨e, List.mem_filter.mpr ⟨he, by simpa using hc⟩, rfl⟩

/-- A concrete store on which the C9 partition theorem is exercised:
root 0 holding leaf 0, leaf 3 and nested group 1. -/
def storeC9 : Store :=
  ⟨[(0, ⟨0, [0, -1, 3], some "Group"⟩), (1, ⟨0, [], some "A"⟩)],
   [(0, 0), (3, 0)]⟩

theorem child_queries_partition_witness :
    grpExists storeC9 0 = true ∧
    ∃ grpIdx tgtIdx,
      get_grp_indices storeC9 0 = .ok grpIdx ∧
      get_grp_target_indices storeC9 0 = .ok tgtIdx ∧
      ((0 : Int) ∈ getGrpChildren storeC9 0 → 0 ∈ tgtIdx) ∧
      0 ∉ grpIdx ∧
      grpIdx.length + tgtIdx.length = (getGrpChildren storeC9 0).length ∧
      (∀ e ∈ getGrpChildren storeC9 0,
        (e < 0 ∧ (-e).toNat ∈ grpIdx ∧ ¬ 0 ≤ e) ∨
        (0 ≤ e ∧ e.toNat ∈ tgtIdx ∧ ¬ e < 0)) :=
  ⟨by decide, child_queries_partition storeC9 0 (by decide)⟩

/-! ### Claim C8: the ancestor walk terminates under I4 -/

theorem pstep_eq_some_iff (s : Store) (g p : Nat) :
    pstep s g = some p ↔ getGrpParent s g = p ∧ 0 < p := by
  show (if 0 < getGrpParent s g then some (getGrpParent s g) else none) = some p ↔ _
  by_cases hc : 0 < getGrpParent s g
  · rw [if_pos hc]
    constructor
    · intro h
      injection h with h
      subst h
      exact ⟨rfl, hc⟩
    · intro h
      rw [h.1]
  · rw [if_neg hc]
    constructor
    · intro h; cases h
    · intro h; omega

theorem pstep_eq_none_iff (s : Store) (g : Nat) :
    pstep s g = none ↔ getGrpParent s g = 0 := by
  show (if 0 < getGrpParent s g then some (getGrpParent s g) else none) = none ↔ _
  by_cases hc : 0 < getGrpParent s g
  · rw [if_pos hc]
    constructor
    · intro h; cases h
    · intro h; omega
  · rw [if_neg hc]
    constructor
    · intro _; omega
    · intro _; rfl

theorem pstep_chain_pos (s : Store) :
    ∀ (f g a : Nat), a ∈ grpParentChain s f g → 0 < a := by
  intro f
  induction f with
  | zero => intro g a ha; simp [grpParentChain, optChain_zero] at ha
  | succ f ih =>
    intro g a ha
    unfold grpParentChain at ha
    rcases hst : pstep s g with _ | p
    · rw [optChain_succ_of_none hst] at ha
      simp at ha
    · rw [optChain_succ_of_some hst] at ha
      have hpos : 0 < p := ((pstep_eq_some_iff s g p).mp hst).2
      rcases List.mem_cons.mp ha with ha | ha
      · subst ha; exact hpos
      · exact ih p a ha

theorem optChain_last_none (st : Nat → Option Nat) :
    ∀ (f g : Nat) (hlen : (optChain st f g).length < f)
      (hne : optChain st f g ≠ []),
      st ((optChain st f g).getLast hne) = none := by
  intro f
  induction f with
  | zero => intro g hlen _; simp at hlen
  | succ f ih =>
    intro g hlen hne
    rcases hst : st g with _ | p
    · exact absurd (optChain_succ_of_none hst f) hne
    · have hc := optChain_succ_of_some hst f
      rcases hrec : optChain st f p with _ | ⟨q, l⟩
      · have hone : optChain st (f + 1) g = [p] := by rw [hc, hrec]
        have hstp : st p = none := by
          rcases f with _ | f'
          · rw [hc] at hlen
            simp [optChain_zero] at hlen
          · rcases hsp : st p with _ | q'
            · rfl
            · rw [optChain_succ_of_some hsp] at hrec
              cases hrec
        have hlast : (optChain st (f + 1) g).getLast hne = p := by
          simp only [hone]
          rfl
        rw [hlast]
        exact hstp
      · have hne' : optChain st f p ≠ [] := by rw [hrec]; simp
        have hlen' : (optChain st f p).length < f := by
          rw [hc] at hlen
          simp only [List.length_cons] at hlen
          omega
        have hih := ih p hlen' hne'
        have hlast : (optChain st (f + 1) g).getLast hne =
            (optChain st f p).getLast hne' := by
          simp only [hc]
          exact List.getLast_cons hne'
        rw [hlast]
        exact hih

/-- C8: on a store satisfying I4 (no group is its own ancestor) the upward
walk `_grp_parent_iterator` terminates for every existing group `g`: past
`chainFuel` the fuel-indexed model stabilises on one finite list.  That list
starts at g's parent, contains only proper ancestors of `g`, contains
exactly the nodes the walk can reach, never contains the root index 0, and
its last element is one whose `parentIndex` holds the no-parent value -- the
walk stops before emitting a parent for the root. -/
theorem ancestors_walk_terminates (s : Store) (g : Nat)
    (hacyc : Acyclic s) (hg : grpExists s g = true) :
    ∃ l, (∀ f, chainFuel s ≤ f → grpParentChain s f g = l) ∧
      (∀ a ∈ l, AncRel (semParent s) g a) ∧
      (∀ a, AncRel (pstep s) g a ↔ a ∈ l) ∧
      0 ∉ l ∧
      (∀ hne : l ≠ [], l.head hne = getGrpParent s g) ∧
      (l = [] → getGrpParent s g = 0) ∧
      (∀ hne : l ≠ [], getGrpParent s (l.getLast hne) = 0) := by
  have hchain : grpParentChain s (chainFuel s) g =
      optChain (pstep s) (chainFuel s) g := rfl
  refine ⟨grpParentChain s (chainFuel s) g, grpParentChain_stable s hacyc g,
    ?_, ?_, ?_, ?_, ?_, ?_⟩
  · intro a ha
    exact ancRel_pstep_le_semParent s g a (grpParentChain_sound s (chainFuel s) g a ha)
  · intro a
    exact ⟨grpParentChain_complete s hacyc g a, grpParentChain_sound s (chainFuel s) g a⟩
  · intro h0
    exact absurd (pstep_chain_pos s (chainFuel s) g 0 h0) (by omega)
  · intro hne
    rcases hst : pstep s g with _ | p
    · exact absurd (by
        unfold grpParentChain
        have h1 : chainFuel s - 1 + 1 = chainFuel s := by unfold chainFuel; omega
        rw [← h1]
        exact optChain_succ_of_none hst _) hne
    · have hsplit : grpParentChain s (chainFuel s) g =
          p :: grpParentChain s (chainFuel s - 1) p := by
        unfold grpParentChain
        have h1 : chainFuel s - 1 + 1 = chainFuel s := by unfold chainFuel; omega
        rw [← h1]
        exact optChain_succ_of_some hst _
      simp only [hsplit, List.head_cons]
      exact ((pstep_eq_some_iff s g p).mp hst).1.symm
  · intro hnil
    rcases hst : pstep s g with _ | p
    · exact (pstep_eq_none_iff s g).mp hst
    · have hsplit : grpParentChain s (chainFuel s) g =
          p :: grpParentChain s (chainFuel s - 1) p := by
        unfold grpParentChain
        have h1 : chainFuel s - 1 + 1 = chainFuel s := by unfold chainFuel; omega
        rw [← h1]
        exact optChain_succ_of_some hst _
      rw [hnil] at hsplit
      cases hsplit
  · intro hne
    have hbound := optChain_length_bound (pstep s) (s.grps.map Prod.fst)
      (pstep_irrefl_of_acyclic s hacyc) (pstep_mem_keys s) (chainFuel s) g
    rw [List.length_map] at hbound
    have hlen : (optChain (pstep s) (chainFuel s) g).length < chainFuel s := by
      unfold chainFuel at *
      omega
    exact (pstep_eq_none_iff s _).mp
      (optChain_last_none (pstep s) (chainFuel s) g hlen hne)

/-- Concrete store exercising the C8 walk: a three-level tree. -/
def storeC8 : Store :=
  ⟨[(0, ⟨0, [-1], some "Group"⟩), (1, ⟨0, [-2], some "A"⟩),
    (2, ⟨1, [], some "B"⟩)], []⟩

theorem ancestors_walk_terminates_witness :
    Acyclic storeC8 ∧ grpExists storeC8 2 = true ∧
    ∃ l, (∀ f, chainFuel storeC8 ≤ f → grpParentChain storeC8 f 2 = l) ∧
      (∀ a ∈ l, AncRel (semParent storeC8) 2 a) ∧
      (∀ a, AncRel (pstep storeC8) 2 a ↔ a ∈ l) ∧
      0 ∉ l ∧
      (∀ hne : l ≠ [], l.head hne = getGrpParent storeC8 2) ∧
      (l = [] → getGrpParent storeC8 2 = 0) ∧
      (∀ hne : l ≠ [], getGrpParent storeC8 (l.getLast hne) = 0) :=
  ⟨(invCheck_sound storeC8 (by decide)).acyclic, by decide,
   ancestors_walk_terminates storeC8 2
     (invCheck_sound storeC8 (by decide)).acyclic (by decide)⟩

/-! ### Claim C4: the sibling-unique renaming sequence -/

theorem decDigitsAux_eq (fuel : Nat) :
    ∀ n, n ≤ fuel → decDigitsAux fuel n = Nat.digits 10 n := by
  induction fuel with
  | zero =>
    intro n hn
    interval_cases n
    simp [decDigitsAux]
  | succ fuel ih =>
    intro n hn
    rcases n with _ | m
    · simp [decDigitsAux]
    · rw [decDigitsAux]
      rw [Nat.digits_def' (by norm_num : 1 < 10) (Nat.succ_pos m)]
      congr 1
      exact ih ((m + 1) / 10) (by
        have := Nat.div_lt_self (Nat.succ_pos m) (by norm_num : 1 < 10)
        omega)

theorem decRepr_eq_digits (n : Nat) :
    decRepr n = String.mk (((Nat.digits 10 n).reverse).map Nat.digitChar) := by
  unfold decRepr
  rw [decDigitsAux_eq n n le_rfl]

theorem digitChar_inj_lt :
    ∀ d1 < 10, ∀ d2 < 10, Nat.digitChar d1 = Nat.digitChar d2 → d1 = d2 := by
  decide

theorem map_digitChar_inj :
    ∀ (l1 l2 : List Nat), (∀ x ∈ l1, x < 10) → (∀ x ∈ l2, x < 10) →
      l1.map Nat.digitChar = l2.map Nat.digitChar → l1 = l2 := by
  intro l1
  induction l1 with
  | nil =>
    intro l2 _ _ h
    cases l2 with
    | nil => rfl
    | cons b t => simp at h
  | cons a t ih =>
    intro l2 h1 h2 h
    cases l2 with
    | nil => simp at h
    | cons b t2 =>
      simp only [List.map_cons, List.cons.injEq] at h
      have hab : a = b :=
        digitChar_inj_lt a (h1 a (by simp)) b (h2 b (by simp)) h.1
      rw [hab, ih t2 (fun x hx => h1 x (by simp [hx]))
        (fun x hx => h2 x (by simp [hx])) h.2]

theorem decRepr_inj (m n : Nat) (h : decRepr m = decRepr n) : m = n := by
  rw [decRepr_eq_digits, decRepr_eq_digits] at h
  have hdata := congrArg String.data h
  simp only [] at hdata
  have hrev : (Nat.digits 10 m).reverse = (Nat.digits 10 n).reverse :=
    map_digitChar_inj _ _
      (fun x hx => Nat.digits_lt_base (by norm_num) (List.mem_reverse.mp hx))
      (fun x hx => Nat.digits_lt_base (by norm_num) (List.mem_reverse.mp hx))
      hdata
  have hd : Nat.digits 10 m = Nat.digits 10 n := List.reverse_injective hrev
  calc m = Nat.ofDigits 10 (Nat.digits 10 m) := (Nat.ofDigits_digits 10 m).symm
  _ = Nat.ofDigits 10 (Nat.digits 10 n) := by rw [hd]
  _ = n := Nat.ofDigits_digits 10 n

theorem decRepr_ne_empty (n : Nat) (h : n ≠ 0) : decRepr n ≠ "" := by
  rw [decRepr_eq_digits]
  intro he
  have hdata := congrArg String.data he
  simp only [] at hdata
  have : Nat.digits 10 n = [] := by
    rcases hd : Nat.digits 10 n with _ | ⟨d, l⟩
    · rfl
    · rw [hd] at hdata
      simp at hdata
  exact (Nat.digits_ne_nil_iff_ne_zero.mpr h) this

theorem candidateName_inj (name : String) (j k : Nat)
    (h : candidateName name j = candidateName name k) : j = k := by
  rcases j with _ | j <;> rcases k with _ | k
  · rfl
  · exfalso
    have hdata := congrArg String.data h
    rw [candidateName, candidateName, String.data_append] at hdata
    have : (decRepr (k + 1)).data = [] := by
      have h2 : name.data ++ [] = name.data ++ (decRepr (k + 1)).data := by
        simpa using hdata
      exact (List.append_cancel_left h2).symm
    exact decRepr_ne_empty (k + 1) (by omega) (by
      cases hdr : decRepr (k + 1)
      simp_all)
  · exfalso
    have hdata := congrArg String.data h
    rw [candidateName, candidateName, String.data_append] at hdata
    have : (decRepr (j + 1)).data = [] := by
      have h2 : name.data ++ (decRepr (j + 1)).data = name.data ++ [] := by
        simpa using hdata
      exact List.append_cancel_left h2
    exact decRepr_ne_empty (j + 1) (by omega) (by
      cases hdr : decRepr (j + 1)
      simp_all)
  · have hdata := congrArg String.data h
    rw [candidateName, candidateName, String.data_append, String.data_append] at hdata
    have heq : (decRepr (j + 1)).data = (decRepr (k + 1)).data :=
      List.append_cancel_left hdata
    have : decRepr (j + 1) = decRepr (k + 1) := by
      cases hj : decRepr (j + 1)
      cases hk : decRepr (k + 1)
      simp_all
    have := decRepr_inj (j + 1) (k + 1) this
    omega

theorem uniqueNameGo_eq (name : String) (existing : List (Option String)) :
    ∀ (fuel k m : Nat), k ≤ m → m < k + fuel →
      some (candidateName name m) ∉ existing →
      (∀ j, k ≤ j → j < m → some (candidateName name j) ∈ existing) →
      uniqueNameGo name existing fuel (k + 1) (candidateName name k) =
        candidateName name m := by
  intro fuel
  induction fuel with
  | zero => intro k m h1 h2 _ _; omega
  | succ fuel ih =>
    intro k m h1 h2 hfree hcoll
    rcases Nat.eq_or_lt_of_le h1 with heq | hlt
    · subst heq
      rw [uniqueNameGo, if_neg hfree]
    · have hk : some (candidateName name k) ∈ existing :=
        hcoll k le_rfl hlt
      rw [uniqueNameGo, if_pos hk]
      have hstep : (name ++ decRepr (k + 1)) = candidateName name (k + 1) := rfl
      rw [hstep]
      exact ih (k + 1) m hlt (by omega) hfree
        (fun j hj1 hj2 => hcoll j (by omega) hj2)

theorem exists_free_candidate (name : String) (existing : List (Option String)) :
    ∃ m, m ≤ existing.length ∧ some (candidateName name m) ∉ existing := by
  by_contra hall
  push_neg at hall
  have hnd : ((List.range (existing.length + 1)).map
      (fun m => some (candidateName name m))).Nodup := by
    refine List.Nodup.map_on ?_ (List.nodup_range _)
    intro x _ y _ hxy
    exact candidateName_inj name x y (by injection hxy)
  have hsub : ((List.range (existing.length + 1)).map
      (fun m => some (candidateName name m))) ⊆ existing := by
    intro x hx
    rcases List.mem_map.mp hx with ⟨m, hm, rfl⟩
    exact hall m (by simpa using Nat.lt_succ_iff.mp (List.mem_range.mp hm))
  have := List.Subperm.length_le (List.subperm_of_subset hnd hsub)
  simp at this

/-- The sibling-name pool `_build_unique_name` collects when asked about the
children of `grp_index`: the name field of every group entry of the child
list, the caller included if it is one of them. -/
def namePool (s : Store) (grp_index : Nat) : List (Option String) :=
  (((getGrpChildren s grp_index).filter (fun e => e < 0)).map
    (fun e => getGrpNameField s (-e).toNat))

theorem build_unique_name_eq (s : Store) (grp_index : Nat) (name : String) :
    ∃ m, some (candidateName name m) ∉ namePool s grp_index ∧
      (∀ j < m, some (candidateName name j) ∈ namePool s grp_index) ∧
      build_unique_name s grp_index name = candidateName name m := by
  have hex : ∃ m, some (candidateName name m) ∉ namePool s grp_index := by
    rcases exists_free_candidate name (namePool s grp_index) with ⟨m, _, hm⟩
    exact ⟨m, hm⟩
  classical
  refine ⟨Nat.find hex, Nat.find_spec hex, ?_, ?_⟩
  · intro j hj
    have := Nat.find_min hex hj
    simpa using this
  · show uniqueNameGo name (namePool s grp_index)
      ((namePool s grp_index).length + 1) (0 + 1) (candidateName name 0) = _
    rcases exists_free_candidate name (namePool s grp_index) with ⟨m0, hm0le, hm0⟩
    have hfind_le : Nat.find hex ≤ m0 := Nat.find_min' hex hm0
    apply uniqueNameGo_eq name (namePool s grp_index)
      ((namePool s grp_index).length + 1) 0 (Nat.find hex)
      (by omega) (by omega) (Nat.find_spec hex)
    intro j _ hj
    have := Nat.find_min hex hj
    simpa using this

/-- C4 (amended): for every existing group `g` and every name,
`rename_grp(g, name)` determines g's actual parent, collects the names of
all group entries in that parent's child list -- `g` itself included, which
is the amendment: the code does not exclude the group being renamed --
returns the first candidate of the sequence `name, name1, name2, ...` not in
that pool, writes it as g's name, and `get_grp_name(g)` afterwards returns
exactly that resolved value. -/
theorem rename_grp_sequence (s : Store) (g : Nat) (name : String)
    (hg : grpExists s g = true) :
    ∃ m, some (candidateName name m) ∉ namePool s (getGrpParent s g) ∧
      (∀ j < m, some (candidateName name j) ∈ namePool s (getGrpParent s g)) ∧
      rename_grp s g name =
        .ok (setGrpName s g (candidateName name m), candidateName name m) ∧
      get_grp_name (setGrpName s g (candidateName name m)) g =
        .ok (some (candidateName name m)) := by
  rcases build_unique_name_eq s (getGrpParent s g) name with ⟨m, hfree, hcoll, heq⟩
  refine ⟨m, hfree, hcoll, ?_, ?_⟩
  · rw [rename_grp, if_pos hg]
    show Except.ok (setGrpName s g (build_unique_name s (getGrpParent s g) name),
      build_unique_name s (getGrpParent s g) name) = _
    rw [heq]
  · have hex2 : grpExists (setGrpName s g (candidateName name m)) g = true := by
      rw [grpExists_setGrpName, if_pos rfl]
    rw [get_grp_name, if_pos hex2]
    rw [getGrpNameField_setGrpName, if_pos rfl]

/-- Store for C4: group 1 under the root already carries the name X and has
no other sibling. -/
def storeC4 : Store :=
  ⟨[(0, ⟨0, [-1], some "Group"⟩), (1, ⟨0, [], some "X"⟩)], []⟩

/-- C4 counterexample: renaming group 1 to the name it already bears.  No
sibling other than the group itself carries the name X, so the claim as
stated (siblings excluding g) predicts the result X; the code includes g in
the pool and returns X1 instead. -/
theorem rename_excluding_self_counterexample :
    (∀ h : Nat, h ≠ 1 →
        -(h : Int) ∈ getGrpChildren storeC4 (getGrpParent storeC4 1) →
        getGrpNameField storeC4 h ≠ some "X") ∧
    rename_grp storeC4 1 "X" = .ok (setGrpName storeC4 1 "X1", "X1") ∧
    "X1" ≠ "X" := by
  refine ⟨?_, rfl, by decide⟩
  intro h hne hmem
  have hch : getGrpChildren storeC4 (getGrpParent storeC4 1) = [-1] := rfl
  rw [hch] at hmem
  have h1 : -(h : Int) = -1 := by simpa using hmem
  have : h = 1 := by omega
  exact absurd this hne

theorem rename_grp_sequence_witness :
    grpExists storeC4 1 = true ∧
    ∃ m, some (candidateName "X" m) ∉ namePool storeC4 (getGrpParent storeC4 1) ∧
      (∀ j < m, some (candidateName "X" j) ∈ namePool storeC4 (getGrpParent storeC4 1)) ∧
      rename_grp storeC4 1 "X" =
        .ok (setGrpName storeC4 1 (candidateName "X" m), candidateName "X" m) ∧
      get_grp_name (setGrpName storeC4 1 (candidateName "X" m)) 1 =
        .ok (some (candidateName "X" m)) :=
  ⟨by decide, rename_grp_sequence storeC4 1 "X" (by decide)⟩

/-! ### Key-list preservation under the store mutators -/

theorem grpKeys_updGrp_exists (s : Store) (i : Nat) (f : GrpRec → GrpRec)
    (he : grpExists s i = true) :
    (updGrp s i f).grps.map Prod.fst = s.grps.map Prod.fst := by
  rw [updGrp_grps, if_pos he, List.map_map]
  apply List.map_congr_left
  intro p _
  by_cases h : p.1 = i <;> simp [h, Function.comp]

theorem grpKeys_updGrp_new (s : Store) (i : Nat) (f : GrpRec → GrpRec)
    (he : ¬ grpExists s i = true) :
    (updGrp s i f).grps.map Prod.fst = s.grps.map Prod.fst ++ [i] := by
  rw [updGrp_grps, if_neg he, List.map_append]
  rfl

theorem grpKeysNodup_updGrp (s : Store) (i : Nat) (f : GrpRec → GrpRec)
    (hnd : (s.grps.map Prod.fst).Nodup) :
    ((updGrp s i f).grps.map Prod.fst).Nodup := by
  by_cases he : grpExists s i
  · rw [grpKeys_updGrp_exists s i f he]; exact hnd
  · rw [grpKeys_updGrp_new s i f he]
    apply List.Nodup.append hnd (by simp)
    intro a ha hb
    simp only [List.mem_singleton] at hb
    subst hb
    exact he (by
      unfold grpExists lookupGrp
      rcases List.mem_map.mp ha with ⟨p, hp, hkey⟩
      by_contra hnone
      rw [Option.not_isSome_iff_eq_none] at hnone
      exact (not_mem_keys_of_lookup_none s.grps a hnone) ha)

theorem tgtKeys_setTgtParent_exists (s : Store) (t p : Nat)
    (he : tgtExists s t = true) :
    (setTgtParent s t p).tgts.map Prod.fst = s.tgts.map Prod.fst := by
  unfold setTgtParent
  rw [if_pos he]
  show (s.tgts.map (fun q => if q.1 = t then (t, p) else q)).map Prod.fst = _
  rw [List.map_map]
  apply List.map_congr_left
  intro q _
  by_cases h : q.1 = t <;> simp [h, Function.comp]

theorem tgtKeysNodup_setTgtParent (s : Store) (t p : Nat)
    (hnd : (s.tgts.map Prod.fst).Nodup) :
    ((setTgtParent s t p).tgts.map Prod.fst).Nodup := by
  by_cases he : tgtExists s t
  · rw [tgtKeys_setTgtParent_exists s t p he]; exact hnd
  · unfold setTgtParent
    rw [if_neg he]
    show ((s.tgts ++ [(t, p)]).map Prod.fst).Nodup
    rw [List.map_append]
    apply List.Nodup.append hnd (by simp)
    intro a ha hb
    simp only [List.map_cons, List.map_nil, List.mem_singleton] at hb
    subst hb
    exact he (by
      unfold tgtExists
      by_contra hnone
      rw [Option.not_isSome_iff_eq_none] at hnone
      exact (not_mem_keys_of_lookup_none s.tgts a hnone) ha)

theorem grpKeysNodup_setGrpChildren (s : Store) (i : Nat) (c : List Int)
    (hnd : (s.grps.map Prod.fst).Nodup) :
    ((setGrpChildren s i c).grps.map Prod.fst).Nodup :=
  grpKeysNodup_updGrp s i _ hnd

theorem grpKeysNodup_setGrpParent (s : Store) (i p : Nat)
    (hnd : (s.grps.map Prod.fst).Nodup) :
    ((setGrpParent s i p).grps.map Prod.fst).Nodup :=
  grpKeysNodup_updGrp s i _ hnd

/-! ### Claim C7: idempotence of moving a leaf -/

theorem setGrpChildren_tgts (s : Store) (i : Nat) (c : List Int) :
    (setGrpChildren s i c).tgts = s.tgts :=
  updGrp_tgts s i _

theorem setGrpParent_tgts (s : Store) (i p : Nat) :
    (setGrpParent s i p).tgts = s.tgts :=
  updGrp_tgts s i _

theorem setGrpName_tgts (s : Store) (i : Nat) (n : String) :
    (setGrpName s i n).tgts = s.tgts :=
  updGrp_tgts s i _

theorem getTgtParent_setGrpChildren (s : Store) (i : Nat) (c : List Int) (j : Nat) :
    getTgtParent (setGrpChildren s i c) j = getTgtParent s j :=
  getTgtParent_updGrp s i _ j

theorem tgtExists_setGrpChildren (s : Store) (i : Nat) (c : List Int) (j : Nat) :
    tgtExists (setGrpChildren s i c) j = tgtExists s j :=
  tgtExists_updGrp s i _ j

theorem getTgtParent_setGrpParent (s : Store) (i p : Nat) (j : Nat) :
    getTgtParent (setGrpParent s i p) j = getTgtParent s j :=
  getTgtParent_updGrp s i _ j

theorem tgtExists_setGrpParent (s : Store) (i p : Nat) (j : Nat) :
    tgtExists (setGrpParent s i p) j = tgtExists s j :=
  tgtExists_updGrp s i _ j

theorem getTgtParent_setGrpName (s : Store) (i : Nat) (n : String) (j : Nat) :
    getTgtParent (setGrpName s i n) j = getTgtParent s j :=
  getTgtParent_updGrp s i _ j

theorem tgtExists_setGrpName (s : Store) (i : Nat) (n : String) (j : Nat) :
    tgtExists (setGrpName s i n) j = tgtExists s j :=
  tgtExists_updGrp s i _ j

theorem move_targets_singleton (s : Store) (t dest : Nat)
    (h : grpExists s dest = true) :
    move_targets s [t] dest = .ok (setGrpChildren
      (setTgtParent
        (if ((t : Int)) ∈ getGrpChildren s (getTgtParent s t) then
          setGrpChildren s (getTgtParent s t)
            ((getGrpChildren s (getTgtParent s t)).eraseIdx
              ((getGrpChildren s (getTgtParent s t)).indexOf ((t : Int))))
        else s) t dest)
      dest
      (if ((t : Int)) ∈ getGrpChildren s dest then getGrpChildren s dest
       else getGrpChildren s dest ++ [(t : Int)])) := by
  rw [move_targets, if_pos h]
  rfl

/-- C7: for an existing group `G` and a leaf `L` known to the hierarchy,
`move_targets([L], G)` is idempotent -- running it a second time returns
exactly the store the first run produced -- and after it `L` appears exactly
once in `G`'s child list. -/
theorem move_targets_idempotent (s : Store) (G L : Nat)
    (hinv : StoreInv s) (hG : grpExists s G = true) (hL : tgtExists s L = true) :
    ∃ s₁, move_targets s [L] G = .ok s₁ ∧
      move_targets s₁ [L] G = .ok s₁ ∧
      (getGrpChildren s₁ G).count ((L : Int)) = 1 := by
  have hPmem := hinv.tgtParentIn L hL
  have hPex : grpExists s (getTgtParent s L) = true := hPmem.1
  have hLP : (L : Int) ∈ getGrpChildren s (getTgtParent s L) := hPmem.2
  have hback : ∀ X, grpExists s X = true → (L : Int) ∈ getGrpChildren s X →
      X = getTgtParent s L := by
    intro X hX hmem
    have := (hinv.childTgt X ((L : Int)) hX hmem (by omega)).2
    simp only [Int.toNat_natCast] at this
    omega
  by_cases hPG : getTgtParent s L = G
  · -- the leaf is already under G; the call leaves the store unchanged
    have hLc : (L : Int) ∈ getGrpChildren s G := by rw [← hPG]; exact hLP
    have hmt : move_targets s [L] G = .ok s := by
      rw [move_targets_singleton s L G hG]
      rw [hPG]
      rw [if_pos hLc, if_pos hLc]
      have hpar : getTgtParent (setGrpChildren s G
          ((getGrpChildren s G).eraseIdx
            ((getGrpChildren s G).indexOf ((L : Int))))) L = G := by
        rw [getTgtParent_setGrpChildren, hPG]
      have hid1 := setTgtParent_id (setGrpChildren s G
          ((getGrpChildren s G).eraseIdx
            ((getGrpChildren s G).indexOf ((L : Int))))) L
        (by rw [setGrpChildren_tgts]; exact hinv.tgtKeysNodup)
        (by rw [tgtExists_setGrpChildren]; exact hL)
      rw [hpar] at hid1
      rw [hid1]
      rw [setGrpChildren_setGrpChildren]
      rw [setGrpChildren_id s G hinv.grpKeysNodup hG]
    refine ⟨s, hmt, hmt, ?_⟩
    exact List.count_eq_one_of_mem (by rw [← hPG]; exact hinv.childNodup _ hPex) hLc
  · -- the leaf moves from its old parent to G
    have hLnotc : (L : Int) ∉ getGrpChildren s G := by
      intro hmem
      exact hPG ((hback G hG hmem).symm)
    set s' := setGrpChildren s (getTgtParent s L)
      ((getGrpChildren s (getTgtParent s L)).eraseIdx
        ((getGrpChildren s (getTgtParent s L)).indexOf ((L : Int)))) with hs'
    set s₁ := setGrpChildren (setTgtParent s' L G) G
      (getGrpChildren s G ++ [(L : Int)]) with hs₁
    have hmt1 : move_targets s [L] G = .ok s₁ := by
      rw [move_targets_singleton s L G hG]
      rw [if_pos hLP, if_neg hLnotc]
    have hchild₁ : getGrpChildren s₁ G = getGrpChildren s G ++ [(L : Int)] := by
      rw [hs₁, getGrpChildren_setGrpChildren, if_pos rfl]
    have hpar₁ : getTgtParent s₁ L = G := by
      rw [hs₁, getTgtParent_setGrpChildren, getTgtParent_setTgtParent, if_pos rfl]
    have hG₁ : grpExists s₁ G = true := by
      rw [hs₁, grpExists_setGrpChildren, if_pos rfl]
    have hL₁ : tgtExists s₁ L = true := by
      rw [hs₁, tgtExists_setGrpChildren, tgtExists_setTgtParent, if_pos rfl]
    have htnd₁ : (s₁.tgts.map Prod.fst).Nodup := by
      rw [hs₁, setGrpChildren_tgts]
      apply tgtKeysNodup_setTgtParent
      rw [hs', setGrpChildren_tgts]
      exact hinv.tgtKeysNodup
    have hgnd₁ : (s₁.grps.map Prod.fst).Nodup := by
      rw [hs₁]
      apply grpKeysNodup_updGrp
      have hgg : (setTgtParent s' L G).grps = s'.grps := by
        unfold setTgtParent
        by_cases h : tgtExists s' L <;> simp [h]
      rw [hgg, hs']
      apply grpKeysNodup_updGrp
      exact hinv.grpKeysNodup
    have hLmem₁ : (L : Int) ∈ getGrpChildren s₁ G := by
      rw [hchild₁]; simp
    have hmt2 : move_targets s₁ [L] G = .ok s₁ := by
      rw [move_targets_singleton s₁ L G hG₁]
      rw [hpar₁, if_pos hLmem₁, if_pos hLmem₁]
      have hpar2 : getTgtParent (setGrpChildren s₁ G
          ((getGrpChildren s₁ G).eraseIdx
            ((getGrpChildren s₁ G).indexOf ((L : Int))))) L = G := by
        rw [getTgtParent_setGrpChildren, hpar₁]
      have hid1 := setTgtParent_id (setGrpChildren s₁ G
          ((getGrpChildren s₁ G).eraseIdx
            ((getGrpChildren s₁ G).indexOf ((L : Int))))) L
        (by rw [setGrpChildren_tgts]; exact htnd₁)
        (by rw [tgtExists_setGrpChildren]; exact hL₁)
      rw [hpar2] at hid1
      rw [hid1]
      rw [setGrpChildren_setGrpChildren]
      rw [setGrpChildren_id s₁ G hgnd₁ hG₁]
    refine ⟨s₁, hmt1, hmt2, ?_⟩
    rw [hchild₁, List.count_append]
    rw [List.count_eq_zero.mpr hLnotc]
    simp

/-- Store for the C7 witness: leaf 5 sits under group 1 and moves to
group 2. -/
def storeC7 : Store :=
  ⟨[(0, ⟨0, [-1, -2], some "Group"⟩), (1, ⟨0, [5], some "A"⟩),
    (2, ⟨0, [], some "B"⟩)], [(5, 1)]⟩

theorem move_targets_idempotent_witness :
    invCheck storeC7 = true ∧ grpExists storeC7 2 = true ∧
    tgtExists storeC7 5 = true ∧
    ∃ s₁, move_targets storeC7 [5] 2 = .ok s₁ ∧
      move_targets s₁ [5] 2 = .ok s₁ ∧
      (getGrpChildren s₁ 2).count ((5 : Int)) = 1 :=
  ⟨by decide, by decide, by decide,
   move_targets_idempotent storeC7 2 5
     (invCheck_sound storeC7 (by decide)) (by decide) (by decide)⟩

/-! ### The skip pass of `move_grps` removes exactly the illegal elements -/

/-- The test the skip pass applies to each element: equal to the
destination, or present in the destination's ancestor chain. -/
def badMove (dest : Nat) (conflicts : List Nat) (x : Nat) : Bool :=
  decide (x = dest) || decide (x ∈ conflicts)

theorem indexOf_le_of_get (l : List Nat) :
    ∀ (n : Nat) (h : n < l.length) (x : Nat), l.get ⟨n, h⟩ = x →
      l.indexOf x ≤ n := by
  induction l with
  | nil => intro n h; simp at h
  | cons a t ih =>
    intro n h x hget
    rcases n with _ | n
    · simp only [List.get] at hget
      subst hget
      simp [List.indexOf_cons]
    · rw [List.indexOf_cons]
      cases hax : a == x
      · simp only [cond_false]
        have := ih n (by simpa using h) x (by simpa using hget)
        omega
      · simp

theorem filter_eraseIdx_of_false {α : Type} (p : α → Bool) (l : List α) :
    ∀ (j : Nat) (hj : j < l.length), p (l.get ⟨j, hj⟩) = false →
      (l.eraseIdx j).filter p = l.filter p := by
  induction l with
  | nil => intro j hj; simp at hj
  | cons a t ih =>
    intro j hj hp
    rcases j with _ | j
    · simp only [List.get] at hp
      rw [List.eraseIdx_cons_zero, List.filter_cons_of_neg (by simp [hp])]
    · rw [List.eraseIdx_cons_succ]
      by_cases ha : p a
      · rw [List.filter_cons_of_pos ha, List.filter_cons_of_pos ha]
        rw [ih j (by simpa using hj) (by simpa using hp)]
      · rw [List.filter_cons_of_neg ha, List.filter_cons_of_neg ha]
        exact ih j (by simpa using hj) (by simpa using hp)

theorem drop_eraseIdx_le {α : Type} (l : List α) (j n : Nat)
    (hj : j ≤ n) (hlen : j < l.length) :
    (l.eraseIdx j).drop n = l.drop (n + 1) := by
  rw [List.eraseIdx_eq_take_drop_succ]
  rw [List.drop_append_eq_append_drop]
  have htl : (List.take j l).length = j := List.length_take_of_le (by omega)
  rw [List.drop_eq_nil_of_le (by omega)]
  rw [List.nil_append, htl, List.drop_drop]
  congr 1
  omega

theorem take_eraseIdx_le {α : Type} :
    ∀ (l : List α) (j n : Nat), j ≤ n →
      (l.eraseIdx j).take n = (l.take (n + 1)).eraseIdx j := by
  intro l
  induction l with
  | nil => intro j n _; simp
  | cons a t ih =>
    intro j n hj
    rcases j with _ | j
    · rw [List.eraseIdx_cons_zero, List.take_succ_cons, List.eraseIdx_cons_zero]
    · rcases n with _ | m
      · omega
      · rw [List.eraseIdx_cons_succ, List.take_succ_cons, List.take_succ_cons,
          List.eraseIdx_cons_succ, ih j m (by omega)]

theorem skipPass_filter (dest : Nat) (conflicts : List Nat) :
    ∀ (n : Nat) (l : List Nat) (ws : List String), n ≤ l.length →
      (skipPass dest conflicts n l ws).1 =
        (l.take n).filter (fun x => !badMove dest conflicts x) ++ l.drop n := by
  intro n
  induction n with
  | zero => intro l ws _; simp [skipPass]
  | succ n ih =>
    intro l ws hn
    have hlt : n < l.length := by omega
    rw [skipPass]
    rw [dif_pos hlt]
    set x := l.get ⟨n, hlt⟩ with hx
    have hjle : l.indexOf x ≤ n := indexOf_le_of_get l n hlt x rfl
    have hxmem : x ∈ l := by
      rw [hx]
      exact List.get_mem l n hlt
    have hjlt : l.indexOf x < l.length := List.indexOf_lt_length.mpr hxmem
    have hskip : badMove dest conflicts x = true →
        ∀ ws', (skipPass dest conflicts n
          (l.eraseIdx (l.indexOf x)) ws').1 =
          (l.take (n + 1)).filter (fun y => !badMove dest conflicts y) ++
            l.drop (n + 1) := by
      intro hbad ws'
      rw [ih (l.eraseIdx (l.indexOf x)) ws' (by
        rw [List.length_eraseIdx_of_lt hjlt]
        omega)]
      rw [drop_eraseIdx_le l (l.indexOf x) n hjle hjlt]
      rw [take_eraseIdx_le l (l.indexOf x) n hjle]
      have hvalid : l.indexOf x < (l.take (n + 1)).length := by
        rw [List.length_take_of_le (by omega)]
        omega
      have hget : (l.take (n + 1)).get ⟨l.indexOf x, hvalid⟩ = x := by
        show (l.take (n + 1))[l.indexOf x] = x
        rw [@List.getElem_take _ l (n + 1) (l.indexOf x) hvalid]
        exact List.getElem_indexOf hjlt
      rw [filter_eraseIdx_of_false _ _ (l.indexOf x) hvalid (by
        rw [hget]
        simp only [hbad, Bool.not_true])]
    by_cases hdest : x = dest
    · rw [if_pos hdest]
      exact hskip (by simp [badMove, hdest]) _
    · rw [if_neg hdest]
      by_cases hconf : x ∈ conflicts
      · rw [if_pos hconf]
        exact hskip (by simp [badMove, hconf]) _
      · rw [if_neg hconf]
        rw [ih l ws (by omega)]
        have htake : l.take (n + 1) = l.take n ++ [x] := by
          rw [List.take_succ]
          congr 1
          rw [List.getElem?_eq_getElem hlt]
          rfl
        have hdrop : l.drop n = x :: l.drop (n + 1) := by
          rw [List.drop_eq_getElem_cons hlt]
          rfl
        rw [htake, hdrop, List.filter_append]
        rw [List.filter_cons_of_pos (by simp [badMove, hdest, hconf])]
        simp

/-! ### Effects of the detach and attach passes of `move_grps` -/

/-- The survivors of the skip pass: the final contents of the caller's
`indices` list. -/
def moveSurvivors (s : Store) (indices : List Nat) (grp_index : Nat) : List Nat :=
  (skipPass grp_index (grpParentChain s (chainFuel s) grp_index)
    indices.length indices []).1

/-- The warnings the skip pass issues. -/
def moveWarnings (s : Store) (indices : List Nat) (grp_index : Nat) : List String :=
  (skipPass grp_index (grpParentChain s (chainFuel s) grp_index)
    indices.length indices []).2

/-- The store `move_grps` leaves behind when the destination exists. -/
def moveFinal (s : Store) (indices : List Nat) (grp_index : Nat) : Store :=
  let l := moveSurvivors s indices grp_index
  let s1 := detachLoop l s
  let r2 := attachLoop grp_index l (getGrpChildren s1 grp_index) s1
  setGrpChildren r2.2 grp_index r2.1

theorem move_grps_ok (s : Store) (indices : List Nat) (grp_index : Nat)
    (h : grpExists s grp_index = true) :
    move_grps s indices grp_index =
      .ok (moveFinal s indices grp_index,
        moveSurvivors s indices grp_index,
        moveWarnings s indices grp_index) := by
  rw [move_grps, if_pos h]
  rfl

theorem move_grps_err (s : Store) (indices : List Nat) (grp_index : Nat)
    (h : ¬ grpExists s grp_index = true) :
    move_grps s indices grp_index = .error (invalidMsg grp_index) := by
  rw [move_grps, if_neg h]

theorem moveSurvivors_filter (s : Store) (indices : List Nat) (grp_index : Nat) :
    moveSurvivors s indices grp_index =
      indices.filter (fun x => !badMove grp_index
        (grpParentChain s (chainFuel s) grp_index) x) := by
  unfold moveSurvivors
  rw [skipPass_filter _ _ indices.length indices [] le_rfl]
  simp

theorem detachLoop_parent (l : List Nat) :
    ∀ (s : Store) (j : Nat), getGrpParent (detachLoop l s) j = getGrpParent s j := by
  induction l with
  | nil => intro s j; rfl
  | cons i rest ih =>
    intro s j
    rw [detachLoop]
    rw [ih, getGrpParent_setGrpChildren]

theorem detachLoop_tgts (l : List Nat) :
    ∀ (s : Store), (detachLoop l s).tgts = s.tgts := by
  induction l with
  | nil => intro s; rfl
  | cons i rest ih =>
    intro s
    rw [detachLoop, ih, setGrpChildren_tgts]

theorem detachLoop_exists_mono (l : List Nat) :
    ∀ (s : Store) (j : Nat), grpExists s j = true →
      grpExists (detachLoop l s) j = true := by
  induction l with
  | nil => intro s j h; exact h
  | cons i rest ih =>
    intro s j h
    rw [detachLoop]
    apply ih
    rw [grpExists_setGrpChildren]
    by_cases hj : j = getGrpParent s i <;> simp [hj, h]

theorem detachLoop_exists_eq (l : List Nat) :
    ∀ (s : Store), (∀ i ∈ l, grpExists s (getGrpParent s i) = true) →
      ∀ j, grpExists (detachLoop l s) j = grpExists s j := by
  induction l with
  | nil => intro s _ j; rfl
  | cons i rest ih =>
    intro s hpar j
    rw [detachLoop]
    have hex : grpExists s (getGrpParent s i) = true := hpar i (by simp)
    have hstep : ∀ k, grpExists (setGrpChildren s (getGrpParent s i)
        ((if -(i : Int) ∈ getGrpChildren s (getGrpParent s i) then
          (getGrpChildren s (getGrpParent s i)).eraseIdx
            ((getGrpChildren s (getGrpParent s i)).indexOf (-(i : Int)))
        else getGrpChildren s (getGrpParent s i)))) k = grpExists s k := by
      intro k
      rw [grpExists_setGrpChildren]
      by_cases hk : k = getGrpParent s i <;> simp [hk, hex]
    rw [show (if -(i : Int) ∈ getGrpChildren s (getGrpParent s i) then
        (getGrpChildren s (getGrpParent s i)).eraseIdx
          ((getGrpChildren s (getGrpParent s i)).indexOf (-(i : Int)))
      else getGrpChildren s (getGrpParent s i)) =
      (if -(i : Int) ∈ getGrpChildren s (getGrpParent s i) then
        (getGrpChildren s (getGrpParent s i)).eraseIdx
          ((getGrpChildren s (getGrpParent s i)).indexOf (-(i : Int)))
      else getGrpChildren s (getGrpParent s i)) from rfl]
    rw [ih _ (fun a ha => by
      rw [getGrpParent_setGrpChildren]
      rw [hstep]
      exact hpar a (by simp [ha]))]
    exact hstep j

theorem attachLoop_parent (dest : Nat) (l : List Nat) :
    ∀ (acc : List Int) (s : Store) (j : Nat),
      getGrpParent (attachLoop dest l acc s).2 j =
        if j ∈ l then dest else getGrpParent s j := by
  induction l with
  | nil => intro acc s j; simp [attachLoop]
  | cons i rest ih =>
    intro acc s j
    rw [attachLoop]
    rw [ih]
    by_cases hj : j ∈ rest
    · simp [hj]
    · rw [if_neg hj, getGrpParent_setGrpParent]
      by_cases hji : j = i
      · simp [hji]
      · rw [if_neg hji, if_neg (by simp [hji, hj])]

theorem attachLoop_tgts (dest : Nat) (l : List Nat) :
    ∀ (acc : List Int) (s : Store), (attachLoop dest l acc s).2.tgts = s.tgts := by
  induction l with
  | nil => intro acc s; rfl
  | cons i rest ih =>
    intro acc s
    rw [attachLoop, ih, setGrpParent_tgts]

theorem attachLoop_children (dest : Nat) (l : List Nat) :
    ∀ (acc : List Int) (s : Store) (j : Nat),
      getGrpChildren (attachLoop dest l acc s).2 j = getGrpChildren s j := by
  induction l with
  | nil => intro acc s j; rfl
  | cons i rest ih =>
    intro acc s j
    rw [attachLoop, ih, getGrpChildren_setGrpParent]

theorem attachLoop_exists_eq (dest : Nat) (l : List Nat) :
    ∀ (acc : List Int) (s : Store), (∀ i ∈ l, grpExists s i = true) →
      ∀ j, grpExists (attachLoop dest l acc s).2 j = grpExists s j := by
  induction l with
  | nil => intro acc s _ j; rfl
  | cons i rest ih =>
    intro acc s hl j
    rw [attachLoop]
    have hstep : ∀ k, grpExists (setGrpParent s i dest) k = grpExists s k := by
      intro k
      rw [grpExists_setGrpParent]
      by_cases hk : k = i <;> simp [hk, hl i (by simp)]
    rw [ih _ _ (fun a ha => by rw [hstep]; exact hl a (by simp [ha]))]
    exact hstep j

theorem attachLoop_exists_mono (dest : Nat) (l : List Nat) :
    ∀ (acc : List Int) (s : Store) (j : Nat), grpExists s j = true →
      grpExists (attachLoop dest l acc s).2 j = true := by
  induction l with
  | nil => intro acc s j h; exact h
  | cons i rest ih =>
    intro acc s j h
    rw [attachLoop]
    apply ih
    rw [grpExists_setGrpParent]
    by_cases hj : j = i <;> simp [hj, h]

/-- The parent field every index ends up with after `move_grps`. -/
theorem moveFinal_parent (s : Store) (indices : List Nat) (grp_index : Nat)
    (j : Nat) :
    getGrpParent (moveFinal s indices grp_index) j =
      if j ∈ moveSurvivors s indices grp_index then grp_index
      else getGrpParent s j := by
  unfold moveFinal
  rw [getGrpParent_setGrpChildren, attachLoop_parent]
  by_cases hj : j ∈ moveSurvivors s indices grp_index
  · simp [hj]
  · rw [if_neg hj, if_neg hj, detachLoop_parent]

/-! ### Claim C10: the mutated indices list holds exactly the moved elements -/

/-- C10: `move_grps(indices, dest)` removes from the caller's list (returned
by the model as the middle component) exactly those elements that equal
`dest` or occur in `dest`'s ancestor chain, so that afterwards the list
holds exactly the elements that were actually moved, each of which has been
reparented under `dest`. -/
theorem move_grps_list_mutation (s : Store) (indices : List Nat) (dest : Nat)
    (hacyc : Acyclic s) (hdest : grpExists s dest = true) :
    ∃ s' ws,
      move_grps s indices dest =
        .ok (s', indices.filter
          (fun x => !badMove dest (grpParentChain s (chainFuel s) dest) x), ws) ∧
      (∀ x, badMove dest (grpParentChain s (chainFuel s) dest) x = true ↔
        (x = dest ∨ AncRel (pstep s) dest x)) ∧
      (∀ x ∈ indices.filter
          (fun x => !badMove dest (grpParentChain s (chainFuel s) dest) x),
        getGrpParent s' x = dest) := by
  refine ⟨moveFinal s indices dest, moveWarnings s indices dest, ?_, ?_, ?_⟩
  · rw [move_grps_ok s indices dest hdest, moveSurvivors_filter]
  · intro x
    unfold badMove
    constructor
    · intro h
      rcases Bool.or_eq_true_iff.mp h with h | h
      · exact Or.inl (of_decide_eq_true h)
      · exact Or.inr (grpParentChain_sound s (chainFuel s) dest x
          (of_decide_eq_true h))
    · intro h
      rcases h with h | h
      · exact Bool.or_eq_true_iff.mpr (Or.inl (decide_eq_true h))
      · exact Bool.or_eq_true_iff.mpr (Or.inr (decide_eq_true
          (grpParentChain_complete s hacyc dest x h)))
  · intro x hx
    rw [moveFinal_parent]
    rw [if_pos (by rw [moveSurvivors_filter]; exact hx)]

/-- Store for the C10 witness: moving `[1, 3, 2]` under group 2 skips 2
(the destination itself) and 1 (an ancestor of the destination) and moves
only 3. -/
def storeC10 : Store :=
  ⟨[(0, ⟨0, [-1, -3], some "Group"⟩), (1, ⟨0, [-2], some "A"⟩),
    (2, ⟨1, [], some "B"⟩), (3, ⟨0, [], some "C"⟩)], []⟩

theorem move_grps_list_mutation_witness :
    Acyclic storeC10 ∧ grpExists storeC10 2 = true ∧
    ∃ s' ws,
      move_grps storeC10 [1, 3, 2] 2 =
        .ok (s', [1, 3, 2].filter
          (fun x => !badMove 2 (grpParentChain storeC10 (chainFuel storeC10) 2) x), ws) ∧
      (∀ x, badMove 2 (grpParentChain storeC10 (chainFuel storeC10) 2) x = true ↔
        (x = 2 ∨ AncRel (pstep storeC10) 2 x)) ∧
      (∀ x ∈ [1, 3, 2].filter
          (fun x => !badMove 2 (grpParentChain storeC10 (chainFuel storeC10) 2) x),
        getGrpParent s' x = 2) :=
  ⟨(invCheck_sound storeC10 (by decide)).acyclic, by decide,
   move_grps_list_mutation storeC10 [1, 3, 2] 2
     (invCheck_sound storeC10 (by decide)).acyclic (by decide)⟩

/-! ### Claim C3: cycle rejection leaves the store untouched -/

theorem skipPass_one_self (dest : Nat) (conf : List Nat) :
    skipPass dest conf 1 [dest] [] = ([], [warnSelf dest]) := by
  show skipPass dest conf (0 + 1) [dest] [] = _
  rw [skipPass]
  rw [dif_pos (by simp)]
  show (if dest = dest then
      skipPass dest conf 0 ([dest].eraseIdx (List.indexOf dest [dest]))
        ([] ++ [warnSelf dest])
    else if dest ∈ conf then
      skipPass dest conf 0 ([dest].eraseIdx (List.indexOf dest [dest]))
        ([] ++ [warnChild dest])
    else skipPass dest conf 0 [dest] []) = _
  rw [if_pos rfl]
  rw [skipPass]
  simp [List.indexOf_cons]

theorem skipPass_one_conflict (dest : Nat) (conf : List Nat) (x : Nat)
    (hne : x ≠ dest) (hmem : x ∈ conf) :
    skipPass dest conf 1 [x] [] = ([], [warnChild x]) := by
  show skipPass dest conf (0 + 1) [x] [] = _
  rw [skipPass]
  rw [dif_pos (by simp)]
  show (if x = dest then
      skipPass dest conf 0 ([x].eraseIdx (List.indexOf x [x]))
        ([] ++ [warnSelf x])
    else if x ∈ conf then
      skipPass dest conf 0 ([x].eraseIdx (List.indexOf x [x]))
        ([] ++ [warnChild x])
    else skipPass dest conf 0 [x] []) = _
  rw [if_neg hne, if_pos hmem]
  rw [skipPass]
  simp [List.indexOf_cons]

/-- C3 (amended): for existing groups `A` and `B` with `A` the parent of `B`
and `A` not the root, both `move_grps([A], B)` and `move_grps([A], A)`
return with the store exactly unchanged, the element popped from the list,
and the skip reported through a single warning rather than an error. -/
theorem move_grps_cycle_rejection (s : Store) (A B : Nat)
    (hinv : StoreInv s) (hA : grpExists s A = true) (hB : grpExists s B = true)
    (hparent : getGrpParent s B = A) (hA0 : A ≠ 0) :
    move_grps s [A] B = .ok (s, [], [warnChild A]) ∧
    move_grps s [A] A = .ok (s, [], [warnSelf A]) := by
  have hstepBA : pstep s B = some A :=
    (pstep_eq_some_iff s B A).mpr ⟨hparent, by omega⟩
  have hAB : A ≠ B := by
    intro h
    subst h
    exact hinv.acyclic A (Relation.TransGen.single (semParent_of_pstep s A A hstepBA))
  have hAconf : A ∈ grpParentChain s (chainFuel s) B :=
    grpParentChain_complete s hinv.acyclic B A (Relation.TransGen.single hstepBA)
  constructor
  · rw [move_grps_ok s [A] B hB]
    have hsurv : moveSurvivors s [A] B = [] := by
      unfold moveSurvivors
      rw [show ([A] : List Nat).length = 1 from rfl]
      rw [skipPass_one_conflict B _ A hAB hAconf]
    have hwarn : moveWarnings s [A] B = [warnChild A] := by
      unfold moveWarnings
      rw [show ([A] : List Nat).length = 1 from rfl]
      rw [skipPass_one_conflict B _ A hAB hAconf]
    have hfin : moveFinal s [A] B = s := by
      unfold moveFinal
      rw [hsurv]
      show setGrpChildren s B (getGrpChildren s B) = s
      exact setGrpChildren_id s B hinv.grpKeysNodup hB
    rw [hsurv, hwarn, hfin]
  · rw [move_grps_ok s [A] A hA]
    have hsurv : moveSurvivors s [A] A = [] := by
      unfold moveSurvivors
      rw [show ([A] : List Nat).length = 1 from rfl]
      rw [skipPass_one_self A _]
    have hwarn : moveWarnings s [A] A = [warnSelf A] := by
      unfold moveWarnings
      rw [show ([A] : List Nat).length = 1 from rfl]
      rw [skipPass_one_self A _]
    have hfin : moveFinal s [A] A = s := by
      unfold moveFinal
      rw [hsurv]
      show setGrpChildren s A (getGrpChildren s A) = s
      exact setGrpChildren_id s A hinv.grpKeysNodup hA
    rw [hsurv, hwarn, hfin]

/-- The store on which moving the root under its own child exhibits the
failures of C1 and C3 as stated: the root group 0 is the parent of group
1. -/
def storeRootMove : Store :=
  ⟨[(0, ⟨0, [-1], some "Group"⟩), (1, ⟨0, [], some "A"⟩)], []⟩

/-- C3 counterexample: with A = 0 (the root, parent of B = 1),
`move_grps([0], 1)` does not skip the element and rewrites the stored
records: the root's parent becomes 1, producing a different store.  The
ancestor chain of the destination stops before the root, so the guard never
fires for the root. -/
theorem move_grps_root_move_counterexample :
    grpExists storeRootMove 0 = true ∧ grpExists storeRootMove 1 = true ∧
    getGrpParent storeRootMove 1 = 0 ∧
    move_grps storeRootMove [0] 1 =
      .ok (moveFinal storeRootMove [0] 1, [0], []) ∧
    getGrpParent (moveFinal storeRootMove [0] 1) 0 = 1 ∧
    moveFinal storeRootMove [0] 1 ≠ storeRootMove := by
  refine ⟨by decide, by decide, by decide, ?_, by decide, by decide⟩
  rw [move_grps_ok storeRootMove [0] 1 (by decide)]
  have h1 : moveSurvivors storeRootMove [0] 1 = [0] := by decide
  have h2 : moveWarnings storeRootMove [0] 1 = [] := by decide
  rw [h1, h2]

/-- Store for the C3 witness: group 1 (non-root) is the parent of group 2. -/
def storeC3 : Store :=
  ⟨[(0, ⟨0, [-1], some "Group"⟩), (1, ⟨0, [-2], some "A"⟩),
    (2, ⟨1, [], some "B"⟩)], []⟩

theorem move_grps_cycle_rejection_witness :
    invCheck storeC3 = true ∧ grpExists storeC3 1 = true ∧
    grpExists storeC3 2 = true ∧ getGrpParent storeC3 2 = 1 ∧ (1 : Nat) ≠ 0 ∧
    (move_grps storeC3 [1] 2 = .ok (storeC3, [], [warnChild 1]) ∧
     move_grps storeC3 [1] 1 = .ok (storeC3, [], [warnSelf 1])) :=
  ⟨by decide, by decide, by decide, by decide, by decide,
   move_grps_cycle_rejection storeC3 1 2
     (invCheck_sound storeC3 (by decide)) (by decide) (by decide)
     (by decide) (by decide)⟩

/-! ### Claim C1: the batch move preserves I4 (for non-root elements)

The abstract situation: a functional step graph `st` (the semantic parent
relation), a set `D` of moved nodes whose step is redirected to `dest`.
When no moved node is `dest` or one of its ancestors -- which is exactly
what the skip pass enforces for non-root elements -- acyclicity is
preserved. -/

theorem acyclic_update_to_dest (st st' : Nat → Option Nat) (D : List Nat)
    (dest : Nat) (keys : List Nat)
    (hst' : ∀ x, st' x = if x ∈ D then some dest else st x)
    (hirr : ∀ x, ¬ AncRel st x x)
    (hkeys : ∀ x p, st x = some p → x ∈ keys)
    (hDdest : dest ∉ D)
    (hDanc : ∀ a, AncRel st dest a → a ∉ D) :
    ∀ x, ¬ AncRel st' x x := by
  set F := keys.length + 3 with hF
  have hbound : ∀ f g, (optChain st f g).length ≤ keys.length + 1 :=
    fun f g => optChain_length_bound st keys hirr hkeys f g
  -- walks that start at `dest` or one of its ancestors never meet `D`,
  -- hence are identical in the updated graph
  have hagree : ∀ g, g = dest ∨ AncRel st dest g →
      ∀ f, optChain st' f g = optChain st f g := by
    intro g hg f
    apply optChain_congr
    intro x hx
    have hxnD : x ∉ D := by
      rcases hx with hx | hx
      · subst hx
        rcases hg with hg | hg
        · subst hg; exact hDdest
        · exact hDanc x hg
      · have hanc : AncRel st g x := mem_optChain_anc st f g x hx
        rcases hg with hg | hg
        · subst hg; exact hDanc x hanc
        · exact hDanc x (Relation.TransGen.trans hg hanc)
    rw [hst' x, if_neg hxnD]
  have main : ∀ n g, (optChain st F g).length = n →
      ∃ l, (∀ f, l.length < f → optChain st' f g = l) ∧ g ∉ l ∧
        (∀ y ∈ l, AncRel st g y ∨ y = dest ∨ AncRel st dest y) := by
    intro n
    induction n using Nat.strong_induction_on with
    | _ n ih =>
      intro g hg
      by_cases hA : g = dest ∨ AncRel st dest g
      · refine ⟨optChain st F g, ?_, ?_, ?_⟩
        · intro f hf
          rw [hagree g hA f]
          exact optChain_eq_of_length_lt_both st F f g hf (by
            have := hbound F g
            omega)
        · intro hmem
          exact hirr g (mem_optChain_anc st F g g hmem)
        · intro y hy
          exact Or.inl (mem_optChain_anc st F g y hy)
      · push_neg at hA
        by_cases hD : g ∈ D
        · refine ⟨dest :: optChain st F dest, ?_, ?_, ?_⟩
          · intro f hf
            simp only [List.length_cons] at hf
            rcases f with _ | f'
            · omega
            · rw [optChain_succ_of_some (by rw [hst' g, if_pos hD])]
              rw [hagree dest (Or.inl rfl) f']
              rw [optChain_eq_of_length_lt_both st F f' dest (by omega) (by
                have := hbound F dest
                omega)]
          · intro hmem
            rcases List.mem_cons.mp hmem with hmem | hmem
            · subst hmem; exact hDdest hD
            · exact hDanc g (mem_optChain_anc st F dest g hmem) hD
          · intro y hy
            rcases List.mem_cons.mp hy with hy | hy
            · exact Or.inr (Or.inl hy)
            · exact Or.inr (Or.inr (mem_optChain_anc st F dest y hy))
        · rcases hstg : st g with _ | p
          · refine ⟨[], ?_, by simp, by simp⟩
            intro f hf
            rcases f with _ | f'
            · omega
            · exact optChain_succ_of_none (by rw [hst' g, if_neg hD, hstg]) f'
          · have hsplit : optChain st F g = p :: optChain st (F - 1) p := by
              have h1 : F - 1 + 1 = F := by omega
              rw [← h1]
              exact optChain_succ_of_some hstg _
            have hstab : optChain st (F - 1) p = optChain st F p :=
              optChain_eq_of_length_lt st F (F - 1) p
                (by have := hbound F p; omega) (by omega)
            have hplen : (optChain st F p).length < n := by
              rw [← hg, hsplit, hstab]
              simp
            obtain ⟨lp, hlp_stab, hlp_notp, hlp_src⟩ :=
              ih _ hplen p rfl
            refine ⟨p :: lp, ?_, ?_, ?_⟩
            · intro f hf
              simp only [List.length_cons] at hf
              rcases f with _ | f'
              · omega
              · rw [optChain_succ_of_some (by rw [hst' g, if_neg hD, hstg])]
                rw [hlp_stab f' (by omega)]
            · intro hmem
              rcases List.mem_cons.mp hmem with hmem | hmem
              · subst hmem
                exact hirr g (Relation.TransGen.single hstg)
              · rcases hlp_src g hmem with hsrc | hsrc | hsrc
                · exact hirr g (Relation.TransGen.head hstg hsrc)
                · exact hA.1 hsrc
                · exact hA.2 hsrc
            · intro y hy
              rcases List.mem_cons.mp hy with hy | hy
              · subst hy
                exact Or.inl (Relation.TransGen.single hstg)
              · rcases hlp_src y hy with hsrc | hsrc | hsrc
                · exact Or.inl (Relation.TransGen.head hstg hsrc)
                · exact Or.inr (Or.inl hsrc)
                · exact Or.inr (Or.inr hsrc)
  intro x hcyc
  obtain ⟨l, hstab, hnot, _⟩ := main (optChain st F x).length x rfl
  have hc : optChain st' (l.length + 1 + 1) x = optChain st' (l.length + 1) x := by
    rw [hstab _ (by omega), hstab _ (by omega)]
  have hmem := anc_mem_optChain st' (l.length + 1) x x hc hcyc
  rw [hstab _ (by omega)] at hmem
  exact hnot hmem

theorem semParent_eq (s : Store) (g : Nat) :
    semParent s g =
      if grpExists s g = true then
        if g = 0 then
          (if 0 < getGrpParent s g then some (getGrpParent s g) else none)
        else some (getGrpParent s g)
      else none := by
  rcases hl : lookupGrp s g with _ | r <;>
    simp [semParent, grpExists, getGrpParent, hl]

theorem semParent_root_none (s : Store) (hroot : getGrpParent s 0 = 0) :
    semParent s 0 = none := by
  rw [semParent_eq]
  by_cases hx : grpExists s 0 = true
  · rw [if_pos hx, if_pos rfl, hroot]
    simp
  · rw [if_neg hx]

/-- A semantic-parent step is either an iterator step or a step to the
root. -/
theorem semParent_step_cases (s : Store) (x y : Nat)
    (h : semParent s x = some y) : pstep s x = some y ∨ y = 0 := by
  rw [semParent_eq] at h
  by_cases hx : grpExists s x = true
  · rw [if_pos hx] at h
    by_cases hx0 : x = 0
    · rw [if_pos hx0] at h
      by_cases hp : 0 < getGrpParent s x
      · rw [if_pos hp, Option.some.injEq] at h
        exact Or.inl (by simp [pstep, hp, h]; omega)
      · rw [if_neg hp] at h
        cases h
    · rw [if_neg hx0, Option.some.injEq] at h
      by_cases hp : 0 < getGrpParent s x
      · exact Or.inl (by simp [pstep, hp, h]; omega)
      · right
        omega
  · rw [if_neg hx] at h
    cases h

/-- On a store whose root has the sentinel parent 0, semantic ancestry
either comes from the iterator walk or ends at the root. -/
theorem semAnc_pstep_or_zero (s : Store) (hroot : semParent s 0 = none)
    (d a : Nat) (h : AncRel (semParent s) d a) :
    AncRel (pstep s) d a ∨ a = 0 := by
  induction h with
  | single hstep =>
    rcases semParent_step_cases s _ _ hstep with h | h
    · exact Or.inl (Relation.TransGen.single h)
    · exact Or.inr h
  | tail hdb hstep ih =>
    rcases ih with ih | ih
    · rcases semParent_step_cases s _ _ hstep with h | h
      · exact Or.inl (Relation.TransGen.tail ih h)
      · exact Or.inr h
    · subst ih
      rw [hroot] at hstep
      cases hstep

/-- The destination itself is always popped by the skip pass. -/
theorem dest_not_mem_moveSurvivors (s : Store) (indices : List Nat)
    (dest : Nat) : dest ∉ moveSurvivors s indices dest := by
  rw [moveSurvivors_filter]
  intro hmem
  have := (List.mem_filter.mp hmem).2
  simp [badMove] at this

/-- `move_grps` leaves group existence untouched (given that the moved
elements and their parents exist). -/
theorem moveFinal_exists (s : Store) (indices : List Nat) (dest : Nat)
    (hdest : grpExists s dest = true)
    (hex : ∀ i ∈ moveSurvivors s indices dest, grpExists s i = true)
    (hpar : ∀ i ∈ moveSurvivors s indices dest,
      grpExists s (getGrpParent s i) = true) :
    ∀ j, grpExists (moveFinal s indices dest) j = grpExists s j := by
  intro j
  unfold moveFinal
  rw [grpExists_setGrpChildren]
  have h1 : ∀ k, grpExists (detachLoop (moveSurvivors s indices dest) s) k =
      grpExists s k :=
    detachLoop_exists_eq (moveSurvivors s indices dest) s hpar
  have h2 : ∀ k, grpExists (attachLoop dest (moveSurvivors s indices dest)
      (getGrpChildren (detachLoop (moveSurvivors s indices dest) s) dest)
      (detachLoop (moveSurvivors s indices dest) s)).2 k = grpExists s k := by
    intro k
    rw [attachLoop_exists_eq dest (moveSurvivors s indices dest) _ _
      (fun i hi => by rw [h1]; exact hex i hi), h1]
  by_cases hj : j = dest
  · subst hj
    rw [if_pos rfl, hdest]
  · rw [if_neg hj, h2]

/-- The semantic parent function after `move_grps`: survivors point at the
destination, everything else is unchanged. -/
theorem semParent_moveFinal (s : Store) (indices : List Nat) (dest : Nat)
    (hdest : grpExists s dest = true)
    (hex : ∀ i ∈ moveSurvivors s indices dest, grpExists s i = true)
    (hne : ∀ i ∈ moveSurvivors s indices dest, i ≠ 0)
    (hpar : ∀ i ∈ moveSurvivors s indices dest,
      grpExists s (getGrpParent s i) = true) :
    ∀ x, semParent (moveFinal s indices dest) x =
      if x ∈ moveSurvivors s indices dest then some dest
      else semParent s x := by
  intro x
  rw [semParent_eq (moveFinal s indices dest) x,
    moveFinal_exists s indices dest hdest hex hpar x, moveFinal_parent]
  by_cases hx : x ∈ moveSurvivors s indices dest
  · simp only [if_pos hx]
    rw [if_pos (hex x hx), if_neg (hne x hx)]
  · simp only [if_neg hx]
    rw [semParent_eq s x]

/-- C1 (amended to batches of existing NON-ROOT group indices): on a store
satisfying the invariants, with an existing destination, `move_grps` skips
exactly the elements that equal the destination or have the destination in
their descendant set (i.e. are a semantic ancestor of it), moves every
remaining element under the destination, and the result is again acyclic
(I4 is preserved). -/
theorem move_grps_skip_set_and_invariant (s : Store) (indices : List Nat)
    (dest : Nat) (hinv : StoreInv s) (hdest : grpExists s dest = true)
    (helem : ∀ x ∈ indices, grpExists s x = true ∧ x ≠ 0) :
    ∃ s' ws,
      move_grps s indices dest =
        .ok (s', indices.filter (fun x => !badMove dest
          (grpParentChain s (chainFuel s) dest) x), ws) ∧
      (∀ x ∈ indices,
        badMove dest (grpParentChain s (chainFuel s) dest) x = true ↔
          (x = dest ∨ AncRel (semParent s) dest x)) ∧
      (∀ x ∈ indices.filter (fun x => !badMove dest
          (grpParentChain s (chainFuel s) dest) x),
        getGrpParent s' x = dest) ∧
      Acyclic s' := by
  have hroot : semParent s 0 = none := semParent_root_none s hinv.rootParent
  have hsub : ∀ i ∈ moveSurvivors s indices dest, i ∈ indices := by
    intro i hi
    rw [moveSurvivors_filter] at hi
    exact (List.mem_filter.mp hi).1
  have hex : ∀ i ∈ moveSurvivors s indices dest, grpExists s i = true :=
    fun i hi => (helem i (hsub i hi)).1
  have hne : ∀ i ∈ moveSurvivors s indices dest, i ≠ 0 :=
    fun i hi => (helem i (hsub i hi)).2
  have hpar : ∀ i ∈ moveSurvivors s indices dest,
      grpExists s (getGrpParent s i) = true :=
    fun i hi => hinv.parentLives i (hex i hi) (hne i hi)
  refine ⟨moveFinal s indices dest, moveWarnings s indices dest, ?_, ?_, ?_, ?_⟩
  · rw [move_grps_ok s indices dest hdest, moveSurvivors_filter]
  · intro x hx
    constructor
    · intro hb
      rcases Bool.or_eq_true_iff.mp hb with hb | hb
      · exact Or.inl (of_decide_eq_true hb)
      · exact Or.inr (ancRel_pstep_le_semParent s dest x
          (grpParentChain_sound s (chainFuel s) dest x (of_decide_eq_true hb)))
    · intro h
      rcases h with h | h
      · exact Bool.or_eq_true_iff.mpr (Or.inl (decide_eq_true h))
      · rcases semAnc_pstep_or_zero s hroot dest x h with h2 | h2
        · exact Bool.or_eq_true_iff.mpr (Or.inr (decide_eq_true
            (grpParentChain_complete s hinv.acyclic dest x h2)))
        · exact absurd h2 (helem x hx).2
  · intro x hxf
    rw [moveFinal_parent, if_pos (by rw [moveSurvivors_filter]; exact hxf)]
  · exact acyclic_update_to_dest (semParent s)
      (semParent (moveFinal s indices dest)) (moveSurvivors s indices dest)
      dest (s.grps.map Prod.fst)
      (semParent_moveFinal s indices dest hdest hex hne hpar)
      hinv.acyclic (semParent_mem_keys s)
      (dest_not_mem_moveSurvivors s indices dest)
      (fun a ha hamem => by
        rcases semAnc_pstep_or_zero s hroot dest a ha with h2 | h2
        · have hchain := grpParentChain_complete s hinv.acyclic dest a h2
          rw [moveSurvivors_filter] at hamem
          have hb := (List.mem_filter.mp hamem).2
          simp [badMove, hchain] at hb
        · exact hne a hamem h2)

/-- C1 counterexample: `storeRootMove` satisfies every invariant, the batch
`[0]` consists of existing groups, the destination 1 exists and lies in the
descendant set of element 0 (it is a semantic descendant of the root), yet
`move_grps([0], 1)` does not skip the element -- the returned list is `[0]`,
not `[]` -- and afterwards I4 is broken: group 0 is its own ancestor. -/
theorem move_grps_acyclicity_counterexample :
    StoreInv storeRootMove ∧
    (∀ x ∈ ([0] : List Nat), grpExists storeRootMove x = true) ∧
    grpExists storeRootMove 1 = true ∧
    AncRel (semParent storeRootMove) 1 0 ∧
    move_grps storeRootMove [0] 1 =
      .ok (moveFinal storeRootMove [0] 1, [0], []) ∧
    AncRel (semParent (moveFinal storeRootMove [0] 1)) 0 0 := by
  refine ⟨invCheck_sound storeRootMove (by decide), by decide, by decide,
    ?_, ?_, ?_⟩
  · exact Relation.TransGen.single (by decide)
  · rw [move_grps_ok storeRootMove [0] 1 (by decide)]
    have h1 : moveSurvivors storeRootMove [0] 1 = [0] := by decide
    have h2 : moveWarnings storeRootMove [0] 1 = [] := by decide
    rw [h1, h2]
  · exact Relation.TransGen.head
      (show semParent (moveFinal storeRootMove [0] 1) 0 = some 1 by decide)
      (Relation.TransGen.single
        (show semParent (moveFinal storeRootMove [0] 1) 1 = some 0 by decide))

/-- Store for the C1 witness: groups 1 and 2 are both children of the
root; the batch `[1]` is moved under 2. -/
def storeC1 : Store :=
  ⟨[(0, ⟨0, [-1, -2], some "Group"⟩), (1, ⟨0, [], some "A"⟩),
    (2, ⟨0, [], some "B"⟩)], []⟩

theorem move_grps_skip_set_and_invariant_witness :
    StoreInv storeC1 ∧ grpExists storeC1 2 = true ∧
    (∀ x ∈ ([1] : List Nat), grpExists storeC1 x = true ∧ x ≠ 0) ∧
    (∃ s' ws, move_grps storeC1 [1] 2 =
        .ok (s', [1].filter (fun x =>
          !badMove 2 (grpParentChain storeC1 (chainFuel storeC1) 2) x), ws) ∧
      (∀ x ∈ ([1] : List Nat),
        badMove 2 (grpParentChain storeC1 (chainFuel storeC1) 2) x = true ↔
          (x = 2 ∨ AncRel (semParent storeC1) 2 x)) ∧
      (∀ x ∈ [1].filter (fun x =>
          !badMove 2 (grpParentChain storeC1 (chainFuel storeC1) 2) x),
        getGrpParent s' x = 2) ∧
      Acyclic s') :=
  ⟨invCheck_sound storeC1 (by decide), by decide, by decide,
   move_grps_skip_set_and_invariant storeC1 [1] 2
     (invCheck_sound storeC1 (by decide)) (by decide) (by decide)⟩

/-! ### Claim C6: the root record under deletion -/

theorem exceptBind_ok {α β : Type} (x : Except String α)
    (f : α → Except String β) (b : β) (h : (x >>= f) = .ok b) :
    ∃ a, x = .ok a ∧ f a = .ok b := by
  cases x with
  | error e => simp [Bind.bind, Except.bind] at h
  | ok a => exact ⟨a, rfl, by simpa [Bind.bind, Except.bind] using h⟩

/-- The first phase of `delete_grp`: pop the group from its parent's child
list (writing back only when the entry was present). -/
def delDetach (s : Store) (g : Nat) : Store :=
  let p := getGrpParent s g
  let pcs := getGrpChildren s p
  if (-(g : Int)) ∈ pcs then
    setGrpChildren s p (pcs.eraseIdx (pcs.indexOf (-(g : Int))))
  else s

theorem deleteGrpF_succ (fuel g : Nat) (s : Store)
    (hex : grpExists s g = true) :
    deleteGrpF (fuel + 1) g s =
      deleteKids fuel (getGrpChildren (delDetach s g) g) (delDetach s g) >>=
        fun s2 => .ok (removeGrpRecord s2 g) := by
  rw [deleteGrpF, if_pos hex]
  rfl

theorem deleteGrpF_err (fuel g : Nat) (s : Store)
    (hex : ¬ grpExists s g = true) :
    deleteGrpF (fuel + 1) g s = .error (invalidMsg g) := by
  rw [deleteGrpF, if_neg hex]

theorem deleteKids_nil (fuel : Nat) (s : Store) :
    deleteKids fuel [] s = .ok s := by
  rw [deleteKids]

theorem deleteKids_cons_neg (fuel : Nat) (e : Int) (rest : List Int)
    (s : Store) (he : e < 0) :
    deleteKids fuel (e :: rest) s =
      deleteGrpF fuel (-e).toNat s >>= fun t => deleteKids fuel rest t := by
  rw [deleteKids, if_pos he]

theorem deleteKids_cons_nonneg (fuel : Nat) (e : Int) (rest : List Int)
    (s : Store) (he : ¬ e < 0) :
    deleteKids fuel (e :: rest) s =
      deleteKids fuel rest (delete_target s e.toNat) := by
  rw [deleteKids, if_neg he]

/-- Deleting any group other than the root never removes the root record
(nor does any of the recursive child deletions: a negative child entry
always decodes to a positive group index). -/
theorem deleteGrpF_keeps_root : ∀ fuel,
    (∀ g s s', g ≠ 0 → grpExists s 0 = true →
      deleteGrpF fuel g s = .ok s' → grpExists s' 0 = true) ∧
    (∀ l s s', grpExists s 0 = true →
      deleteKids fuel l s = .ok s' → grpExists s' 0 = true) := by
  intro fuel
  induction fuel with
  | zero =>
    have hG : ∀ g s s', g ≠ 0 → grpExists s 0 = true →
        deleteGrpF 0 g s = .ok s' → grpExists s' 0 = true := by
      intro g s s' _ _ hdel
      simp [deleteGrpF] at hdel
    refine ⟨hG, ?_⟩
    intro l
    induction l with
    | nil =>
      intro s s' h0 hdel
      simp [deleteKids] at hdel
      rw [← hdel]
      exact h0
    | cons e rest ihl =>
      intro s s' h0 hdel
      by_cases he : e < 0
      · rw [deleteKids_cons_neg 0 e rest s he] at hdel
        obtain ⟨a, ha, _⟩ := exceptBind_ok _ _ _ hdel
        simp [deleteGrpF] at ha
      · rw [deleteKids_cons_nonneg 0 e rest s he] at hdel
        exact ihl _ _ (by rw [grpExists_delete_target]; exact h0) hdel
  | succ fuel ih =>
    have hG : ∀ g s s', g ≠ 0 → grpExists s 0 = true →
        deleteGrpF (fuel + 1) g s = .ok s' → grpExists s' 0 = true := by
      intro g s s' hg h0 hdel
      by_cases hex : grpExists s g = true
      · rw [deleteGrpF_succ fuel g s hex] at hdel
        obtain ⟨s2, hk, hrm⟩ := exceptBind_ok _ _ _ hdel
        have h1 : grpExists (delDetach s g) 0 = true := by
          unfold delDetach
          by_cases hc : (-(g : Int)) ∈ getGrpChildren s (getGrpParent s g)
          · rw [if_pos hc, grpExists_setGrpChildren]
            by_cases h00 : (0 : Nat) = getGrpParent s g <;> simp [h00, h0]
          · rw [if_neg hc]
            exact h0
        have h2 := ih.2 _ _ _ h1 hk
        cases hrm
        rw [grpExists_removeGrpRecord, if_neg (by omega)]
        exact h2
      · rw [deleteGrpF_err fuel g s hex] at hdel
        cases hdel
    refine ⟨hG, ?_⟩
    intro l
    induction l with
    | nil =>
      intro s s' h0 hdel
      simp [deleteKids] at hdel
      rw [← hdel]
      exact h0
    | cons e rest ihl =>
      intro s s' h0 hdel
      by_cases he : e < 0
      · rw [deleteKids_cons_neg _ e rest s he] at hdel
        obtain ⟨a, ha, hrest⟩ := exceptBind_ok _ _ _ hdel
        have hne : (-e).toNat ≠ 0 := by omega
        exact ihl _ _ (hG _ _ _ hne h0 ha) hrest
      · rw [deleteKids_cons_nonneg _ e rest s he] at hdel
        exact ihl _ _ (by rw [grpExists_delete_target]; exact h0) hdel

/-- C6 (amended to deletions of groups other than the root itself): when
`delete_grp(g)` succeeds on a store whose root record exists and `g` is not
0, the root record still exists afterwards -- the cascade only ever recurses
into strictly positive indices decoded from negative child entries, so no
step removes record 0. -/
theorem delete_grp_keeps_root (s : Store) (g : Nat) (s' : Store)
    (hg : g ≠ 0) (h0 : grpExists s 0 = true)
    (hdel : delete_grp s g = .ok s') : grpExists s' 0 = true := by
  rw [delete_grp] at hdel
  exact (deleteGrpF_keeps_root (s.grps.length + 1)).1 g s s' hg h0 hdel

/-- `delete_grp` on a group with no children: detach, delete nothing,
remove the record. -/
theorem delete_grp_leaf_eq (s : Store) (g : Nat) (hex : grpExists s g = true)
    (hkids : getGrpChildren (delDetach s g) g = []) :
    delete_grp s g = .ok (removeGrpRecord (delDetach s g) g) := by
  rw [delete_grp, deleteGrpF_succ s.grps.length g s hex, hkids, deleteKids_nil]
  rfl

/-- Store on which `delete_grp(0)` deletes the root record: just the root. -/
def storeC6 : Store := ⟨[(0, ⟨0, [], some "Group"⟩)], []⟩

/-- C6 counterexample: `delete_grp(0)` is not rejected -- it removes the
root record from storage, leaving a store with no root at all. -/
theorem delete_root_record_counterexample :
    StoreInv storeC6 ∧ grpExists storeC6 0 = true ∧
    delete_grp storeC6 0 = .ok (⟨[], []⟩ : Store) ∧
    grpExists (⟨[], []⟩ : Store) 0 = false :=
  ⟨invCheck_sound storeC6 (by decide), by decide,
   by rw [delete_grp_leaf_eq storeC6 0 (by decide) (by decide)]; rfl,
   by decide⟩

/-- Store for the C6 witness: one group under the root. -/
def storeC6w : Store :=
  ⟨[(0, ⟨0, [-1], some "Group"⟩), (1, ⟨0, [], some "A"⟩)], []⟩

theorem delete_grp_keeps_root_witness :
    (1 : Nat) ≠ 0 ∧ grpExists storeC6w 0 = true ∧
    delete_grp storeC6w 1 = .ok (⟨[(0, ⟨0, [], some "Group"⟩)], []⟩ : Store) ∧
    grpExists (⟨[(0, ⟨0, [], some "Group"⟩)], []⟩ : Store) 0 = true :=
  ⟨by decide, by decide,
   by rw [delete_grp_leaf_eq storeC6w 1 (by decide) (by decide)]; rfl,
   delete_grp_keeps_root storeC6w 1 ⟨[(0, ⟨0, [], some "Group"⟩)], []⟩
     (by decide) (by decide)
     (by rw [delete_grp_leaf_eq storeC6w 1 (by decide) (by decide)]; rfl)⟩

/-! ### Claim C5: `create_grp` -/

theorem getGrpParent_not_exists (s : Store) (i : Nat)
    (h : grpExists s i = false) : getGrpParent s i = 0 := by
  unfold grpExists at h
  unfold getGrpParent
  rcases hl : lookupGrp s i with _ | r
  · rfl
  · rw [hl] at h
    cases h

theorem getGrpChildren_not_exists (s : Store) (i : Nat)
    (h : grpExists s i = false) : getGrpChildren s i = [] := by
  unfold grpExists at h
  unfold getGrpChildren
  rcases hl : lookupGrp s i with _ | r
  · rfl
  · rw [hl] at h
    cases h

theorem le_foldr_max (l : List Nat) (k : Nat) (hk : k ∈ l) :
    k ≤ l.foldr Nat.max 0 := by
  induction l with
  | nil => cases hk
  | cons a t ih =>
    rcases List.mem_cons.mp hk with h | h
    · subst h
      exact Nat.le_max_left _ _
    · exact le_trans (ih h) (Nat.le_max_right _ _)

/-- The allocator returns a key that is not in use. -/
theorem next_grp_index_fresh (s : Store) :
    grpExists s (next_grp_index s) = false := by
  rcases hl : lookupGrp s (next_grp_index s) with _ | r
  · simp [grpExists, hl]
  · exfalso
    have hmem := mem_keys_of_lookup_some s.grps (next_grp_index s) r hl
    have hle := le_foldr_max (s.grps.map (fun p => p.1)) (next_grp_index s) hmem
    unfold next_grp_index at hle
    omega

theorem next_grp_index_pos (s : Store) : 0 < next_grp_index s := by
  unfold next_grp_index
  omega

/-- One iterator step out of an existing group lands on an existing
group. -/
theorem pstep_exists (s : Store) (hinv : StoreInv s) (g a : Nat)
    (hg : grpExists s g = true) (h : pstep s g = some a) :
    grpExists s a = true := by
  rw [pstep_eq_some_iff] at h
  by_cases hg0 : g = 0
  · subst hg0
    rw [hinv.rootParent] at h
    omega
  · rw [← h.1]
    exact hinv.parentLives g hg hg0

theorem anc_pstep_exists (s : Store) (hinv : StoreInv s) (g a : Nat)
    (hg : grpExists s g = true) (h : AncRel (pstep s) g a) :
    grpExists s a = true := by
  induction h with
  | single h1 => exact pstep_exists s hinv _ _ hg h1
  | tail hgb h1 ih => exact pstep_exists s hinv _ _ ih h1

/-- Erasing the first occurrence of `x` keeps every element different from
`x`. -/
theorem mem_eraseIdx_indexOf {α : Type} [DecidableEq α] (l : List α)
    (x e : α) (hne : e ≠ x) (he : e ∈ l) :
    e ∈ l.eraseIdx (l.indexOf x) := by
  induction l with
  | nil => cases he
  | cons a t ih =>
    rw [List.indexOf_cons]
    by_cases hax : a = x
    · have hb : (a == x) = true := beq_iff_eq.mpr hax
      rw [hb]
      show e ∈ List.eraseIdx (a :: t) 0
      rcases List.mem_cons.mp he with h | h
      · exact absurd (h.trans hax) hne
      · exact h
    · have hb : (a == x) = false := beq_eq_false_iff_ne.mpr hax
      rw [hb]
      show e ∈ List.eraseIdx (a :: t) (t.indexOf x + 1)
      rw [List.eraseIdx_cons_succ]
      rcases List.mem_cons.mp he with h | h
      · exact List.mem_cons.mpr (Or.inl h)
      · exact List.mem_cons.mpr (Or.inr (ih h))

/-- One body of the `move_targets` loop. -/
def mtStep (dest t : Nat) (s : Store) : Store :=
  let op := getTgtParent s t
  let pcs := getGrpChildren s op
  let s1 :=
    if ((t : Int)) ∈ pcs then
      setGrpChildren s op (pcs.eraseIdx (pcs.indexOf ((t : Int))))
    else s
  setTgtParent s1 t dest

theorem mtLoop_cons (dest t : Nat) (rest : List Nat) (acc : List Int)
    (s : Store) :
    mtLoop dest (t :: rest) acc s =
      mtLoop dest rest (if ((t : Int)) ∈ acc then acc else acc ++ [(t : Int)])
        (mtStep dest t s) := rfl

theorem mtStep_nameField (dest t : Nat) (s : Store) (j : Nat) :
    getGrpNameField (mtStep dest t s) j = getGrpNameField s j := by
  simp only [mtStep]
  by_cases h : ((t : Int)) ∈ getGrpChildren s (getTgtParent s t) <;>
    simp [h, getGrpNameField_setTgtParent, getGrpNameField_setGrpChildren]

theorem mtStep_grpParent (dest t : Nat) (s : Store) (j : Nat) :
    getGrpParent (mtStep dest t s) j = getGrpParent s j := by
  simp only [mtStep]
  by_cases h : ((t : Int)) ∈ getGrpChildren s (getTgtParent s t) <;>
    simp [h, getGrpParent_setTgtParent, getGrpParent_setGrpChildren]

theorem mtStep_grpExists (dest t : Nat) (s : Store) (j : Nat) :
    grpExists (mtStep dest t s) j = grpExists s j := by
  simp only [mtStep]
  by_cases h : ((t : Int)) ∈ getGrpChildren s (getTgtParent s t)
  · rw [if_pos h, grpExists_setTgtParent, grpExists_setGrpChildren]
    by_cases hj : j = getTgtParent s t
    · rw [if_pos hj, hj]
      by_cases hex : grpExists s (getTgtParent s t) = true
      · rw [hex]
      · rw [getGrpChildren_not_exists s (getTgtParent s t)
          (by simpa using hex)] at h
        cases h
    · rw [if_neg hj]
  · rw [if_neg h, grpExists_setTgtParent]

theorem mtStep_children_sub (dest t : Nat) (s : Store) (j : Nat) (e : Int)
    (h : e ∈ getGrpChildren (mtStep dest t s) j) : e ∈ getGrpChildren s j := by
  simp only [mtStep] at h
  by_cases hm : ((t : Int)) ∈ getGrpChildren s (getTgtParent s t)
  · rw [if_pos hm, getGrpChildren_setTgtParent] at h
    rw [getGrpChildren_setGrpChildren] at h
    by_cases hj : j = getTgtParent s t
    · rw [if_pos hj] at h
      subst hj
      exact (List.eraseIdx_sublist _ _).mem h
    · rw [if_neg hj] at h
      exact h
  · rw [if_neg hm, getGrpChildren_setTgtParent] at h
    exact h

theorem mtStep_children_neg (dest t : Nat) (s : Store) (j : Nat) (e : Int)
    (hneg : e < 0) (h : e ∈ getGrpChildren s j) :
    e ∈ getGrpChildren (mtStep dest t s) j := by
  simp only [mtStep]
  by_cases hm : ((t : Int)) ∈ getGrpChildren s (getTgtParent s t)
  · rw [if_pos hm, getGrpChildren_setTgtParent, getGrpChildren_setGrpChildren]
    by_cases hj : j = getTgtParent s t
    · rw [if_pos hj]
      subst hj
      exact mem_eraseIdx_indexOf _ _ _ (by omega) h
    · rw [if_neg hj]
      exact h
  · rw [if_neg hm, getGrpChildren_setTgtParent]
    exact h

theorem mtStep_tgtParent (dest t : Nat) (s : Store) (u : Nat) :
    getTgtParent (mtStep dest t s) u =
      if u = t then dest else getTgtParent s u := by
  simp only [mtStep]
  by_cases hm : ((t : Int)) ∈ getGrpChildren s (getTgtParent s t)
  · rw [if_pos hm, getTgtParent_setTgtParent, getTgtParent_setGrpChildren]
  · rw [if_neg hm, getTgtParent_setTgtParent]

theorem mtLoop_nameField (dest : Nat) (l : List Nat) :
    ∀ acc s j, getGrpNameField (mtLoop dest l acc s).2 j =
      getGrpNameField s j := by
  induction l with
  | nil => intro acc s j; rfl
  | cons t rest ih =>
    intro acc s j
    rw [mtLoop_cons, ih, mtStep_nameField]

theorem mtLoop_grpParent (dest : Nat) (l : List Nat) :
    ∀ acc s j, getGrpParent (mtLoop dest l acc s).2 j = getGrpParent s j := by
  induction l with
  | nil => intro acc s j; rfl
  | cons t rest ih =>
    intro acc s j
    rw [mtLoop_cons, ih, mtStep_grpParent]

theorem mtLoop_grpExists (dest : Nat) (l : List Nat) :
    ∀ acc s j, grpExists (mtLoop dest l acc s).2 j = grpExists s j := by
  induction l with
  | nil => intro acc s j; rfl
  | cons t rest ih =>
    intro acc s j
    rw [mtLoop_cons, ih, mtStep_grpExists]

theorem mtLoop_children_sub (dest : Nat) (l : List Nat) :
    ∀ acc s j e, e ∈ getGrpChildren (mtLoop dest l acc s).2 j →
      e ∈ getGrpChildren s j := by
  induction l with
  | nil => intro acc s j e h; exact h
  | cons t rest ih =>
    intro acc s j e h
    rw [mtLoop_cons] at h
    exact mtStep_children_sub dest t s j e (ih _ _ _ _ h)

theorem mtLoop_children_neg (dest : Nat) (l : List Nat) :
    ∀ acc s j e, e < 0 → e ∈ getGrpChildren s j →
      e ∈ getGrpChildren (mtLoop dest l acc s).2 j := by
  induction l with
  | nil => intro acc s j e _ h; exact h
  | cons t rest ih =>
    intro acc s j e hneg h
    rw [mtLoop_cons]
    exact ih _ _ _ _ hneg (mtStep_children_neg dest t s j e hneg h)

theorem mtLoop_tgtParent (dest : Nat) (l : List Nat) :
    ∀ acc s u, getTgtParent (mtLoop dest l acc s).2 u =
      if u ∈ l then dest else getTgtParent s u := by
  induction l with
  | nil => intro acc s u; simp [mtLoop]
  | cons t rest ih =>
    intro acc s u
    rw [mtLoop_cons, ih, mtStep_tgtParent]
    by_cases hu : u ∈ rest
    · simp [hu]
    · by_cases hut : u = t
      · simp [hu, hut]
      · simp [hu, hut]

theorem mtLoop_acc_mono (dest : Nat) (l : List Nat) :
    ∀ acc s a, a ∈ acc → a ∈ (mtLoop dest l acc s).1 := by
  induction l with
  | nil => intro acc s a h; exact h
  | cons t rest ih =>
    intro acc s a h
    rw [mtLoop_cons]
    apply ih
    by_cases hm : ((t : Int)) ∈ acc
    · rw [if_pos hm]; exact h
    · rw [if_neg hm]; exact List.mem_append_left _ h

theorem mtLoop_acc_of_mem (dest : Nat) (l : List Nat) :
    ∀ acc s t, t ∈ l → ((t : Int)) ∈ (mtLoop dest l acc s).1 := by
  induction l with
  | nil => intro acc s t h; cases h
  | cons u rest ih =>
    intro acc s t h
    rw [mtLoop_cons]
    rcases List.mem_cons.mp h with h | h
    · subst h
      apply mtLoop_acc_mono
      by_cases hm : ((t : Int)) ∈ acc
      · rw [if_pos hm]; exact hm
      · rw [if_neg hm]; exact List.mem_append_right _ (by simp)
    · exact ih _ _ _ h

theorem mtLoop_acc_nonneg (dest : Nat) (l : List Nat) :
    ∀ acc s, (∀ e ∈ acc, (0 : Int) ≤ e) →
      ∀ e ∈ (mtLoop dest l acc s).1, (0 : Int) ≤ e := by
  induction l with
  | nil => intro acc s h e he; exact h e he
  | cons t rest ih =>
    intro acc s h e he
    rw [mtLoop_cons] at he
    refine ih _ _ ?_ e he
    intro x hx
    by_cases hm : ((t : Int)) ∈ acc
    · rw [if_pos hm] at hx; exact h x hx
    · rw [if_neg hm] at hx
      rcases List.mem_append.mp hx with hx | hx
      · exact h x hx
      · simp at hx
        omega

/-- The store after `move_grps([new], parent)` and the explicit
`_set_grp_parent(new, parent)` inside `create_grp`. -/
def cgStage2 (s : Store) (parent : Nat) : Store :=
  setGrpParent (moveFinal s [next_grp_index s] parent) (next_grp_index s) parent

/-- The name `create_grp` resolves for the new group. -/
def cgName (s : Store) (parent : Nat) (name : String) : String :=
  build_unique_name (cgStage2 s parent)
    (getGrpParent (cgStage2 s parent) (next_grp_index s)) name

/-- The store after `rename_grp` inside `create_grp`. -/
def cgStage3 (s : Store) (parent : Nat) (name : String) : Store :=
  setGrpName (cgStage2 s parent) (next_grp_index s) (cgName s parent name)

/-- The store `create_grp` finally returns. -/
def cgFinal (s : Store) (parent : Nat) (targets : List Nat)
    (name : String) : Store :=
  let mt := mtLoop (next_grp_index s) targets
    (getGrpChildren (cgStage3 s parent name) (next_grp_index s))
    (cgStage3 s parent name)
  setGrpChildren mt.2 (next_grp_index s) mt.1

/-- Moving a single fresh, strictly positive index under an existing group
reduces to one parent write plus one child-list append. -/
theorem moveFinal_singleton_fresh (s : Store) (g parent : Nat)
    (hinv : StoreInv s) (hpar : grpExists s parent = true)
    (hg : grpExists s g = false) (hgpos : 0 < g)
    (hsurv : moveSurvivors s [g] parent = [g]) :
    moveFinal s [g] parent =
      setGrpChildren (setGrpParent s g parent) parent
        (getGrpChildren s parent ++ [-(g : Int)]) := by
  have hp0 : getGrpParent s g = 0 := getGrpParent_not_exists s g hg
  have hmem0 : -(g : Int) ∉ getGrpChildren s 0 := by
    intro hm
    have h2 := (hinv.childGrp 0 (-(g : Int)) hinv.rootLives hm (by omega)).1
    rw [show (-(-(g : Int))).toNat = g by simp] at h2
    rw [hg] at h2
    cases h2
  have hmemp : -(g : Int) ∉ getGrpChildren s parent := by
    intro hm
    have h2 := (hinv.childGrp parent (-(g : Int)) hpar hm (by omega)).1
    rw [show (-(-(g : Int))).toNat = g by simp] at h2
    rw [hg] at h2
    cases h2
  have hdet : detachLoop [g] s = s := by
    simp only [detachLoop]
    rw [hp0, if_neg hmem0, setGrpChildren_id s 0 hinv.grpKeysNodup hinv.rootLives]
  simp only [moveFinal]
  rw [hsurv, hdet]
  simp only [attachLoop]
  rw [if_neg hmemp]

/-- The skip pass keeps a fresh index. -/
theorem moveSurvivors_singleton_fresh (s : Store) (g parent : Nat)
    (hinv : StoreInv s) (hpar : grpExists s parent = true)
    (hg : grpExists s g = false) :
    moveSurvivors s [g] parent = [g] := by
  have hne : g ≠ parent := by
    intro h
    rw [h, hpar] at hg
    cases hg
  have hnc : g ∉ grpParentChain s (chainFuel s) parent := by
    intro hm
    have hanc := grpParentChain_sound s (chainFuel s) parent g hm
    have := anc_pstep_exists s hinv parent g hpar hanc
    rw [hg] at this
    cases this
  rw [moveSurvivors_filter]
  simp [badMove, hne, hnc]

/-- `create_grp` on an existing parent, staged. -/
theorem create_grp_ok_eq (s : Store) (parent : Nat) (targets : List Nat)
    (name : String) (hpar : grpExists s parent = true) :
    create_grp s parent targets name =
      .ok (cgFinal s parent targets name, next_grp_index s) := by
  have hex2 : grpExists (setGrpParent (moveFinal s [next_grp_index s] parent)
      (next_grp_index s) parent) (next_grp_index s) = true := by
    rw [grpExists_setGrpParent, if_pos rfl]
  have h2 : rename_grp (setGrpParent (moveFinal s [next_grp_index s] parent)
      (next_grp_index s) parent) (next_grp_index s) name =
      .ok (cgStage3 s parent name, cgName s parent name) := by
    rw [rename_grp, if_pos hex2]
    rfl
  have hex3 : grpExists (cgStage3 s parent name) (next_grp_index s) = true := by
    unfold cgStage3
    rw [grpExists_setGrpName, if_pos rfl]
  have h3 : move_targets (cgStage3 s parent name) targets (next_grp_index s) =
      .ok (cgFinal s parent targets name) := by
    rw [move_targets, if_pos hex3]
    rfl
  simp only [create_grp]
  rw [move_grps_ok s [next_grp_index s] parent hpar]
  simp only [h2, h3]

/-- The error branch of `create_grp`: an unknown parent aborts before any
write. -/
theorem create_grp_err_eq (s : Store) (parent : Nat) (targets : List Nat)
    (name : String) (hpar : grpExists s parent = false) :
    create_grp s parent targets name = .error (invalidMsg parent) := by
  simp only [create_grp]
  rw [move_grps_err s [next_grp_index s] parent (by simp [hpar])]

/-- C5: `create_grp(parent, targets, name)` fails with the unknown-group
error (writing nothing) when the parent does not exist; otherwise it
returns a freshly allocated index whose record is attached under the
parent with its parent link set, carries no group children (only the given
leaves, each reparented under it with a matching child entry), and holds a
name from the sequence `name, name1, name2, ...` that no sibling group
carries. -/
theorem create_grp_spec (s : Store) (parent : Nat) (targets : List Nat)
    (name : String) (hinv : StoreInv s) :
    (grpExists s parent = false →
      create_grp s parent targets name = .error (invalidMsg parent)) ∧
    (grpExists s parent = true →
      grpExists s (next_grp_index s) = false ∧
      ∃ s4 r, create_grp s parent targets name = .ok (s4, next_grp_index s) ∧
        grpExists s4 (next_grp_index s) = true ∧
        getGrpParent s4 (next_grp_index s) = parent ∧
        -((next_grp_index s : Nat) : Int) ∈ getGrpChildren s4 parent ∧
        (∀ e ∈ getGrpChildren s4 (next_grp_index s), (0 : Int) ≤ e) ∧
        getGrpNameField s4 (next_grp_index s) = some r ∧
        (∃ k, r = candidateName name k) ∧
        (∀ e ∈ getGrpChildren s4 parent, e < 0 →
          (-e).toNat ≠ next_grp_index s →
          getGrpNameField s4 (-e).toNat ≠ some r) ∧
        (∀ t ∈ targets, getTgtParent s4 t = next_grp_index s ∧
          ((t : Int)) ∈ getGrpChildren s4 (next_grp_index s))) := by
  constructor
  · intro hpar
    exact create_grp_err_eq s parent targets name hpar
  · intro hpar
    have hfresh : grpExists s (next_grp_index s) = false := next_grp_index_fresh s
    have hnep : next_grp_index s ≠ parent := by
      intro h
      rw [h, hpar] at hfresh
      cases hfresh
    have hpne : parent ≠ next_grp_index s := Ne.symm hnep
    have hsurv := moveSurvivors_singleton_fresh s (next_grp_index s) parent
      hinv hpar hfresh
    have hMF := moveFinal_singleton_fresh s (next_grp_index s) parent
      hinv hpar hfresh (next_grp_index_pos s) hsurv
    have hS2par : getGrpParent (cgStage2 s parent) (next_grp_index s) = parent := by
      unfold cgStage2
      rw [getGrpParent_setGrpParent, if_pos rfl]
    have hS2chP : getGrpChildren (cgStage2 s parent) parent =
        getGrpChildren s parent ++ [-((next_grp_index s : Nat) : Int)] := by
      unfold cgStage2
      rw [hMF, getGrpChildren_setGrpParent, getGrpChildren_setGrpChildren,
        if_pos rfl]
    have hS2chN : getGrpChildren (cgStage2 s parent) (next_grp_index s) = [] := by
      unfold cgStage2
      rw [hMF, getGrpChildren_setGrpParent, getGrpChildren_setGrpChildren,
        if_neg hnep, getGrpChildren_setGrpParent,
        getGrpChildren_not_exists s (next_grp_index s) hfresh]
    obtain ⟨m, hfreem, hcollm, heqm⟩ :=
      build_unique_name_eq (cgStage2 s parent) parent name
    have hcg : cgName s parent name = candidateName name m := by
      unfold cgName
      rw [hS2par]
      exact heqm
    have hS3chN : getGrpChildren (cgStage3 s parent name) (next_grp_index s)
        = [] := by
      unfold cgStage3
      rw [getGrpChildren_setGrpName, hS2chN]
    have hS3chP : getGrpChildren (cgStage3 s parent name) parent =
        getGrpChildren s parent ++ [-((next_grp_index s : Nat) : Int)] := by
      unfold cgStage3
      rw [getGrpChildren_setGrpName, hS2chP]
    have hS3par : getGrpParent (cgStage3 s parent name) (next_grp_index s)
        = parent := by
      unfold cgStage3
      rw [getGrpParent_setGrpName, hS2par]
    have hS3nameN : getGrpNameField (cgStage3 s parent name) (next_grp_index s)
        = some (cgName s parent name) := by
      unfold cgStage3
      rw [getGrpNameField_setGrpName, if_pos rfl]
    have hS3nameO : ∀ j, j ≠ next_grp_index s →
        getGrpNameField (cgStage3 s parent name) j =
          getGrpNameField (cgStage2 s parent) j := by
      intro j hj
      unfold cgStage3
      rw [getGrpNameField_setGrpName, if_neg hj]
    have hF : cgFinal s parent targets name =
        setGrpChildren
          (mtLoop (next_grp_index s) targets [] (cgStage3 s parent name)).2
          (next_grp_index s)
          (mtLoop (next_grp_index s) targets [] (cgStage3 s parent name)).1 := by
      simp only [cgFinal]
      rw [hS3chN]
    refine ⟨hfresh, cgFinal s parent targets name, candidateName name m,
      create_grp_ok_eq s parent targets name hpar, ?_, ?_, ?_, ?_, ?_,
      ⟨m, rfl⟩, ?_, ?_⟩
    · rw [hF, grpExists_setGrpChildren, if_pos rfl]
    · rw [hF, getGrpParent_setGrpChildren, mtLoop_grpParent, hS3par]
    · rw [hF, getGrpChildren_setGrpChildren, if_neg hpne]
      apply mtLoop_children_neg (next_grp_index s) targets [] _ parent _
        (by have := next_grp_index_pos s; omega)
      rw [hS3chP]
      exact List.mem_append_right _ (by simp)
    · intro e he
      rw [hF, getGrpChildren_setGrpChildren, if_pos rfl] at he
      exact mtLoop_acc_nonneg (next_grp_index s) targets []
        (cgStage3 s parent name) (by intro x hx; cases hx) e he
    · rw [hF, getGrpNameField_setGrpChildren, mtLoop_nameField, hS3nameN, hcg]
    · intro e he hneg hne2 hcontra
      rw [hF, getGrpChildren_setGrpChildren, if_neg hpne] at he
      have he2 : e ∈ getGrpChildren (cgStage2 s parent) parent := by
        rw [hS2chP, ← hS3chP]
        exact mtLoop_children_sub (next_grp_index s) targets [] _ parent e he
      rw [hF, getGrpNameField_setGrpChildren, mtLoop_nameField,
        hS3nameO _ hne2] at hcontra
      apply hfreem
      unfold namePool
      exact List.mem_map.mpr ⟨e,
        List.mem_filter.mpr ⟨he2, by exact decide_eq_true hneg⟩, hcontra⟩
    · intro t ht
      constructor
      · rw [hF, getTgtParent_setGrpChildren, mtLoop_tgtParent, if_pos ht]
      · rw [hF, getGrpChildren_setGrpChildren, if_pos rfl]
        exact mtLoop_acc_of_mem (next_grp_index s) targets [] _ t ht

/-- Store for the C5 witness: the root with one leaf target 0 under it. -/
def storeC5 : Store := ⟨[(0, ⟨0, [0], some "Group"⟩)], [(0, 0)]⟩

theorem create_grp_spec_witness :
    invCheck storeC5 = true ∧ grpExists storeC5 0 = true ∧
    (grpExists storeC5 (next_grp_index storeC5) = false ∧
      ∃ s4 r, create_grp storeC5 0 [0] "A" =
          .ok (s4, next_grp_index storeC5) ∧
        grpExists s4 (next_grp_index storeC5) = true ∧
        getGrpParent s4 (next_grp_index storeC5) = 0 ∧
        -((next_grp_index storeC5 : Nat) : Int) ∈ getGrpChildren s4 0 ∧
        (∀ e ∈ getGrpChildren s4 (next_grp_index storeC5), (0 : Int) ≤ e) ∧
        getGrpNameField s4 (next_grp_index storeC5) = some r ∧
        (∃ k, r = candidateName "A" k) ∧
        (∀ e ∈ getGrpChildren s4 0, e < 0 →
          (-e).toNat ≠ next_grp_index storeC5 →
          getGrpNameField s4 (-e).toNat ≠ some r) ∧
        (∀ t ∈ ([0] : List Nat), getTgtParent s4 t = next_grp_index storeC5 ∧
          ((t : Int)) ∈ getGrpChildren s4 (next_grp_index storeC5))) :=
  ⟨by decide, by decide,
   (create_grp_spec storeC5 0 [0] "A"
     (invCheck_sound storeC5 (by decide))).2 (by decide)⟩

/-! ### Claim C2: the cascading delete

Generic machinery about walks in a functional step graph. -/

def stepN (st : Nat → Option Nat) : Nat → Nat → Option Nat
  | 0, j => some j
  | n + 1, j =>
    match st j with
    | some p => stepN st n p
    | none => none

theorem stepN_succ_some {st : Nat → Option Nat} {j p : Nat}
    (h : st j = some p) (n : Nat) : stepN st (n + 1) j = stepN st n p := by
  simp [stepN, h]

theorem stepN_succ_none {st : Nat → Option Nat} {j : Nat}
    (h : st j = none) (n : Nat) : stepN st (n + 1) j = none := by
  simp [stepN, h]

theorem stepN_snoc (st : Nat → Option Nat) :
    ∀ (n j c g : Nat), stepN st n j = some c → st c = some g →
      stepN st (n + 1) j = some g := by
  intro n
  induction n with
  | zero =>
    intro j c g h1 h2
    injection h1 with h1
    subst h1
    rw [stepN_succ_some h2 0]
    rfl
  | succ n ih =>
    intro j c g h1 h2
    rcases hj : st j with _ | p
    · rw [stepN_succ_none hj] at h1
      cases h1
    · rw [stepN_succ_some hj] at h1
      rw [stepN_succ_some hj]
      exact ih p c g h1 h2

theorem stepN_anc (st : Nat → Option Nat) :
    ∀ (n j g : Nat), stepN st (n + 1) j = some g → AncRel st j g := by
  intro n
  induction n with
  | zero =>
    intro j g h
    rcases hj : st j with _ | p
    · rw [stepN_succ_none hj] at h
      cases h
    · rw [stepN_succ_some hj] at h
      injection h with h
      subst h
      exact Relation.TransGen.single hj
  | succ n ih =>
    intro j g h
    rcases hj : st j with _ | p
    · rw [stepN_succ_none hj] at h
      cases h
    · rw [stepN_succ_some hj] at h
      exact Relation.TransGen.head hj (ih p g h)

theorem anc_stepN (st : Nat → Option Nat) (j g : Nat) (h : AncRel st j g) :
    ∃ n, stepN st (n + 1) j = some g := by
  induction h with
  | single h1 => exact ⟨0, by rw [stepN_succ_some h1]; rfl⟩
  | tail hb hstep ih =>
    rcases ih with ⟨n, hn⟩
    exact ⟨n + 1, stepN_snoc st (n + 1) _ _ _ hn hstep⟩

theorem stepN_mono (st st' : Nat → Option Nat)
    (hmono : ∀ x y, st' x = some y → st x = some y) :
    ∀ (n j g : Nat), stepN st' n j = some g → stepN st n j = some g := by
  intro n
  induction n with
  | zero => intro j g h; exact h
  | succ n ih =>
    intro j g h
    rcases hj : st' j with _ | p
    · rw [stepN_succ_none hj] at h
      cases h
    · rw [stepN_succ_some hj] at h
      rw [stepN_succ_some (hmono j p hj)]
      exact ih p g h

/-- The nodes a walk of `n` steps passes through (the endpoint excluded). -/
def pathList (st : Nat → Option Nat) : Nat → Nat → List Nat
  | 0, _ => []
  | n + 1, j =>
    j :: (match st j with
      | some p => pathList st n p
      | none => [])

theorem pathList_length (st : Nat → Option Nat) :
    ∀ (n j g : Nat), stepN st n j = some g → (pathList st n j).length = n := by
  intro n
  induction n with
  | zero => intro j g _; rfl
  | succ n ih =>
    intro j g h
    rcases hj : st j with _ | p
    · rw [stepN_succ_none hj] at h
      cases h
    · rw [stepN_succ_some hj] at h
      simp [pathList, hj, ih p g h]

theorem pathList_keys (st : Nat → Option Nat) (keys : List Nat)
    (hkeys : ∀ x p, st x = some p → x ∈ keys) :
    ∀ (n j g : Nat), stepN st n j = some g →
      ∀ x ∈ pathList st n j, x ∈ keys := by
  intro n
  induction n with
  | zero => intro j g _ x hx; cases hx
  | succ n ih =>
    intro j g h x hx
    rcases hj : st j with _ | p
    · rw [stepN_succ_none hj] at h
      cases h
    · rw [stepN_succ_some hj] at h
      simp only [pathList, hj] at hx
      rcases List.mem_cons.mp hx with hx | hx
      · subst hx
        exact hkeys x p hj
      · exact ih p g h x hx

theorem pathList_mem (st : Nat → Option Nat) :
    ∀ (n j g : Nat), stepN st n j = some g →
      ∀ x ∈ pathList st n j, x = j ∨ AncRel st j x := by
  intro n
  induction n with
  | zero => intro j g _ x hx; cases hx
  | succ n ih =>
    intro j g h x hx
    rcases hj : st j with _ | p
    · rw [stepN_succ_none hj] at h
      cases h
    · rw [stepN_succ_some hj] at h
      simp only [pathList, hj] at hx
      rcases List.mem_cons.mp hx with hx | hx
      · exact Or.inl hx
      · rcases ih p g h x hx with hx2 | hx2
        · exact Or.inr (by rw [← hx2] at hj; exact Relation.TransGen.single hj)
        · exact Or.inr (Relation.TransGen.head hj hx2)

theorem pathList_nodup (st : Nat → Option Nat)
    (hirr : ∀ x, ¬ AncRel st x x) :
    ∀ (n j g : Nat), stepN st n j = some g → (pathList st n j).Nodup := by
  intro n
  induction n with
  | zero => intro j g _; simp [pathList]
  | succ n ih =>
    intro j g h
    rcases hj : st j with _ | p
    · rw [stepN_succ_none hj] at h
      cases h
    · rw [stepN_succ_some hj] at h
      simp only [pathList, hj]
      refine List.nodup_cons.mpr ⟨?_, ih p g h⟩
      intro hmem
      rcases pathList_mem st n p g h j hmem with h2 | h2
      · rw [← h2] at hj
        exact hirr j (Relation.TransGen.single hj)
      · exact hirr j (Relation.TransGen.head hj h2)

/-- On an irreflexive functional graph whose step sources lie in `keys`, no
walk is longer than `keys`. -/
theorem stepN_le_keys (st : Nat → Option Nat) (keys : List Nat)
    (hirr : ∀ x, ¬ AncRel st x x)
    (hkeys : ∀ x p, st x = some p → x ∈ keys)
    (n j g : Nat) (h : stepN st n j = some g) : n ≤ keys.length := by
  have h1 := pathList_length st n j g h
  have h2 := pathList_keys st keys hkeys n j g h
  have h3 := pathList_nodup st hirr n j g h
  have := List.Subperm.length_le (List.subperm_of_subset h3 h2)
  omega

theorem anc_last_step (st : Nat → Option Nat) (j g : Nat)
    (h : AncRel st j g) : ∃ c, st c = some g ∧ (j = c ∨ AncRel st j c) := by
  rcases (Relation.TransGen.tail'_iff).mp h with ⟨c, hrc, hcg⟩
  refine ⟨c, hcg, ?_⟩
  rcases Relation.reflTransGen_iff_eq_or_transGen.mp hrc with h1 | h1
  · exact Or.inl h1.symm
  · exact Or.inr h1

theorem reflTrans_functional (st : Nat → Option Nat) :
    ∀ (c a b : Nat), Relation.ReflTransGen (fun x y => st x = some y) c a →
      Relation.ReflTransGen (fun x y => st x = some y) c b →
      a = b ∨ AncRel st a b ∨ AncRel st b a := by
  intro c a b h1
  induction h1 using Relation.ReflTransGen.head_induction_on with
  | refl =>
    intro h2
    rcases Relation.reflTransGen_iff_eq_or_transGen.mp h2 with h | h
    · exact Or.inl h.symm
    · exact Or.inr (Or.inl h)
  | head hstep htail ih =>
    intro h2
    rcases Relation.reflTransGen_iff_eq_or_transGen.mp h2 with h | h
    · subst h
      exact Or.inr (Or.inr (Relation.TransGen.head'_iff.mpr ⟨_, hstep, htail⟩))
    · rcases Relation.TransGen.head'_iff.mp h with ⟨d2, hd2, hd2b⟩
      rw [hstep] at hd2
      injection hd2 with hd2
      subst hd2
      exact ih hd2b

theorem anc_functional (st : Nat → Option Nat) (j a b : Nat)
    (h1 : AncRel st j a) (h2 : AncRel st j b) :
    a = b ∨ AncRel st a b ∨ AncRel st b a := by
  rcases Relation.TransGen.head'_iff.mp h1 with ⟨d1, hd1, hda⟩
  rcases Relation.TransGen.head'_iff.mp h2 with ⟨d2, hd2, hdb⟩
  rw [hd1] at hd2
  injection hd2 with hd2
  subst hd2
  exact reflTrans_functional st d1 a b hda hdb

theorem not_mem_eraseIdx_indexOf {α : Type} [DecidableEq α] (l : List α)
    (hnd : l.Nodup) (x : α) : x ∉ l.eraseIdx (l.indexOf x) := by
  induction l with
  | nil => simp
  | cons a t ih =>
    rw [List.indexOf_cons]
    by_cases hax : a = x
    · have hb : (a == x) = true := beq_iff_eq.mpr hax
      rw [hb]
      show x ∉ List.eraseIdx (a :: t) 0
      rw [← hax]
      exact (List.nodup_cons.mp hnd).1
    · have hb : (a == x) = false := beq_eq_false_iff_ne.mpr hax
      rw [hb]
      show x ∉ List.eraseIdx (a :: t) (t.indexOf x + 1)
      rw [List.eraseIdx_cons_succ]
      intro hmem
      rcases List.mem_cons.mp hmem with h | h
      · exact hax h.symm
      · exact ih (List.nodup_cons.mp hnd).2 h

/-- Membership in the subtree rooted at `g`: `g` itself, or any group whose
parent walk reaches `g`. -/
def InSub (s : Store) (g j : Nat) : Prop := j = g ∨ AncRel (pstep s) j g

theorem pstep_some_exists (s : Store) (j p : Nat) (h : pstep s j = some p) :
    grpExists s j = true := by
  rw [pstep_eq_some_iff] at h
  by_cases hex : grpExists s j = true
  · exact hex
  · rw [getGrpParent_not_exists s j (by simpa using hex)] at h
    omega

theorem getTgtParent_not_exists (s : Store) (t : Nat)
    (h : tgtExists s t = false) : getTgtParent s t = 0 := by
  unfold tgtExists at h
  unfold getTgtParent
  rcases hl : List.lookup t s.tgts with _ | p
  · rfl
  · rw [hl] at h
    cases h

theorem pstep_root_none (s : Store) (hroot : getGrpParent s 0 = 0) :
    pstep s 0 = none := by
  rw [pstep_eq_none_iff]
  exact hroot

theorem anc_from_root (s : Store) (hroot : getGrpParent s 0 = 0) (a : Nat)
    (h : AncRel (pstep s) 0 a) : False := by
  rcases Relation.TransGen.head'_iff.mp h with ⟨d, hd, _⟩
  rw [pstep_root_none s hroot] at hd
  cases hd

theorem inSub_zero (s : Store) (hroot : getGrpParent s 0 = 0) (g : Nat)
    (hg : g ≠ 0) : ¬ InSub s g 0 := by
  rintro (h | h)
  · exact hg h.symm
  · exact anc_from_root s hroot g h

theorem inSub_nonzero (s : Store) (hroot : getGrpParent s 0 = 0) (g j : Nat)
    (hg : g ≠ 0) (hj : InSub s g j) : j ≠ 0 := by
  intro h
  subst h
  exact inSub_zero s hroot g hg hj

theorem sub_step_up (s : Store) (hpa : ∀ x, ¬ AncRel (pstep s) x x)
    (c g : Nat) (hstep : pstep s c = some g) (j : Nat) (hj : InSub s c j) :
    InSub s g j := by
  rcases hj with hj | hj
  · subst hj
    exact Or.inr (Relation.TransGen.single hstep)
  · exact Or.inr (Relation.TransGen.tail hj hstep)

theorem sibling_not_inSub (s : Store) (hpa : ∀ x, ¬ AncRel (pstep s) x x)
    (h c c' : Nat) (hc : getGrpParent s c = h) (hc' : getGrpParent s c' = h)
    (hne : c' ≠ c) : ¬ InSub s c c' := by
  rintro (heq | hanc)
  · exact hne heq
  · rcases Relation.TransGen.head'_iff.mp hanc with ⟨d, hd, hdc⟩
    have hdh : d = h ∧ 0 < h := by
      rw [pstep_eq_some_iff, hc'] at hd
      exact ⟨hd.1.symm, by omega⟩
    rcases hdh with ⟨hdh, hpos⟩
    subst hdh
    have hstep : pstep s c = some d :=
      (pstep_eq_some_iff s c d).mpr ⟨hc, hpos⟩
    rcases Relation.reflTransGen_iff_eq_or_transGen.mp hdc with h1 | h1
    · rw [← h1] at hstep
      exact hpa c (Relation.TransGen.single hstep)
    · exact hpa d (Relation.TransGen.tail h1 hstep)

theorem owner_not_inSub (s : Store) (hpa : ∀ x, ¬ AncRel (pstep s) x x)
    (hroot : getGrpParent s 0 = 0) (c h : Nat) (hc : getGrpParent s c = h)
    (hc0 : c ≠ 0) : ¬ InSub s c h := by
  rintro (heq | hanc)
  · exact hpa c (Relation.TransGen.single
      ((pstep_eq_some_iff s c c).mpr ⟨by rw [hc]; exact heq, by omega⟩))
  · by_cases hh : h = 0
    · subst hh
      exact anc_from_root s hroot c hanc
    · have hstep : pstep s c = some h :=
        (pstep_eq_some_iff s c h).mpr ⟨hc, by omega⟩
      exact hpa h (Relation.TransGen.tail hanc hstep)

theorem parent_not_inSub (s : Store) (hpa : ∀ x, ¬ AncRel (pstep s) x x)
    (hroot : getGrpParent s 0 = 0) (g : Nat) (hg0 : g ≠ 0) :
    ¬ InSub s g (getGrpParent s g) :=
  owner_not_inSub s hpa hroot g (getGrpParent s g) rfl hg0

theorem inSub_decompose (s : Store) (g j : Nat) (hj : InSub s g j)
    (hne : j ≠ g) : ∃ c, pstep s c = some g ∧ InSub s c j := by
  rcases hj with hj | hj
  · exact absurd hj hne
  · rcases anc_last_step (pstep s) j g hj with ⟨c, hc, hjc⟩
    exact ⟨c, hc, hjc⟩

theorem stepN_congr (st st' : Nat → Option Nat) (h : ∀ x, st' x = st x) :
    ∀ n j, stepN st' n j = stepN st n j := by
  intro n
  induction n with
  | zero => intro j; rfl
  | succ n ih =>
    intro j
    rcases hj : st j with _ | p
    · rw [stepN_succ_none (by rw [h j, hj]), stepN_succ_none hj]
    · rw [stepN_succ_some (by rw [h j, hj] : st' j = some p),
        stepN_succ_some hj, ih]

theorem anc_congr (st st' : Nat → Option Nat) (h : ∀ x, st' x = st x)
    (a b : Nat) : AncRel st' a b ↔ AncRel st a b := by
  constructor
  · exact Relation.TransGen.mono (fun x y hxy => by rw [← h x]; exact hxy)
  · exact Relation.TransGen.mono (fun x y hxy => by rw [h x]; exact hxy)

theorem inSub_congr (s' s : Store) (h : ∀ x, pstep s' x = pstep s x)
    (g j : Nat) : InSub s' g j ↔ InSub s g j := by
  unfold InSub
  rw [anc_congr (pstep s) (pstep s') h]

/-- `StoreInv` with the back-pointer clause suspended on the nodes of `X`
(the ancestors currently being deleted have been detached from their
parents) and the child-leaf clause suspended on owners in `X` (a deleted
leaf leaves a dangling entry in the child list of the group being deleted
until that record itself is removed). -/
structure DelInv (s : Store) (X : List Nat) : Prop where
  grpKeysNodup : (s.grps.map Prod.fst).Nodup
  tgtKeysNodup : (s.tgts.map Prod.fst).Nodup
  rootParent : getGrpParent s 0 = 0
  parentLives : ∀ g, grpExists s g = true → g ≠ 0 →
    grpExists s (getGrpParent s g) = true
  childGrp : ∀ g e, grpExists s g = true → e ∈ getGrpChildren s g → e < 0 →
    grpExists s (-e).toNat = true ∧ getGrpParent s (-e).toNat = g
  childTgtX : ∀ g e, grpExists s g = true → g ∉ X →
    e ∈ getGrpChildren s g → 0 ≤ e →
    tgtExists s e.toNat = true ∧ getTgtParent s e.toNat = g
  childNodup : ∀ g, grpExists s g = true → (getGrpChildren s g).Nodup
  grpInParentX : ∀ g, grpExists s g = true → g ≠ 0 → g ∉ X →
    -(g : Int) ∈ getGrpChildren s (getGrpParent s g)
  tgtParentIn : ∀ t, tgtExists s t = true →
    grpExists s (getTgtParent s t) = true ∧
    (t : Int) ∈ getGrpChildren s (getTgtParent s t)
  pacyclic : ∀ x, ¬ AncRel (pstep s) x x

theorem DelInv.of_storeInv (s : Store) (hinv : StoreInv s) : DelInv s [] :=
  ⟨hinv.grpKeysNodup, hinv.tgtKeysNodup, hinv.rootParent, hinv.parentLives,
   hinv.childGrp, fun g e hg _ he hnn => hinv.childTgt g e hg he hnn,
   hinv.childNodup, fun g hg hg0 _ => hinv.grpInParent g hg hg0,
   hinv.tgtParentIn, pstep_irrefl_of_acyclic s hinv.acyclic⟩

theorem pstep_keep (s' s : Store)
    (hkeep : ∀ j, grpExists s' j = true →
      grpExists s j = true ∧ getGrpParent s' j = getGrpParent s j) :
    ∀ x y, pstep s' x = some y → pstep s x = some y := by
  intro x y h
  have hex := pstep_some_exists s' x y h
  rw [pstep_eq_some_iff] at h ⊢
  rw [← (hkeep x hex).2]
  exact h

theorem delDetach_grpParent (s : Store) (g j : Nat) :
    getGrpParent (delDetach s g) j = getGrpParent s j := by
  simp only [delDetach]
  by_cases hm : -(g : Int) ∈ getGrpChildren s (getGrpParent s g) <;>
    simp [hm, getGrpParent_setGrpChildren]

theorem delDetach_pstep (s : Store) (g : Nat) :
    ∀ x, pstep (delDetach s g) x = pstep s x := by
  intro x
  simp [pstep, delDetach_grpParent]

theorem delDetach_tgts_eq (s : Store) (g : Nat) :
    (delDetach s g).tgts = s.tgts := by
  simp only [delDetach]
  by_cases hm : -(g : Int) ∈ getGrpChildren s (getGrpParent s g) <;>
    simp [hm, setGrpChildren, updGrp]
  split <;> rfl

theorem delDetach_tgtExists (s : Store) (g j : Nat) :
    tgtExists (delDetach s g) j = tgtExists s j := by
  unfold tgtExists
  rw [delDetach_tgts_eq]

theorem delDetach_tgtParent (s : Store) (g j : Nat) :
    getTgtParent (delDetach s g) j = getTgtParent s j := by
  unfold getTgtParent
  rw [delDetach_tgts_eq]

theorem delDetach_exists (s : Store) (g : Nat)
    (hpex : grpExists s (getGrpParent s g) = true) :
    ∀ j, grpExists (delDetach s g) j = grpExists s j := by
  intro j
  simp only [delDetach]
  by_cases hm : -(g : Int) ∈ getGrpChildren s (getGrpParent s g)
  · rw [if_pos hm, grpExists_setGrpChildren]
    by_cases hj : j = getGrpParent s g
    · rw [if_pos hj, hj, hpex]
    · rw [if_neg hj]
  · rw [if_neg hm]

theorem delDetach_eq (s : Store) (g : Nat)
    (hmem : -(g : Int) ∈ getGrpChildren s (getGrpParent s g)) :
    delDetach s g = setGrpChildren s (getGrpParent s g)
      ((getGrpChildren s (getGrpParent s g)).eraseIdx
        ((getGrpChildren s (getGrpParent s g)).indexOf (-(g : Int)))) := by
  simp only [delDetach]
  rw [if_pos hmem]

theorem delDetach_children_subl (s : Store) (g : Nat) :
    ∀ j, List.Sublist (getGrpChildren (delDetach s g) j)
      (getGrpChildren s j) := by
  intro j
  simp only [delDetach]
  by_cases hm : -(g : Int) ∈ getGrpChildren s (getGrpParent s g)
  · rw [if_pos hm, getGrpChildren_setGrpChildren]
    by_cases hj : j = getGrpParent s g
    · rw [if_pos hj, hj]
      exact List.eraseIdx_sublist _ _
    · rw [if_neg hj]
  · rw [if_neg hm]

theorem delDetach_children_ne (s : Store) (g j : Nat)
    (hj : j ≠ getGrpParent s g) :
    getGrpChildren (delDetach s g) j = getGrpChildren s j := by
  simp only [delDetach]
  by_cases hm : -(g : Int) ∈ getGrpChildren s (getGrpParent s g)
  · rw [if_pos hm, getGrpChildren_setGrpChildren, if_neg hj]
  · rw [if_neg hm]

theorem delDetach_children_p (s : Store) (g : Nat)
    (hmem : -(g : Int) ∈ getGrpChildren s (getGrpParent s g)) :
    getGrpChildren (delDetach s g) (getGrpParent s g) =
      (getGrpChildren s (getGrpParent s g)).eraseIdx
        ((getGrpChildren s (getGrpParent s g)).indexOf (-(g : Int))) := by
  rw [delDetach_eq s g hmem, getGrpChildren_setGrpChildren, if_pos rfl]

theorem delDetach_children_keep (s : Store) (g j : Nat) (e : Int)
    (hne : e ≠ -(g : Int)) (hnd : (getGrpChildren s (getGrpParent s g)).Nodup)
    (he : e ∈ getGrpChildren s j) :
    e ∈ getGrpChildren (delDetach s g) j := by
  by_cases hj : j = getGrpParent s g
  · subst hj
    simp only [delDetach]
    by_cases hm : -(g : Int) ∈ getGrpChildren s (getGrpParent s g)
    · rw [if_pos hm, getGrpChildren_setGrpChildren, if_pos rfl]
      exact mem_eraseIdx_indexOf _ _ _ hne he
    · rw [if_neg hm]
      exact he
  · rw [delDetach_children_ne s g j hj]
    exact he

theorem delDetach_delInv (s : Store) (X : List Nat) (g : Nat)
    (hinv : DelInv s X) (hex : grpExists s g = true) (hg0 : g ≠ 0) :
    DelInv (delDetach s g) (g :: X) := by
  have hpex : grpExists s (getGrpParent s g) = true :=
    hinv.parentLives g hex hg0
  have hE := delDetach_exists s g hpex
  have hP := delDetach_grpParent s g
  have hsubl := delDetach_children_subl s g
  refine ⟨?_, ?_, ?_, ?_, ?_, ?_, ?_, ?_, ?_, ?_⟩
  · simp only [delDetach]
    by_cases hm : -(g : Int) ∈ getGrpChildren s (getGrpParent s g)
    · rw [if_pos hm]
      exact grpKeysNodup_setGrpChildren s _ _ hinv.grpKeysNodup
    · rw [if_neg hm]
      exact hinv.grpKeysNodup
  · rw [delDetach_tgts_eq]
    exact hinv.tgtKeysNodup
  · rw [hP]
    exact hinv.rootParent
  · intro j hj hj0
    rw [hE] at hj
    rw [hP, hE]
    exact hinv.parentLives j hj hj0
  · intro j e hj he hneg
    rw [hE] at hj
    have he2 := (hsubl j).mem he
    have h2 := hinv.childGrp j e hj he2 hneg
    rw [hE, hP]
    exact h2
  · intro j e hj hjX he hnn
    rw [hE] at hj
    have he2 := (hsubl j).mem he
    have h2 := hinv.childTgtX j e hj (fun hc => hjX (List.mem_cons.mpr (Or.inr hc))) he2 hnn
    rw [delDetach_tgtExists, delDetach_tgtParent]
    exact h2
  · intro j hj
    rw [hE] at hj
    exact (hinv.childNodup j hj).sublist (hsubl j)
  · intro j hj hj0 hjX
    rw [hE] at hj
    have hjg : j ≠ g := fun hc => hjX (by rw [hc]; exact List.mem_cons_self g X)
    have hjX2 : j ∉ X := fun hc => hjX (List.mem_cons.mpr (Or.inr hc))
    have hmem := hinv.grpInParentX j hj hj0 hjX2
    rw [hP]
    exact delDetach_children_keep s g (getGrpParent s j) (-(j : Int))
      (by intro hc; apply hjg; omega)
      (hinv.childNodup _ hpex) hmem
  · intro t ht
    rw [delDetach_tgtExists] at ht
    have h2 := hinv.tgtParentIn t ht
    rw [delDetach_tgtParent, hE]
    refine ⟨h2.1, ?_⟩
    exact delDetach_children_keep s g (getTgtParent s t) ((t : Int))
      (by omega) (hinv.childNodup _ hpex) h2.2
  · intro x
    rw [anc_congr (pstep s) (pstep (delDetach s g)) (delDetach_pstep s g)]
    exact hinv.pacyclic x

/-- What one `delete_grp(g)` call does to the store. -/
def GConc (s : Store) (g : Nat) (t : Store) : Prop :=
  (∀ j, InSub s g j → grpExists t j = false) ∧
  (∀ j, ¬ InSub s g j → grpExists t j = grpExists s j ∧
    getGrpParent t j = getGrpParent s j) ∧
  (∀ j, ¬ InSub s g j → j ≠ getGrpParent s g →
    getGrpChildren t j = getGrpChildren s j) ∧
  getGrpChildren t (getGrpParent s g) =
    (getGrpChildren s (getGrpParent s g)).eraseIdx
      ((getGrpChildren s (getGrpParent s g)).indexOf (-(g : Int))) ∧
  (∀ j e, e ∈ getGrpChildren t j → e ∈ getGrpChildren s j) ∧
  (∀ u, InSub s g (getTgtParent s u) → tgtExists t u = false) ∧
  (∀ u, ¬ InSub s g (getTgtParent s u) →
    tgtExists t u = tgtExists s u ∧ getTgtParent t u = getTgtParent s u) ∧
  (∀ u, tgtExists t u = true → tgtExists s u = true)

/-- The groups a child-list segment dooms. -/
def KDel (s : Store) (l : List Int) (j : Nat) : Prop :=
  ∃ e ∈ l, e < 0 ∧ InSub s (-e).toNat j

/-- The leaves a child-list segment dooms. -/
def KTgtDel (s : Store) (l : List Int) (u : Nat) : Prop :=
  (∃ e ∈ l, 0 ≤ e ∧ e.toNat = u) ∨ KDel s l (getTgtParent s u)

/-- What the `for index in children_indices` loop does to the store. -/
def KConc (s : Store) (h : Nat) (l : List Int) (t : Store) : Prop :=
  (∀ j, KDel s l j → grpExists t j = false) ∧
  (∀ j, ¬ KDel s l j → grpExists t j = grpExists s j ∧
    getGrpParent t j = getGrpParent s j) ∧
  (∀ j, ¬ KDel s l j → j ≠ h → getGrpChildren t j = getGrpChildren s j) ∧
  (∀ j e, e ∈ getGrpChildren t j → e ∈ getGrpChildren s j) ∧
  (∀ u, KTgtDel s l u → tgtExists t u = false) ∧
  (∀ u, ¬ KTgtDel s l u → tgtExists t u = tgtExists s u ∧
    getTgtParent t u = getTgtParent s u) ∧
  (∀ u, tgtExists t u = true → tgtExists s u = true)

theorem anc_restore (s1 s : Store) (tgt : Nat)
    (hpres : ∀ v w, pstep s v = some w → AncRel (pstep s) v tgt →
      pstep s1 v = some w) :
    ∀ v, AncRel (pstep s) v tgt → AncRel (pstep s1) v tgt := by
  intro v hv
  induction hv using Relation.TransGen.head_induction_on with
  | base h =>
    exact Relation.TransGen.single (hpres _ _ h (Relation.TransGen.single h))
  | ih h1 hrest ihp =>
    exact Relation.TransGen.head
      (hpres _ _ h1 (Relation.TransGen.head h1 hrest)) ihp

theorem kConc_nil (s : Store) (h : Nat) : KConc s h [] s := by
  refine ⟨?_, ?_, ?_, ?_, ?_, ?_, ?_⟩
  · rintro j ⟨e, he, _⟩
    cases he
  · intro j _
    exact ⟨rfl, rfl⟩
  · intro j _ _
    rfl
  · intro j e he
    exact he
  · rintro u (⟨e, he, _⟩ | ⟨e, he, _⟩) <;> cases he
  · intro u _
    exact ⟨rfl, rfl⟩
  · intro u hu
    exact hu

theorem kConc_cons_nonneg (s s2 : Store) (h : Nat) (e : Int)
    (rest : List Int) (he : ¬ e < 0)
    (hK : KConc (delete_target s e.toNat) h rest s2) :
    KConc s h (e :: rest) s2 := by
  obtain ⟨Kdel, Kkeep, Kch, Ksub, Ktdel, Ktkeep, Ktmono⟩ := hK
  have hInSub : ∀ d j, InSub (delete_target s e.toNat) d j ↔ InSub s d j :=
    inSub_congr (delete_target s e.toNat) s (fun x => rfl)
  have hKDel : ∀ j, KDel (delete_target s e.toNat) rest j ↔ KDel s rest j := by
    intro j
    constructor <;> rintro ⟨e2, he2, hn2, hs⟩ <;>
      exact ⟨e2, he2, hn2, by rw [hInSub] at *; assumption⟩
  have hhead : ∀ j, KDel s (e :: rest) j ↔ KDel s rest j := by
    intro j
    constructor
    · rintro ⟨e2, he2, hn2, hs⟩
      rcases List.mem_cons.mp he2 with h2 | h2
      · subst h2
        exact absurd hn2 he
      · exact ⟨e2, h2, hn2, hs⟩
    · rintro ⟨e2, he2, hn2, hs⟩
      exact ⟨e2, List.mem_cons.mpr (Or.inr he2), hn2, hs⟩
  refine ⟨?_, ?_, ?_, ?_, ?_, ?_, ?_⟩
  · intro j hj
    exact Kdel j ((hKDel j).mpr ((hhead j).mp hj))
  · intro j hj
    exact Kkeep j (fun hcc => hj ((hhead j).mpr ((hKDel j).mp hcc)))
  · intro j hj hjh
    exact Kch j (fun hcc => hj ((hhead j).mpr ((hKDel j).mp hcc))) hjh
  · intro j e2 he2
    exact Ksub j e2 he2
  · intro u hu
    by_cases hut : u = e.toNat
    · have h1 : tgtExists (delete_target s e.toNat) u = false := by
        rw [tgtExists_delete_target, if_pos hut]
      cases hb : tgtExists s2 u
      · rfl
      · rw [Ktmono u hb] at h1
        cases h1
    · rcases hu with ⟨e2, he2, hn2, ht2⟩ | hu
      · rcases List.mem_cons.mp he2 with h2 | h2
        · subst h2
          exact absurd ht2.symm hut
        · exact Ktdel u (Or.inl ⟨e2, h2, hn2, ht2⟩)
      · refine Ktdel u (Or.inr ?_)
        rw [getTgtParent_delete_target, if_neg hut]
        exact (hKDel _).mpr ((hhead _).mp hu)
  · intro u hu
    have hut : u ≠ e.toNat := by
      intro hcc
      exact hu (Or.inl ⟨e, List.mem_cons_self e rest, by omega, hcc.symm⟩)
    have hu2 : ¬ KTgtDel (delete_target s e.toNat) rest u := by
      rintro (⟨e2, he2, hn2, ht2⟩ | hk2)
      · exact hu (Or.inl ⟨e2, List.mem_cons.mpr (Or.inr he2), hn2, ht2⟩)
      · rw [getTgtParent_delete_target, if_neg hut] at hk2
        exact hu (Or.inr ((hhead _).mpr ((hKDel _).mp hk2)))
    have hb := Ktkeep u hu2
    refine ⟨?_, ?_⟩
    · rw [hb.1, tgtExists_delete_target, if_neg hut]
    · rw [hb.2, getTgtParent_delete_target, if_neg hut]
  · intro u hu
    have h1 := Ktmono u hu
    rw [tgtExists_delete_target] at h1
    by_cases hut : u = e.toNat
    · rw [if_pos hut] at h1
      cases h1
    · rw [if_neg hut] at h1
      exact h1

theorem kConc_cons_neg (s s1 s2 : Store) (hh : Nat) (e : Int)
    (rest : List Int) (he : e < 0)
    (hpa : ∀ x, ¬ AncRel (pstep s) x x)
    (hc : grpExists s (-e).toNat = true ∧ getGrpParent s (-e).toNat = hh)
    (hrest3 : ∀ e2 ∈ rest, e2 < 0 → grpExists s (-e2).toNat = true ∧
      getGrpParent s (-e2).toNat = hh)
    (hnotin : e ∉ rest)
    (hG : GConc s (-e).toNat s1)
    (hK : KConc s1 hh rest s2) :
    KConc s hh (e :: rest) s2 := by
  obtain ⟨Gdel, Gkeep, Gch, GchP, Gsub, Gtdel, Gtkeep, Gtmono⟩ := hG
  obtain ⟨Kdel, Kkeep, Kch, Ksub, Ktdel, Ktkeep, Ktmono⟩ := hK
  have hkeepstore : ∀ j, grpExists s1 j = true → grpExists s j = true ∧
      getGrpParent s1 j = getGrpParent s j := by
    intro j hj
    by_cases hs : InSub s (-e).toNat j
    · rw [Gdel j hs] at hj
      cases hj
    · exact ⟨(Gkeep j hs).1 ▸ hj, (Gkeep j hs).2⟩
  have hstepconv : ∀ x y, pstep s1 x = some y → pstep s x = some y :=
    pstep_keep s1 s hkeepstore
  have hsubfwd : ∀ d j, InSub s1 d j → InSub s d j := by
    rintro d j (hj | hj)
    · exact Or.inl hj
    · exact Or.inr (Relation.TransGen.mono hstepconv hj)
  have hsubback : ∀ e2 ∈ rest, e2 < 0 → ∀ j,
      InSub s (-e2).toNat j → InSub s1 (-e2).toNat j := by
    intro e2 he2 hn2 j hj
    have hne2 : e2 ≠ e := fun hcc => hnotin (hcc ▸ he2)
    have hcne : (-e2).toNat ≠ (-e).toNat := by omega
    have hsib1 : ¬ InSub s (-e).toNat (-e2).toNat :=
      sibling_not_inSub s hpa hh (-e).toNat (-e2).toNat hc.2
        (hrest3 e2 he2 hn2).2 hcne
    have hsib2 : ¬ InSub s (-e2).toNat (-e).toNat :=
      sibling_not_inSub s hpa hh (-e2).toNat (-e).toNat
        (hrest3 e2 he2 hn2).2 hc.2 (by omega)
    rcases hj with hj | hj
    · exact Or.inl hj
    · refine Or.inr (anc_restore s1 s (-e2).toNat ?_ j hj)
      intro v w hvw hvanc
      have hvnot : ¬ InSub s (-e).toNat v := by
        rintro (hv | hv)
        · rw [hv] at hvanc
          exact hsib2 (Or.inr hvanc)
        · rcases anc_functional (pstep s) v (-e2).toNat (-e).toNat
            hvanc hv with h1 | h1 | h1
          · exact hcne h1
          · exact hsib1 (Or.inr h1)
          · exact hsib2 (Or.inr h1)
      have hv2 := Gkeep v hvnot
      rw [pstep_eq_some_iff] at hvw
      rw [pstep_eq_some_iff, hv2.2]
      exact hvw
  have hKDeliff : ∀ j, KDel s1 rest j ↔ KDel s rest j := by
    intro j
    constructor
    · rintro ⟨e2, he2, hn2, hs⟩
      exact ⟨e2, he2, hn2, hsubfwd _ j hs⟩
    · rintro ⟨e2, he2, hn2, hs⟩
      exact ⟨e2, he2, hn2, hsubback e2 he2 hn2 j hs⟩
  have hheadKD : ∀ j, KDel s (e :: rest) j ↔
      (InSub s (-e).toNat j ∨ KDel s rest j) := by
    intro j
    constructor
    · rintro ⟨e2, he2, hn2, hs⟩
      rcases List.mem_cons.mp he2 with h2 | h2
      · subst h2
        exact Or.inl hs
      · exact Or.inr ⟨e2, h2, hn2, hs⟩
    · rintro (hs | ⟨e2, he2, hn2, hs⟩)
      · exact ⟨e, List.mem_cons_self e rest, he, hs⟩
      · exact ⟨e2, List.mem_cons.mpr (Or.inr he2), hn2, hs⟩
  have hdeadprop : ∀ j, grpExists s1 j = false → grpExists s2 j = false := by
    intro j hj
    by_cases hd : KDel s1 rest j
    · exact Kdel j hd
    · rw [(Kkeep j hd).1]
      exact hj
  have htdeadprop : ∀ u, tgtExists s1 u = false → tgtExists s2 u = false := by
    intro u hu
    cases hb : tgtExists s2 u
    · rfl
    · rw [Ktmono u hb] at hu
      cases hu
  refine ⟨?_, ?_, ?_, ?_, ?_, ?_, ?_⟩
  · intro j hj
    rcases (hheadKD j).mp hj with hj2 | hj2
    · exact hdeadprop j (Gdel j hj2)
    · exact Kdel j ((hKDeliff j).mpr hj2)
  · intro j hj
    have hj1 : ¬ InSub s (-e).toNat j :=
      fun hcc => hj ((hheadKD j).mpr (Or.inl hcc))
    have hj2 : ¬ KDel s1 rest j :=
      fun hcc => hj ((hheadKD j).mpr (Or.inr ((hKDeliff j).mp hcc)))
    have ha := Gkeep j hj1
    have hb := Kkeep j hj2
    exact ⟨hb.1.trans ha.1, hb.2.trans ha.2⟩
  · intro j hj hjh
    have hj1 : ¬ InSub s (-e).toNat j :=
      fun hcc => hj ((hheadKD j).mpr (Or.inl hcc))
    have hj2 : ¬ KDel s1 rest j :=
      fun hcc => hj ((hheadKD j).mpr (Or.inr ((hKDeliff j).mp hcc)))
    rw [Kch j hj2 hjh, Gch j hj1 (by rw [hc.2]; exact hjh)]
  · intro j e2 he2
    exact Gsub j e2 (Ksub j e2 he2)
  · intro u hu
    by_cases hphead : InSub s (-e).toNat (getTgtParent s u)
    · exact htdeadprop u (Gtdel u hphead)
    · have hp := Gtkeep u hphead
      rcases hu with ⟨e2, he2, hn2, ht2⟩ | hu
      · rcases List.mem_cons.mp he2 with h2 | h2
        · subst h2
          exact absurd hn2 (by omega)
        · exact Ktdel u (Or.inl ⟨e2, h2, hn2, ht2⟩)
      · rcases (hheadKD _).mp hu with h2 | h2
        · exact absurd h2 hphead
        · refine Ktdel u (Or.inr ?_)
          rw [hp.2]
          exact (hKDeliff _).mpr h2
  · intro u hu
    have hphead : ¬ InSub s (-e).toNat (getTgtParent s u) := fun hcc =>
      hu (Or.inr ((hheadKD _).mpr (Or.inl hcc)))
    have hp := Gtkeep u hphead
    have hu2 : ¬ KTgtDel s1 rest u := by
      rintro (⟨e2, he2, hn2, ht2⟩ | hk2)
      · exact hu (Or.inl ⟨e2, List.mem_cons.mpr (Or.inr he2), hn2, ht2⟩)
      · rw [hp.2] at hk2
        exact hu (Or.inr ((hheadKD _).mpr (Or.inr ((hKDeliff _).mp hk2))))
    have hb := Ktkeep u hu2
    exact ⟨hb.1.trans hp.1, hb.2.trans hp.2⟩
  · intro u hu
    exact Gtmono u (Ktmono u hu)

theorem gconc_keepstore (s s1 : Store) (c : Nat) (hG : GConc s c s1) :
    ∀ j, grpExists s1 j = true → grpExists s j = true ∧
      getGrpParent s1 j = getGrpParent s j := by
  intro j hj
  by_cases hs : InSub s c j
  · rw [hG.1 j hs] at hj
    cases hj
  · exact ⟨(hG.2.1 j hs).1 ▸ hj, (hG.2.1 j hs).2⟩

theorem gconc_stepconv (s s1 : Store) (c : Nat) (hG : GConc s c s1) :
    ∀ x y, pstep s1 x = some y → pstep s x = some y :=
  pstep_keep s1 s (gconc_keepstore s s1 c hG)

theorem gconc_subfwd (s s1 : Store) (c : Nat) (hG : GConc s c s1) :
    ∀ d j, InSub s1 d j → InSub s d j := by
  rintro d j (hj | hj)
  · exact Or.inl hj
  · exact Or.inr (Relation.TransGen.mono (gconc_stepconv s s1 c hG) hj)

theorem delete_target_delInv (s : Store) (X : List Nat) (t0 h0 : Nat)
    (hinv : DelInv s X) (hX : h0 ∈ X) (hpar : getTgtParent s t0 = h0) :
    DelInv (delete_target s t0) X := by
  refine ⟨hinv.grpKeysNodup, ?_, hinv.rootParent, hinv.parentLives,
    hinv.childGrp, ?_, hinv.childNodup,
    fun g hg hg0 hgX => hinv.grpInParentX g hg hg0 hgX, ?_, hinv.pacyclic⟩
  · have hsubl : List.Sublist ((delete_target s t0).tgts.map Prod.fst)
        (s.tgts.map Prod.fst) :=
      (List.filter_sublist _).map Prod.fst
    exact hinv.tgtKeysNodup.sublist hsubl
  · intro g e hg hgX he hnn
    have hbase := hinv.childTgtX g e hg hgX he hnn
    have hne : e.toNat ≠ t0 := by
      intro hcc
      apply hgX
      rw [← hbase.2, hcc, hpar]
      exact hX
    rw [tgtExists_delete_target, if_neg hne,
      getTgtParent_delete_target, if_neg hne]
    exact hbase
  · intro u hu
    rw [tgtExists_delete_target] at hu
    by_cases hut : u = t0
    · rw [if_pos hut] at hu
      cases hu
    · rw [if_neg hut] at hu
      rw [getTgtParent_delete_target, if_neg hut]
      exact hinv.tgtParentIn u hu

theorem deleteKids_spec_of (fuel : Nat)
    (hGmain : ∀ g X s, DelInv s X → grpExists s g = true → g ≠ 0 →
      (∀ x ∈ X, ¬ InSub s g x) →
      (∀ j n, stepN (pstep s) n j = some g → n < fuel) →
      ∃ s', deleteGrpF fuel g s = .ok s' ∧ DelInv s' X ∧ GConc s g s') :
    ∀ (l : List Int) (hhv : Nat) (X : List Nat) (s : Store),
      DelInv s X → hhv ∈ X → l.Nodup →
      (∀ e ∈ l, e < 0 → grpExists s (-e).toNat = true ∧
        getGrpParent s (-e).toNat = hhv) →
      (∀ e ∈ l, 0 ≤ e → tgtExists s e.toNat = true ∧
        getTgtParent s e.toNat = hhv) →
      (∀ x ∈ X, ∀ e ∈ l, e < 0 → ¬ InSub s (-e).toNat x) →
      (∀ e ∈ l, e < 0 → ∀ j n, stepN (pstep s) n j = some (-e).toNat →
        n < fuel) →
      ∃ s', deleteKids fuel l s = .ok s' ∧ DelInv s' X ∧ KConc s hhv l s' := by
  intro l
  induction l with
  | nil =>
    intro hhv X s hinv _ _ _ _ _ _
    exact ⟨s, deleteKids_nil fuel s, hinv, kConc_nil s hhv⟩
  | cons e rest ihl =>
    intro hhv X s hinv hhX hnd h3 h4 h5 h6
    have hmeme : e ∈ e :: rest := List.mem_cons_self e rest
    have hnd2 := (List.nodup_cons.mp hnd).2
    have henotin := (List.nodup_cons.mp hnd).1
    have hpa := hinv.pacyclic
    by_cases he : e < 0
    · have hc := h3 e hmeme he
      have hc0 : (-e).toNat ≠ 0 := by omega
      have hXc : ∀ x ∈ X, ¬ InSub s (-e).toNat x :=
        fun x hx => h5 x hx e hmeme he
      obtain ⟨s1, hd1, hinv1, hG⟩ :=
        hGmain (-e).toNat X s hinv hc.1 hc0 hXc (h6 e hmeme he)
      have hsubfwd := gconc_subfwd s s1 (-e).toNat hG
      have hstepconv := gconc_stepconv s s1 (-e).toNat hG
      have h3r : ∀ e2 ∈ rest, e2 < 0 → grpExists s1 (-e2).toNat = true ∧
          getGrpParent s1 (-e2).toNat = hhv := by
        intro e2 he2 hn2
        have hbase := h3 e2 (List.mem_cons.mpr (Or.inr he2)) hn2
        have hnsub : ¬ InSub s (-e).toNat (-e2).toNat :=
          sibling_not_inSub s hpa hhv (-e).toNat (-e2).toNat hc.2 hbase.2
            (by have : e2 ≠ e := fun hcc => henotin (hcc ▸ he2); omega)
        have hk := hG.2.1 _ hnsub
        exact ⟨by rw [hk.1]; exact hbase.1, by rw [hk.2]; exact hbase.2⟩
      have h4r : ∀ e2 ∈ rest, 0 ≤ e2 → tgtExists s1 e2.toNat = true ∧
          getTgtParent s1 e2.toNat = hhv := by
        intro e2 he2 hn2
        have hbase := h4 e2 (List.mem_cons.mpr (Or.inr he2)) hn2
        have hnsub : ¬ InSub s (-e).toNat (getTgtParent s e2.toNat) := by
          rw [hbase.2]
          exact owner_not_inSub s hpa hinv.rootParent (-e).toNat hhv hc.2 hc0
        have hk := hG.2.2.2.2.2.2.1 _ hnsub
        exact ⟨by rw [hk.1]; exact hbase.1, by rw [hk.2]; exact hbase.2⟩
      have h5r : ∀ x ∈ X, ∀ e2 ∈ rest, e2 < 0 →
          ¬ InSub s1 (-e2).toNat x := by
        intro x hx e2 he2 hn2 hcc
        exact h5 x hx e2 (List.mem_cons.mpr (Or.inr he2)) hn2
          (hsubfwd _ _ hcc)
      have h6r : ∀ e2 ∈ rest, e2 < 0 → ∀ j n,
          stepN (pstep s1) n j = some (-e2).toNat → n < fuel := by
        intro e2 he2 hn2 j n hstep
        exact h6 e2 (List.mem_cons.mpr (Or.inr he2)) hn2 j n
          (stepN_mono (pstep s) (pstep s1) hstepconv n j _ hstep)
      obtain ⟨s2, hd2, hinv2, hK⟩ :=
        ihl hhv X s1 hinv1 hhX hnd2 h3r h4r h5r h6r
      refine ⟨s2, ?_, hinv2,
        kConc_cons_neg s s1 s2 hhv e rest he hpa hc
          (fun e2 he2 hn2 => h3 e2 (List.mem_cons.mpr (Or.inr he2)) hn2)
          henotin hG hK⟩
      rw [deleteKids_cons_neg fuel e rest s he, hd1]
      exact hd2
    · have hbase := h4 e hmeme (by omega)
      have hinv1 : DelInv (delete_target s e.toNat) X :=
        delete_target_delInv s X e.toNat hhv hinv hhX hbase.2
      have h3r : ∀ e2 ∈ rest, e2 < 0 →
          grpExists (delete_target s e.toNat) (-e2).toNat = true ∧
          getGrpParent (delete_target s e.toNat) (-e2).toNat = hhv :=
        fun e2 he2 hn2 => h3 e2 (List.mem_cons.mpr (Or.inr he2)) hn2
      have h4r : ∀ e2 ∈ rest, 0 ≤ e2 →
          tgtExists (delete_target s e.toNat) e2.toNat = true ∧
          getTgtParent (delete_target s e.toNat) e2.toNat = hhv := by
        intro e2 he2 hn2
        have hb2 := h4 e2 (List.mem_cons.mpr (Or.inr he2)) hn2
        have hne : e2.toNat ≠ e.toNat := by
          have : e2 ≠ e := fun hcc => henotin (hcc ▸ he2)
          omega
        rw [tgtExists_delete_target, if_neg hne,
          getTgtParent_delete_target, if_neg hne]
        exact hb2
      have h5r : ∀ x ∈ X, ∀ e2 ∈ rest, e2 < 0 →
          ¬ InSub (delete_target s e.toNat) (-e2).toNat x := by
        intro x hx e2 he2 hn2 hcc
        rw [inSub_congr (delete_target s e.toNat) s (fun x2 => rfl)] at hcc
        exact h5 x hx e2 (List.mem_cons.mpr (Or.inr he2)) hn2 hcc
      have h6r : ∀ e2 ∈ rest, e2 < 0 → ∀ j n,
          stepN (pstep (delete_target s e.toNat)) n j = some (-e2).toNat →
          n < fuel := by
        intro e2 he2 hn2 j n hstep
        rw [stepN_congr (pstep s) (pstep (delete_target s e.toNat))
          (fun x2 => rfl)] at hstep
        exact h6 e2 (List.mem_cons.mpr (Or.inr he2)) hn2 j n hstep
      obtain ⟨s2, hd2, hinv2, hK⟩ :=
        ihl hhv X (delete_target s e.toNat) hinv1 hhX hnd2 h3r h4r h5r h6r
      refine ⟨s2, ?_, hinv2, kConc_cons_nonneg s s2 hhv e rest he hK⟩
      rw [deleteKids_cons_nonneg fuel e rest s he]
      exact hd2

theorem deleteGrpF_spec : ∀ fuel : Nat,
    ∀ g X s, DelInv s X → grpExists s g = true → g ≠ 0 →
      (∀ x ∈ X, ¬ InSub s g x) →
      (∀ j n, stepN (pstep s) n j = some g → n < fuel) →
      ∃ s', deleteGrpF fuel g s = .ok s' ∧ DelInv s' X ∧ GConc s g s' := by
  intro fuel
  induction fuel with
  | zero =>
    intro g X s _ _ _ _ hfuel
    exact absurd (hfuel g 0 rfl) (by omega)
  | succ fuel ihG =>
    intro g X s hinv hex hg0 hX hfuel
    have hpa := hinv.pacyclic
    have hroot := hinv.rootParent
    have hgX : g ∉ X := fun hc => hX g hc (Or.inl rfl)
    have hmem : -(g : Int) ∈ getGrpChildren s (getGrpParent s g) :=
      hinv.grpInParentX g hex hg0 hgX
    have hpex : grpExists s (getGrpParent s g) = true :=
      hinv.parentLives g hex hg0
    have hgp : g ≠ getGrpParent s g := by
      intro hc
      exact hpa g (Relation.TransGen.single
        ((pstep_eq_some_iff s g g).mpr ⟨hc.symm, by omega⟩))
    have hinv1 : DelInv (delDetach s g) (g :: X) :=
      delDetach_delInv s X g hinv hex hg0
    have hE1 := delDetach_exists s g hpex
    have hP1 := delDetach_grpParent s g
    have hps1 := delDetach_pstep s g
    have hlg : getGrpChildren (delDetach s g) g = getGrpChildren s g :=
      delDetach_children_ne s g g hgp
    have hsubcongr : ∀ d j, InSub (delDetach s g) d j ↔ InSub s d j :=
      inSub_congr (delDetach s g) s hps1
    -- hypotheses for the child loop
    have h3 : ∀ e ∈ getGrpChildren (delDetach s g) g, e < 0 →
        grpExists (delDetach s g) (-e).toNat = true ∧
        getGrpParent (delDetach s g) (-e).toNat = g := by
      intro e he hne
      rw [hlg] at he
      have hb := hinv.childGrp g e hex he hne
      rw [hE1, hP1]
      exact hb
    have h4 : ∀ e ∈ getGrpChildren (delDetach s g) g, 0 ≤ e →
        tgtExists (delDetach s g) e.toNat = true ∧
        getTgtParent (delDetach s g) e.toNat = g := by
      intro e he hnn
      rw [hlg] at he
      have hb := hinv.childTgtX g e hex hgX he hnn
      rw [delDetach_tgtExists, delDetach_tgtParent]
      exact hb
    have h5 : ∀ x ∈ g :: X, ∀ e ∈ getGrpChildren (delDetach s g) g, e < 0 →
        ¬ InSub (delDetach s g) (-e).toNat x := by
      intro x hx e he hne hcc
      rw [hsubcongr] at hcc
      rw [hlg] at he
      have hb := hinv.childGrp g e hex he hne
      have hc0 : (-e).toNat ≠ 0 := by omega
      rcases List.mem_cons.mp hx with hx | hx
      · subst hx
        exact owner_not_inSub s hpa hroot (-e).toNat x hb.2 hc0 hcc
      · have hstep : pstep s (-e).toNat = some g :=
          (pstep_eq_some_iff s _ g).mpr ⟨hb.2, by omega⟩
        exact hX x hx (sub_step_up s hpa (-e).toNat g hstep x hcc)
    have h6 : ∀ e ∈ getGrpChildren (delDetach s g) g, e < 0 → ∀ j n,
        stepN (pstep (delDetach s g)) n j = some (-e).toNat → n < fuel := by
      intro e he hne j n hstep
      rw [stepN_congr (pstep s) (pstep (delDetach s g)) hps1] at hstep
      rw [hlg] at he
      have hb := hinv.childGrp g e hex he hne
      have hstepg : pstep s (-e).toNat = some g :=
        (pstep_eq_some_iff s _ g).mpr ⟨hb.2, by omega⟩
      have := hfuel j (n + 1) (stepN_snoc (pstep s) n j _ g hstep hstepg)
      omega
    obtain ⟨s2, hk, hinv2, KC⟩ := deleteKids_spec_of fuel ihG
      (getGrpChildren (delDetach s g) g) g (g :: X) (delDetach s g)
      hinv1 (List.mem_cons_self g X)
      (by rw [hlg]; exact hinv.childNodup g hex) h3 h4 h5 h6
    have heq : deleteGrpF (fuel + 1) g s = .ok (removeGrpRecord s2 g) := by
      rw [deleteGrpF_succ fuel g s hex, hk]
      rfl
    -- decomposition of the subtree into child subtrees
    have hdec : ∀ j, InSub s g j → j ≠ g →
        KDel (delDetach s g) (getGrpChildren (delDetach s g) g) j := by
      intro j hj hjg
      rcases inSub_decompose s g j hj hjg with ⟨c0, hc0step, hc0sub⟩
      have hc0par := ((pstep_eq_some_iff s c0 g).mp hc0step).1
      have hc0live := pstep_some_exists s c0 g hc0step
      have hc00 : c0 ≠ 0 := by
        intro hc
        rw [hc, hroot] at hc0par
        exact hg0 hc0par.symm
      have hc0nX : c0 ∉ X := fun hc =>
        hX c0 hc (Or.inr (Relation.TransGen.single hc0step))
      have hc0mem : -(c0 : Int) ∈ getGrpChildren s g := by
        have := hinv.grpInParentX c0 hc0live hc00 hc0nX
        rw [hc0par] at this
        exact this
      refine ⟨-(c0 : Int), by rw [hlg]; exact hc0mem, by omega, ?_⟩
      rw [show ((-(-(c0 : Int))).toNat) = c0 by simp]
      rw [hsubcongr]
      exact hc0sub
    have hdec2 : ∀ j, KDel (delDetach s g) (getGrpChildren (delDetach s g) g) j →
        InSub s g j ∧ j ≠ g := by
      rintro j ⟨e, he, hne, hsub⟩
      rw [hlg] at he
      rw [hsubcongr] at hsub
      have hb := hinv.childGrp g e hex he hne
      have hc0 : (-e).toNat ≠ 0 := by omega
      have hstepg : pstep s (-e).toNat = some g :=
        (pstep_eq_some_iff s _ g).mpr ⟨hb.2, by omega⟩
      constructor
      · exact sub_step_up s hpa (-e).toNat g hstepg j hsub
      · intro hc
        rw [hc] at hsub
        exact owner_not_inSub s hpa hroot (-e).toNat g hb.2 hc0 hsub
    -- facts about s2 before the final record removal
    have hglive2 : grpExists s2 g = true ∧ getGrpParent s2 g = getGrpParent s g := by
      have hnk : ¬ KDel (delDetach s g) (getGrpChildren (delDetach s g) g) g :=
        fun hk2 => (hdec2 g hk2).2 rfl
      have h0 := KC.2.1 g hnk
      rw [hE1, hP1] at h0
      exact ⟨h0.1.trans hex, h0.2⟩
    have hnosurvpar : ∀ j, grpExists s2 j = true → getGrpParent s2 j ≠ g := by
      intro j hj hc
      have hnk : ¬ KDel (delDetach s g) (getGrpChildren (delDetach s g) g) j := by
        intro hk2
        rw [KC.1 j hk2] at hj
        cases hj
      have hkeep := KC.2.1 j hnk
      rw [hE1] at hkeep
      rw [hkeep.2, hP1] at hc
      have hjg : j ≠ g := by
        intro hc2
        rw [hc2] at hc
        exact hgp hc.symm
      have hsub : InSub s g j := Or.inr (Relation.TransGen.single
        ((pstep_eq_some_iff s j g).mpr ⟨hc, by omega⟩))
      exact hjg (False.elim (by
        have := KC.1 j (hdec j hsub hjg)
        rw [this] at hj
        cases hj))
    have hnotgtpar : ∀ u, tgtExists s2 u = true → getTgtParent s2 u ≠ g := by
      intro u hu hc
      have hmem2 := (hinv2.tgtParentIn u hu).2
      rw [hc] at hmem2
      have hmem1 := KC.2.2.2.1 g _ hmem2
      have : KTgtDel (delDetach s g) (getGrpChildren (delDetach s g) g) u :=
        Or.inl ⟨(u : Int), hmem1, by omega, by simp⟩
      rw [KC.2.2.2.2.1 u this] at hu
      cases hu
    have hnochildg : ∀ j, grpExists s2 j = true →
        -(g : Int) ∉ getGrpChildren s2 j := by
      intro j hj hmem2
      have hb := hinv2.childGrp j (-(g : Int)) hj hmem2 (by omega)
      rw [show ((-(-(g : Int))).toNat) = g by simp] at hb
      have hjp : j = getGrpParent s g := by
        rw [← hglive2.2]
        exact hb.2.symm
      rw [hjp] at hmem2
      have hpns : ¬ InSub s g (getGrpParent s g) :=
        parent_not_inSub s hpa hroot g hg0
      have hnk : ¬ KDel (delDetach s g) (getGrpChildren (delDetach s g) g)
          (getGrpParent s g) := fun hk2 => hpns (hdec2 _ hk2).1
      rw [KC.2.2.1 (getGrpParent s g) hnk (Ne.symm hgp),
        delDetach_children_p s g hmem] at hmem2
      exact not_mem_eraseIdx_indexOf _ (hinv.childNodup _ hpex) _ hmem2
    refine ⟨removeGrpRecord s2 g, heq, ?_, ?_, ?_, ?_, ?_, ?_, ?_, ?_, ?_⟩
    -- DelInv of the final store
    · refine ⟨?_, hinv2.tgtKeysNodup, ?_, ?_, ?_, ?_, ?_, ?_, ?_, ?_⟩
      · exact hinv2.grpKeysNodup.sublist ((List.filter_sublist _).map Prod.fst)
      · rw [getGrpParent_removeGrpRecord, if_neg (fun hc => hg0 hc.symm)]
        exact hinv2.rootParent
      · intro j hj hj0
        rw [grpExists_removeGrpRecord] at hj
        by_cases hjg : j = g
        · rw [if_pos hjg] at hj
          cases hj
        · rw [if_neg hjg] at hj
          rw [getGrpParent_removeGrpRecord, if_neg hjg,
            grpExists_removeGrpRecord, if_neg (hnosurvpar j hj)]
          exact hinv2.parentLives j hj hj0
      · intro j e hj he hne
        rw [grpExists_removeGrpRecord] at hj
        by_cases hjg : j = g
        · rw [if_pos hjg] at hj
          cases hj
        · rw [if_neg hjg] at hj
          rw [getGrpChildren_removeGrpRecord, if_neg hjg] at he
          have hb := hinv2.childGrp j e hj he hne
          have hcg : (-e).toNat ≠ g := by
            intro hc
            apply hnochildg j hj
            rw [show -(g : Int) = e by omega]
            exact he
          rw [grpExists_removeGrpRecord, if_neg hcg,
            getGrpParent_removeGrpRecord, if_neg hcg]
          exact hb
      · intro j e hj hjX he hnn
        rw [grpExists_removeGrpRecord] at hj
        by_cases hjg : j = g
        · rw [if_pos hjg] at hj
          cases hj
        · rw [if_neg hjg] at hj
          rw [getGrpChildren_removeGrpRecord, if_neg hjg] at he
          have hb := hinv2.childTgtX j e hj
            (fun hc => hjX (List.mem_cons.mp hc |>.elim (fun h2 => absurd h2 hjg) id)) he hnn
          unfold tgtExists getTgtParent removeGrpRecord
          exact hb
      · intro j hj
        rw [grpExists_removeGrpRecord] at hj
        by_cases hjg : j = g
        · rw [if_pos hjg] at hj
          cases hj
        · rw [if_neg hjg] at hj
          rw [getGrpChildren_removeGrpRecord, if_neg hjg]
          exact hinv2.childNodup j hj
      · intro j hj hj0 hjX
        rw [grpExists_removeGrpRecord] at hj
        by_cases hjg : j = g
        · rw [if_pos hjg] at hj
          cases hj
        · rw [if_neg hjg] at hj
          rw [getGrpParent_removeGrpRecord, if_neg hjg,
            getGrpChildren_removeGrpRecord, if_neg (hnosurvpar j hj)]
          exact hinv2.grpInParentX j hj hj0
            (fun hc => hjX (List.mem_cons.mp hc |>.elim (fun h2 => absurd h2 hjg) id))
      · intro u hu
        have hu2 : tgtExists s2 u = true := hu
        have hb := hinv2.tgtParentIn u hu2
        have hpg := hnotgtpar u hu2
        show grpExists (removeGrpRecord s2 g) (getTgtParent s2 u) = true ∧ _
        rw [grpExists_removeGrpRecord, if_neg hpg]
        refine ⟨hb.1, ?_⟩
        show (u : Int) ∈ getGrpChildren (removeGrpRecord s2 g) (getTgtParent s2 u)
        rw [getGrpChildren_removeGrpRecord, if_neg hpg]
        exact hb.2
      · intro x hx
        have hmono : ∀ a b, pstep (removeGrpRecord s2 g) a = some b →
            pstep s2 a = some b := by
          intro a b hab
          rw [pstep_eq_some_iff] at hab
          rw [getGrpParent_removeGrpRecord] at hab
          by_cases hag : a = g
          · rw [if_pos hag] at hab
            omega
          · rw [if_neg hag] at hab
            exact (pstep_eq_some_iff s2 a b).mpr hab
        exact hinv2.pacyclic x (Relation.TransGen.mono hmono hx)
    -- GConc conclusions
    · intro j hj
      by_cases hjg : j = g
      · rw [hjg, grpExists_removeGrpRecord, if_pos rfl]
      · rw [grpExists_removeGrpRecord, if_neg hjg]
        exact KC.1 j (hdec j hj hjg)
    · intro j hj
      have hjg : j ≠ g := fun hc => hj (hc ▸ Or.inl rfl)
      have hnk : ¬ KDel (delDetach s g) (getGrpChildren (delDetach s g) g) j :=
        fun hk2 => hj (hdec2 j hk2).1
      have hkeep := KC.2.1 j hnk
      rw [hE1, hP1] at hkeep
      rw [grpExists_removeGrpRecord, if_neg hjg,
        getGrpParent_removeGrpRecord, if_neg hjg]
      exact hkeep
    · intro j hj hjp
      have hjg : j ≠ g := fun hc => hj (hc ▸ Or.inl rfl)
      have hnk : ¬ KDel (delDetach s g) (getGrpChildren (delDetach s g) g) j :=
        fun hk2 => hj (hdec2 j hk2).1
      rw [getGrpChildren_removeGrpRecord, if_neg hjg,
        KC.2.2.1 j hnk hjg, delDetach_children_ne s g j hjp]
    · have hpns : ¬ InSub s g (getGrpParent s g) :=
        parent_not_inSub s hpa hroot g hg0
      have hnk : ¬ KDel (delDetach s g) (getGrpChildren (delDetach s g) g)
          (getGrpParent s g) := fun hk2 => hpns (hdec2 _ hk2).1
      rw [getGrpChildren_removeGrpRecord, if_neg (Ne.symm hgp),
        KC.2.2.1 (getGrpParent s g) hnk (Ne.symm hgp),
        delDetach_children_p s g hmem]
    · intro j e he
      by_cases hjg : j = g
      · rw [hjg, getGrpChildren_removeGrpRecord, if_pos rfl] at he
        cases he
      · rw [getGrpChildren_removeGrpRecord, if_neg hjg] at he
        exact (delDetach_children_subl s g j).mem (KC.2.2.2.1 j e he)
    · intro u hu
      have hp0 : getTgtParent s u ≠ 0 :=
        fun hc => inSub_zero s hroot g hg0 (hc ▸ hu)
      have hulive : tgtExists s u = true := by
        cases hb : tgtExists s u
        · exact absurd (getTgtParent_not_exists s u hb) hp0
        · rfl
      show tgtExists s2 u = false
      by_cases hpg : getTgtParent s u = g
      · have hmem2 := (hinv.tgtParentIn u hulive).2
        rw [hpg] at hmem2
        refine KC.2.2.2.2.1 u (Or.inl ⟨(u : Int), ?_, by omega, by simp⟩)
        rw [hlg]
        exact hmem2
      · refine KC.2.2.2.2.1 u (Or.inr ?_)
        rw [delDetach_tgtParent]
        exact hdec (getTgtParent s u) hu hpg
    · intro u hu
      have hnk : ¬ KTgtDel (delDetach s g) (getGrpChildren (delDetach s g) g) u := by
        rintro (⟨e, he, hnn, ht⟩ | hk2)
        · rw [hlg] at he
          have hb := hinv.childTgtX g e hex hgX he hnn
          rw [ht] at hb
          exact hu (hb.2 ▸ Or.inl rfl)
        · rw [delDetach_tgtParent] at hk2
          exact hu (hdec2 _ hk2).1
      have hkeep := KC.2.2.2.2.2.1 u hnk
      rw [delDetach_tgtExists, delDetach_tgtParent] at hkeep
      exact hkeep
    · intro u hu
      have := KC.2.2.2.2.2.2 u hu
      rw [delDetach_tgtExists] at this
      exact this

theorem grpExists_iff_mem (s : Store) (j : Nat) :
    grpExists s j = true ↔ j ∈ s.grps.map Prod.fst := by
  constructor
  · intro h
    unfold grpExists at h
    rcases hl : lookupGrp s j with _ | r
    · rw [hl] at h
      cases h
    · exact mem_keys_of_lookup_some s.grps j r hl
  · intro h
    unfold grpExists
    rcases hl : lookupGrp s j with _ | r
    · exact absurd h (not_mem_keys_of_lookup_none s.grps j hl)
    · rfl

/-- C2 (amended to existing NON-ROOT groups on a store satisfying the
invariants): `delete_grp(g)` succeeds; the subtree of `g` is exactly `g`
together with the groups whose parent walk reaches `g` (equivalently, the
groups whose computed ancestor chain contains `g`); the call erases `-g`
from its former parent's child list, removes exactly the subtree's group
records, removes exactly the leaves whose parent lies in the subtree, and
`get_grp_count` drops by exactly the number of deleted groups. -/
theorem delete_grp_cascade (s : Store) (g : Nat) (hinv : StoreInv s)
    (hg : grpExists s g = true) (hg0 : g ≠ 0) :
    ∃ s', delete_grp s g = .ok s' ∧
      (∀ j, InSub s g j ↔ (j = g ∨ g ∈ grpParentChain s (chainFuel s) j)) ∧
      getGrpChildren s' (getGrpParent s g) =
        (getGrpChildren s (getGrpParent s g)).eraseIdx
          ((getGrpChildren s (getGrpParent s g)).indexOf (-(g : Int))) ∧
      -(g : Int) ∉ getGrpChildren s' (getGrpParent s g) ∧
      (∀ j, InSub s g j → grpExists s' j = false) ∧
      (∀ j, ¬ InSub s g j → grpExists s' j = grpExists s j) ∧
      (∀ t, InSub s g (getTgtParent s t) → tgtExists s' t = false) ∧
      (∀ t, ¬ InSub s g (getTgtParent s t) → tgtExists s' t = tgtExists s t) ∧
      get_grp_count s' +
        ((get_all_grp_indices s).filter (fun j => decide (j = g) ||
          decide (g ∈ grpParentChain s (chainFuel s) j))).length =
        get_grp_count s := by
  have hdel := DelInv.of_storeInv s hinv
  have hfuel : ∀ j n, stepN (pstep s) n j = some g → n < s.grps.length + 1 := by
    intro j n hstep
    have := stepN_le_keys (pstep s) (s.grps.map Prod.fst)
      (pstep_irrefl_of_acyclic s hinv.acyclic) (pstep_mem_keys s) n j g hstep
    rw [List.length_map] at this
    omega
  obtain ⟨s', heq, hinv', GC⟩ := deleteGrpF_spec (s.grps.length + 1) g [] s
    hdel hg hg0 (by intro x hx; cases hx) hfuel
  have hiff : ∀ j, InSub s g j ↔
      (j = g ∨ g ∈ grpParentChain s (chainFuel s) j) := by
    intro j
    unfold InSub
    constructor
    · rintro (h | h)
      · exact Or.inl h
      · exact Or.inr (grpParentChain_complete s hinv.acyclic j g h)
    · rintro (h | h)
      · exact Or.inl h
      · exact Or.inr (grpParentChain_sound s (chainFuel s) j g h)
  refine ⟨s', by rw [delete_grp]; exact heq, hiff, GC.2.2.2.1, ?_, GC.1,
    fun j hj => (GC.2.1 j hj).1, GC.2.2.2.2.2.1,
    fun t ht => (GC.2.2.2.2.2.2.1 t ht).1, ?_⟩
  · rw [GC.2.2.2.1]
    exact not_mem_eraseIdx_indexOf _
      (hinv.childNodup _ (hinv.parentLives g hg hg0)) _
  · have hperm : (s'.grps.map Prod.fst).Perm
        ((s.grps.map Prod.fst).filter (fun j => !(decide (j = g) ||
          decide (g ∈ grpParentChain s (chainFuel s) j)))) := by
      rw [List.perm_ext_iff_of_nodup hinv'.grpKeysNodup
        (hinv.grpKeysNodup.filter _)]
      intro a
      rw [List.mem_filter]
      constructor
      · intro ha
        have hex2 : grpExists s' a = true := (grpExists_iff_mem s' a).mpr ha
        have hnsub : ¬ InSub s g a := by
          intro hsub
          rw [GC.1 a hsub] at hex2
          cases hex2
        have hnd : ¬(a = g ∨ g ∈ grpParentChain s (chainFuel s) a) :=
          fun hc => hnsub ((hiff a).mpr hc)
        push_neg at hnd
        refine ⟨(grpExists_iff_mem s a).mp ((GC.2.1 a hnsub).1 ▸ hex2), ?_⟩
        simp [hnd.1, hnd.2]
      · rintro ⟨ha, hb⟩
        have hnd : ¬(a = g ∨ g ∈ grpParentChain s (chainFuel s) a) := by
          intro hc
          rcases hc with hc | hc <;> simp [hc] at hb
        have hnsub : ¬ InSub s g a := fun hsub => hnd ((hiff a).mp hsub)
        have hex2 := (GC.2.1 a hnsub).1
        exact (grpExists_iff_mem s' a).mp
          (by rw [hex2]; exact (grpExists_iff_mem s a).mpr ha)
    have hsplit := @List.length_eq_length_filter_add Nat (s.grps.map Prod.fst)
      (fun j => decide (j = g) || decide (g ∈ grpParentChain s (chainFuel s) j))
    have hlen := hperm.length_eq
    have h1 : get_grp_count s' = (s'.grps.map Prod.fst).length := rfl
    have h2 : get_grp_count s = (s.grps.map Prod.fst).length := rfl
    have h3 : (get_all_grp_indices s).filter (fun j => decide (j = g) ||
        decide (g ∈ grpParentChain s (chainFuel s) j)) =
        (s.grps.map Prod.fst).filter (fun j => decide (j = g) ||
        decide (g ∈ grpParentChain s (chainFuel s) j)) := rfl
    rw [h1, h2, h3, hlen, hsplit]
    omega

/-- Store for the C2 counterexample: the root holds the single leaf 0. -/
def storeC2 : Store := ⟨[(0, ⟨0, [0], some "Group"⟩)], [(0, 0)]⟩

/-- C2 counterexample: with g = 0 the detach step pops the LEAF entry 0
(`-0 == 0`), the child loop then sees an empty list, and the nested leaf 0
survives the call while the root record itself is removed -- the cascade
does not delete everything nested under g. -/
theorem delete_grp_root_leaf_counterexample :
    StoreInv storeC2 ∧ grpExists storeC2 0 = true ∧
    tgtExists storeC2 0 = true ∧ getTgtParent storeC2 0 = 0 ∧
    ((0 : Int)) ∈ getGrpChildren storeC2 0 ∧
    delete_grp storeC2 0 = .ok (⟨[], [(0, 0)]⟩ : Store) ∧
    tgtExists (⟨[], [(0, 0)]⟩ : Store) 0 = true :=
  ⟨invCheck_sound storeC2 (by decide), by decide, by decide, by decide,
   by decide,
   by rw [delete_grp_leaf_eq storeC2 0 (by decide) (by decide)]; rfl,
   by decide⟩

/-- Store for the C2 witness: group 1 under the root holds group 2 and
leaf 5. -/
def storeC2w : Store :=
  ⟨[(0, ⟨0, [-1], some "Group"⟩), (1, ⟨0, [-2, 5], some "A"⟩),
    (2, ⟨1, [], some "B"⟩)], [(5, 1)]⟩

theorem delete_grp_cascade_witness :
    invCheck storeC2w = true ∧ grpExists storeC2w 1 = true ∧
    (1 : Nat) ≠ 0 ∧
    (∃ s', delete_grp storeC2w 1 = .ok s' ∧
      (∀ j, InSub storeC2w 1 j ↔
        (j = 1 ∨ 1 ∈ grpParentChain storeC2w (chainFuel storeC2w) j)) ∧
      getGrpChildren s' (getGrpParent storeC2w 1) =
        (getGrpChildren storeC2w (getGrpParent storeC2w 1)).eraseIdx
          ((getGrpChildren storeC2w (getGrpParent storeC2w 1)).indexOf
            (-((1 : Nat) : Int))) ∧
      -((1 : Nat) : Int) ∉ getGrpChildren s' (getGrpParent storeC2w 1) ∧
      (∀ j, InSub storeC2w 1 j → grpExists s' j = false) ∧
      (∀ j, ¬ InSub storeC2w 1 j → grpExists s' j = grpExists storeC2w j) ∧
      (∀ t, InSub storeC2w 1 (getTgtParent storeC2w t) →
        tgtExists s' t = false) ∧
      (∀ t, ¬ InSub storeC2w 1 (getTgtParent storeC2w t) →
        tgtExists s' t = tgtExists storeC2w t) ∧
      get_grp_count s' +
        ((get_all_grp_indices storeC2w).filter (fun j => decide (j = 1) ||
          decide (1 ∈ grpParentChain storeC2w (chainFuel storeC2w) j))).length =
        get_grp_count storeC2w) :=
  ⟨by decide, by decide, by decide,
   delete_grp_cascade storeC2w 1 (invCheck_sound storeC2w (by decide))
     (by decide) (by decide)⟩
